import Mathlib

/-!
obsidian-index: the indexator, embedded and verified.

A shallow embedding of `internal/indexator/indexator.go` (and of `Validate` of
`internal/config/config.go` and the vault path `runInit` of
`internal/cmd/init.go` computes).

* Go strings are Lean `String`s; the functions of the Go standard library the
  indexator calls (`strings`, `path/filepath`, `os`, `io/fs`, `sort`) are
  modelled from their documentation, for a Unix platform (separator `/`, no
  volume names).
* The file system is a tree of directories and regular files rooted at `/`,
  without symbolic links and without permission errors; a relative path name
  is resolved from the root. The state of a run is the tree, the log written
  so far and the reading of the clock.
* `os.Stat` resolves a path name as the kernel does, piece by piece, so that
  `.`, `..` and a trailing separator are taken only in a directory that
  exists: this is the call that meets path names that are not clean (the vault
  path with `/.` in `os.DirFS`, the vault path in `Validate`). The other calls
  resolve the cleaned name; the indexator hands them results of
  `filepath.Join`, with a suffix, for which the two agree.
* A system call that fails changes nothing: there is no disk-full or I/O fault
  after a file was opened.
* Every function of `indexator.go` is a function from the state before the
  call to the state after it, paired with the Go `error` it returns.
* `sort.Slice` is a parameter of `Start`; `insertionSortLessFunc` is what Go
  runs on short slices.
* The general theorems are about a vault given by a clean absolute path
  (`VaultAt`), as `filepath.Abs` hands it over in the `init` command, in a tree
  whose entry names are valid (`Node.wf`).
-/

namespace ObsidianIndex

/-! ## Package `strings` -/

/-- The characters of `sub` occur consecutively somewhere in the list. -/
def containsChars (sub : List Char) : List Char → Bool
  | [] => sub.isEmpty
  | c :: cs => sub.isPrefixOf (c :: cs) || containsChars sub cs

/-- Go `strings.Contains(s, substr)`. -/
def strContains (s substr : String) : Bool := containsChars substr.data s.data

/-- Go `strings.HasPrefix(s, prefix)`. -/
def strHasPrefix (s pre : String) : Bool := pre.data.isPrefixOf s.data

/-- Go `strings.Count(s, string(sep))` for a one-byte separator. -/
def strCount (s : String) (sep : Char) : Nat := s.data.count sep

/-- The order of Go strings on their characters: byte-wise on UTF-8, which is
the order of the code points. -/
def charsLess : List Char → List Char → Bool
  | _, [] => false
  | [], _ :: _ => true
  | a :: as, b :: bs =>
    if a.toNat < b.toNat then true
    else if b.toNat < a.toNat then false
    else charsLess as bs

/-- Go `a < b` on strings. -/
def strLess (a b : String) : Bool := charsLess a.data b.data

/-- Go `strings.Join(elems, sep)`. -/
def strJoin (elems : List String) (sep : String) : String :=
  String.mk (List.intercalate sep.data (elems.map String.data))

/-- Go `unicode.IsSpace`. -/
def isSpace (c : Char) : Bool :=
  let n := c.toNat
  (9 ≤ n && n ≤ 13) || n == 32 || n == 0x85 || n == 0xA0 || n == 0x1680 ||
  (0x2000 ≤ n && n ≤ 0x200A) || n == 0x2028 || n == 0x2029 || n == 0x202F ||
  n == 0x205F || n == 0x3000

/-- Go `strings.TrimSpace(s)`. -/
def strTrimSpace (s : String) : String :=
  String.mk (((s.data.dropWhile isSpace).reverse.dropWhile isSpace).reverse)

/-- Go `strings.Split(s, string(sep))` for a one-byte separator. -/
def strSplit (s : String) (sep : Char) : List String :=
  (s.data.splitOn sep).map String.mk

/-! ## Package `path/filepath` (Unix) -/

/-- Go `filepath.Separator`. -/
def Separator : Char := '/'

/-- The elements of a path: the pieces between separators. -/
def splitSep (p : String) : List String := strSplit p Separator

/-- The elements written one after the other with a separator in between. -/
def joinSep (elems : List String) : String := strJoin elems "/"

/-- One element of the lexical clean-up of `filepath.Clean`; `out` holds the
elements kept so far, the last one first. Empty elements and `.` are dropped,
`..` removes the element before it, except that it is kept at the start of a
relative path and dropped at the start of a rooted one. -/
def cleanStep (rooted : Bool) (out : List String) (elem : String) : List String :=
  if elem = "" ∨ elem = "." then out
  else if elem = ".." then
    match out with
    | top :: below => if top = ".." then elem :: out else below
    | [] => if rooted then [] else [elem]
  else elem :: out

/-- The elements of the cleaned path, in order. -/
def cleanElems (rooted : Bool) (p : String) : List String :=
  ((splitSep p).foldl (cleanStep rooted) []).reverse

/-- Go `filepath.Clean(path)`. -/
def Clean (path : String) : String :=
  let rooted := strHasPrefix path "/"
  let s := (if rooted then "/" else "") ++ joinSep (cleanElems rooted path)
  if s = "" then "." else s

/-- Go `filepath.Join(a, b)`: leading empty arguments are ignored, the rest is
joined with separators and cleaned. -/
def Join (a b : String) : String :=
  if a ≠ "" then Clean (a ++ "/" ++ b)
  else if b ≠ "" then Clean b
  else ""

/-- Go `filepath.Base(path)`. -/
def Base (path : String) : String :=
  if path = "" then "."
  else
    let stripped := path.data.reverse.dropWhile (· == Separator)
    let last := (stripped.takeWhile (· != Separator)).reverse
    if last = [] then "/" else String.mk last

/-- The leading elements two paths share are dropped from both. -/
def dropCommon : List String → List String → List String × List String
  | b :: bs, t :: ts => if b = t then dropCommon bs ts else (b :: bs, t :: ts)
  | bs, ts => (bs, ts)

/-- The non-empty elements of a cleaned path. -/
def relElems (p : String) : List String := (splitSep p).filter (· ≠ "")

/-- Go `filepath.Rel(basepath, targpath)`; `none` is the error. -/
def Rel (basepath targpath : String) : Option String :=
  let base := Clean basepath
  let targ := Clean targpath
  if targ = base then some "."
  else
    let base := if base = "." then "" else base
    if strHasPrefix base "/" ≠ strHasPrefix targ "/" then none
    else
      match dropCommon (relElems base) (relElems targ) with
      | (b :: bs, t :: ts) =>
        if b = ".." then none
        else some (joinSep ((b :: bs).map (fun _ => "..") ++ t :: ts))
      | (b :: bs, []) => some (joinSep ((b :: bs).map (fun _ => "..")))
      | ([], ts) => some (joinSep ts)

/-! ## The file system -/

/-- A file-system object: a regular file with its content, or a directory with
its entries in the order `os.ReadDir` lists them (sorted by name). -/
inductive Node where
  | file (content : String)
  | dir (entries : List (String × Node))

/-- The errors of the system calls the indexator makes. -/
inductive OsError where
  | notExist
  | notDir
  | isDir
  | notEmpty
  | permission
  | invalid
deriving DecidableEq, Repr

/-- Go `fs.DirEntry`, as far as the indexator reads it. -/
structure DirEntry where
  Name : String
  IsDir : Bool
deriving DecidableEq, Repr

/-- True for a directory. -/
def Node.isDir : Node → Bool
  | .dir _ => true
  | .file _ => false

/-- The entry of that name in a directory listing. -/
def lookupEntry (name : String) : List (String × Node) → Option Node
  | [] => none
  | (n, v) :: rest => if n = name then some v else lookupEntry name rest

/-- The listing with `name` bound to `v`: an entry of that name is replaced,
a new name is put at its place in the order of names. -/
def insertEntry (name : String) (v : Node) : List (String × Node) → List (String × Node)
  | [] => [(name, v)]
  | (n, w) :: rest =>
    if n = name then (name, v) :: rest
    else if strLess name n then (name, v) :: (n, w) :: rest
    else (n, w) :: insertEntry name v rest

/-- The listing without the entry `name`. -/
def eraseEntry (name : String) : List (String × Node) → List (String × Node)
  | [] => []
  | (n, w) :: rest => if n = name then eraseEntry name rest else (n, w) :: eraseEntry name rest

/-- The object reached from `t` along the path elements, if there is one. -/
def Node.get : Node → List String → Option Node
  | t, [] => some t
  | .file _, _ :: _ => none
  | .dir es, c :: cs =>
    match lookupEntry c es with
    | some ch => ch.get cs
    | none => none

/-- The error of a lookup that fails: `ENOTDIR` when the path runs through a
regular file, `ENOENT` otherwise. -/
def Node.lookupErr : Node → List String → OsError
  | .file _, _ => .notDir
  | .dir _, [] => .notExist
  | .dir es, c :: cs =>
    match lookupEntry c es with
    | some ch => ch.lookupErr cs
    | none => .notExist

/-- The tree with `new` placed at the path; the parent directory must exist. -/
def Node.put : Node → List String → Node → Option Node
  | _, [], _ => none
  | .file _, _ :: _, _ => none
  | .dir es, c :: cs, new =>
    if cs.isEmpty then some (.dir (insertEntry c new es))
    else
      match lookupEntry c es with
      | some ch =>
        match ch.put cs new with
        | some ch2 => some (.dir (insertEntry c ch2 es))
        | none => none
      | none => none

/-- The tree without the object at the path. -/
def Node.del : Node → List String → Option Node
  | _, [] => none
  | .file _, _ :: _ => none
  | .dir es, c :: cs =>
    if cs.isEmpty then
      match lookupEntry c es with
      | some _ => some (.dir (eraseEntry c es))
      | none => none
    else
      match lookupEntry c es with
      | some ch =>
        match ch.del cs with
        | some ch2 => some (.dir (insertEntry c ch2 es))
        | none => none
      | none => none

/-- The elements of the cleaned path name, from `/`. -/
def pathElems (name : String) : List String := cleanElems true name

/-- What keeps the kernel from passing through the path with these elements:
`ENOTDIR` at a regular file, the error of the look-up at a path that does not
exist, nothing at a directory. The root is a directory. -/
def dirAt (fs : Node) (cur : List String) : Option OsError :=
  if cur = [] then none
  else
    match fs.get cur with
    | some (.dir _) => none
    | some (.file _) => some .notDir
    | none => some (fs.lookupErr cur)

/-- The walk of the kernel along the pieces of a path name, from the directory
with the elements `cur`: every piece, also an empty one, `.` or `..`, is taken
in a directory that exists; `..` leads to the directory above. -/
def kernelWalk (fs : Node) : List String → List String → Except OsError (List String)
  | [], cur => .ok cur
  | c :: rest, cur =>
    match dirAt fs cur with
    | some e => .error e
    | none =>
      if c = "" ∨ c = "." then kernelWalk fs rest cur
      else if c = ".." then kernelWalk fs rest cur.dropLast
      else kernelWalk fs rest (cur ++ [c])

/-- The object at the path with these elements, or the error of its look-up. -/
def statAt (fs : Node) (ps : List String) : Except OsError Node :=
  match fs.get ps with
  | some n => .ok n
  | none => .error (fs.lookupErr ps)

/-- Go `os.Stat(name)`. The name is resolved as the kernel does it, piece by
piece: `/v/f.md/.` fails with `ENOTDIR` when `f.md` is a regular file, and
`/v/nope/..` with `ENOENT` when `nope` does not exist. -/
def osStat (fs : Node) (name : String) : Except OsError Node :=
  if name = "" then .error .notExist
  else
    match kernelWalk fs (splitSep name) [] with
    | .error e => .error e
    | .ok ps => statAt fs ps

/-- Go `os.ReadDir(name)`: the entries of the directory, sorted by name. -/
def osReadDir (fs : Node) (name : String) : Except OsError (List DirEntry) :=
  match fs.get (pathElems name) with
  | some (.dir es) => .ok (es.map (fun e => ⟨e.1, e.2.isDir⟩))
  | some (.file _) => .error .notDir
  | none => .error (fs.lookupErr (pathElems name))

/-- Go `os.WriteFile(name, data, 0644)`: the file is created or truncated. -/
def osWriteFile (fs : Node) (name : String) (data : String) : Except OsError Node :=
  match fs.get (pathElems name) with
  | some (.dir _) => .error .isDir
  | _ =>
    match fs.put (pathElems name) (.file data) with
    | some fs2 => .ok fs2
    | none => .error (fs.lookupErr (pathElems name).dropLast)

/-- Go `os.Rename(oldpath, newpath)`: a file replaces a file, a directory
replaces an empty directory. -/
def osRename (fs : Node) (oldpath newpath : String) : Except OsError Node :=
  match fs.get (pathElems oldpath) with
  | none => .error (fs.lookupErr (pathElems oldpath))
  | some src =>
    if pathElems oldpath = pathElems newpath then .ok fs
    else
      match src, fs.get (pathElems newpath) with
      | .file _, some (.dir _) => .error .isDir
      | .dir _, some (.file _) => .error .notDir
      | .dir _, some (.dir (_ :: _)) => .error .notEmpty
      | _, _ =>
        match fs.del (pathElems oldpath) with
        | none => .error .invalid
        | some fs1 =>
          match fs1.put (pathElems newpath) src with
          | some fs2 => .ok fs2
          | none => .error .invalid

/-- Go `os.Remove(name)`: a file or an empty directory is removed. -/
def osRemove (fs : Node) (name : String) : Except OsError Node :=
  match fs.get (pathElems name) with
  | none => .error (fs.lookupErr (pathElems name))
  | some (.dir (_ :: _)) => .error .notEmpty
  | some _ =>
    match fs.del (pathElems name) with
    | some fs2 => .ok fs2
    | none => .error .invalid

/-- Go `os.IsNotExist(err)`. -/
def osIsNotExist (e : OsError) : Bool := e == .notExist

/-- Go `os.IsPermission(err)`. -/
def osIsPermission (e : OsError) : Bool := e == .permission

/-! ## Go errors, `log/slog`, `sort`, `io/fs` -/

/-- A Go `error`: an error of a system call, possibly wrapped by `fmt.Errorf`
with a message. -/
inductive Error where
  | os (e : OsError)
  | wrap (msg : String) (inner : Error)
deriving DecidableEq, Repr

/-- The level of a log record. -/
inductive LogLevel where
  | info
  | warn
  | error
deriving DecidableEq, Repr

/-- The value of a log attribute. -/
inductive LogValue where
  | str (s : String)
  | int (n : Nat)
  | err (e : Error)
deriving DecidableEq, Repr

/-- One record handed to the process-wide logger. -/
structure LogRecord where
  level : LogLevel
  msg : String
  attrs : List (String × LogValue)
deriving DecidableEq, Repr

/-- The state a run works on: the file system, the log written so far, and the
reading of the clock in the layout `20060102_150405`. -/
structure World where
  fs : Node
  log : List LogRecord
  now : String

/-- A record is appended to the log. -/
def World.slog (w : World) (level : LogLevel) (msg : String)
    (attrs : List (String × LogValue)) : World :=
  { w with log := w.log ++ [⟨level, msg, attrs⟩] }

/-- Go `insertionSortLessFunc`, one round: the new element moves left past
every element it is less than. The sorted part is held nearest element first. -/
def sinkLeft (less : String → String → Bool) (x : String) : List String → List String
  | [] => [x]
  | y :: ys => if less x y then y :: sinkLeft less x ys else x :: y :: ys

/-- Go `insertionSortLessFunc`: what `sort.Slice` runs on a slice of at most
12 elements (in the releases before pdqsort, after a shell pass that does
nothing on at most 6 elements). The sort is stable. -/
def insertionSortLessFunc (less : String → String → Bool) (data : List String) : List String :=
  (data.foldl (fun sorted x => sinkLeft less x sorted) []).reverse

/-- What a callback of `fs.WalkDir` returns besides `nil`. -/
inductive WalkErr where
  | SkipDir
  | err (e : Error)
deriving DecidableEq, Repr

mutual
/-- Go `fs.walkDir`: the callback is called on the object, then on the entries
of a directory in the order of their names. Reading a directory of the tree
does not fail, so the second call of the callback does not occur. -/
def walkDir {σ : Type} (fn : String → DirEntry → Option Error → σ → σ × Option WalkErr)
    (name dname : String) (d : Node) (st : σ) : σ × Option WalkErr :=
  match fn name ⟨dname, d.isDir⟩ none st with
  | (st1, some .SkipDir) => (st1, if d.isDir then none else some .SkipDir)
  | (st1, some e) => (st1, some e)
  | (st1, none) =>
    match d with
    | .file _ => (st1, none)
    | .dir es => walkDirEntries fn name es st1
/-- The loop of `fs.walkDir` over the entries: `SkipDir` from an entry ends the
loop, another error ends the walk. -/
def walkDirEntries {σ : Type} (fn : String → DirEntry → Option Error → σ → σ × Option WalkErr)
    (name : String) : List (String × Node) → σ → σ × Option WalkErr
  | [], st => (st, none)
  | (n, ch) :: rest, st =>
    match walkDir fn (Join name n) n ch st with
    | (st1, some .SkipDir) => (st1, none)
    | (st1, some e) => (st1, some e)
    | (st1, none) => walkDirEntries fn name rest st1
end

/-- The path `os.DirFS(dir)` opens for `name`. -/
def dirFSJoin (dir name : String) : String :=
  if dir.data.getLast? = some Separator then dir ++ name else dir ++ "/" ++ name

/-- Go `fs.WalkDir(os.DirFS(dir), ".", fn)`. -/
def fsWalkDir {σ : Type} (fn : String → DirEntry → Option Error → σ → σ × Option WalkErr)
    (fs : Node) (dir : String) (st : σ) : σ × Option Error :=
  let r :=
    if dir = "" then fn "." ⟨".", false⟩ (some (.os .invalid)) st
    else
      match osStat fs (dirFSJoin dir ".") with
      | .error e => fn "." ⟨".", false⟩ (some (.os e)) st
      | .ok info => walkDir fn "." "." info st
  match r with
  | (st1, some .SkipDir) => (st1, none)
  | (st1, some (.err e)) => (st1, some e)
  | (st1, none) => (st1, none)

/-! ## `internal/indexator/indexator.go` -/

/-- Go `type Indexator struct`. -/
structure Indexator where
  vaultPath : String
  dryRun : Bool
  backup : Bool
  excludeDirs : List String
deriving DecidableEq, Repr

/-- Go `NewIndexator`. -/
def NewIndexator (vaultPath : String) : Indexator :=
  { vaultPath := vaultPath, dryRun := false, backup := false, excludeDirs := [] }

/-- Go `NewIndexatorWithOptions`. -/
def NewIndexatorWithOptions (vaultPath : String) (dryRun backup : Bool)
    (excludeDirs : List String) : Indexator :=
  { vaultPath := vaultPath, dryRun := dryRun, backup := backup, excludeDirs := excludeDirs }

/-- Go `(*Indexator).getRelativePath`; replacing the separator by `/` changes
nothing on Unix. -/
def getRelativePath (idx : Indexator) (absolutePath : String) : String :=
  match Rel idx.vaultPath absolutePath with
  | none => absolutePath
  | some relPath => relPath

/-- Go `(*Indexator).isIndexFile`. -/
def isIndexFile (idx : Indexator) (filePath dirPath : String) : Bool :=
  let fileName := Base filePath
  let dirName := Base dirPath
  let dirName := if dirPath = idx.vaultPath then "index" else dirName
  let expectedIndexName := dirName ++ ".md"
  fileName == expectedIndexName

/-- Go `(*Indexator).shouldExcludeDirectory`. -/
def shouldExcludeDirectory (idx : Indexator) (dirPath : String) : Bool :=
  idx.excludeDirs.any (fun excludeDir =>
    strContains dirPath excludeDir || Base dirPath == excludeDir)

/-- Go `(*Indexator).backupExistingFile`. -/
def backupExistingFile (_idx : Indexator) (filePath : String) (w : World) :
    World × Option Error :=
  let notExist :=
    match osStat w.fs filePath with
    | .error e => osIsNotExist e
    | .ok _ => false
  if notExist then (w, none)
  else
    let backupPath := filePath ++ ".backup_" ++ w.now
    match osRename w.fs filePath backupPath with
    | .error e => (w, some (.wrap ("failed to create backup " ++ backupPath) (.os e)))
    | .ok fs2 =>
      ({ w with fs := fs2 }.slog .info "Created backup"
        [("original", .str filePath), ("backup", .str backupPath)], none)

/-- Go `(*Indexator).writeFileAtomic`. -/
def writeFileAtomic (_idx : Indexator) (filePath : String) (content : String) (w : World) :
    World × Option Error :=
  let tempFile := filePath ++ ".tmp"
  match osWriteFile w.fs tempFile content with
  | .error e =>
    (w.slog .error "failed to write temporary file"
      [("file", .str tempFile), ("error", .err (.os e))],
     some (.wrap ("failed to write temporary file " ++ tempFile) (.os e)))
  | .ok fs1 =>
    match osRename fs1 tempFile filePath with
    | .error e =>
      let fs2 := match osRemove fs1 tempFile with
        | .ok fs2 => fs2
        | .error _ => fs1
      ({ w with fs := fs2 }.slog .error "failed to rename temporary file"
        [("temp", .str tempFile), ("target", .str filePath), ("error", .err (.os e))],
       some (.wrap ("failed to rename temporary file " ++ tempFile ++ " to " ++ filePath)
        (.os e)))
    | .ok fs2 =>
      ({ w with fs := fs2 }.slog .info "Created index"
        [("file", .str filePath),
         ("entries", .int (strSplit (strTrimSpace content) '\n').length)], none)

/-- The path of the index file of the directory `dirPath`, as
`indexDirectory` and `createIndexFile` both compute it. -/
def indexFilePathOf (idx : Indexator) (dirPath : String) : String :=
  let dirName := Base dirPath
  let dirName := if dirName = "." ∨ dirPath = idx.vaultPath then "index" else dirName
  let indexFileName := dirName ++ ".md"
  Join dirPath indexFileName

/-- Go `(*Indexator).createIndexFile`. -/
def createIndexFile (idx : Indexator) (dirPath : String) (links : List String) (w : World) :
    World × Option Error :=
  let indexFilePath := indexFilePathOf idx dirPath
  let content := strJoin links "\n" ++ "\n"
  if idx.dryRun then
    (w.slog .info "DRY RUN: Would create index"
      [("file", .str indexFilePath), ("entries", .int links.length)], none)
  else
    let w1 :=
      if idx.backup then
        match backupExistingFile idx indexFilePath w with
        | (w1, some err) =>
          w1.slog .warn "failed to backup existing file"
            [("file", .str indexFilePath), ("error", .err err)]
        | (w1, none) => w1
      else w
    writeFileAtomic idx indexFilePath content w1

/-- The world `createIndexFile` hands to `writeFileAtomic`: after the backup
block, when backup mode is on. -/
def backupStage (idx : Indexator) (indexFilePath : String) (w : World) : World :=
  if idx.backup then
    match backupExistingFile idx indexFilePath w with
    | (w1, some err) =>
      w1.slog .warn "failed to backup existing file"
        [("file", .str indexFilePath), ("error", .err err)]
    | (w1, none) => w1
  else w

/-- The body of the loop of `indexDirectory` over the entries: the link the
entry adds to `links`, if it adds one. -/
def linkOfEntry (idx : Indexator) (fs : Node) (fullPath : String) (entry : DirEntry) :
    Option String :=
  let entryPath := Join fullPath entry.Name
  if isIndexFile idx entryPath fullPath then none
  else if entry.IsDir then
    let indexFileName := entry.Name ++ ".md"
    let indexPath := Join entryPath indexFileName
    match osStat fs indexPath with
    | .ok _ => some ("[[" ++ getRelativePath idx indexPath ++ "]]")
    | .error _ => none
  else some ("[[" ++ getRelativePath idx entryPath ++ "]]")

/-- Go `(*Indexator).indexDirectory`. -/
def indexDirectory (idx : Indexator) (dirPath : String) (w : World) : World × Option Error :=
  let fullPath := Join idx.vaultPath dirPath
  match osReadDir w.fs fullPath with
  | .error e =>
    (w.slog .error "failed to read directory"
      [("directory", .str dirPath), ("error", .err (.os e))],
     some (.wrap ("failed to read directory " ++ dirPath) (.os e)))
  | .ok entries =>
    let links := entries.filterMap (linkOfEntry idx w.fs fullPath)
    if links.length = 0 then (w, none)
    else
      let indexFilePath := indexFilePathOf idx fullPath
      match osStat w.fs indexFilePath with
      | .ok _ => (w, none)
      | .error _ => createIndexFile idx fullPath links w

/-- The callback `CollectDirectories` hands to `fs.WalkDir`; the state is the
world (for the log) and the slice `directories`. -/
def collectFn (idx : Indexator) (path : String) (d : DirEntry) (err : Option Error)
    (st : World × List String) : (World × List String) × Option WalkErr :=
  match err with
  | some (.os e) =>
    if osIsPermission e then
      ((st.1.slog .warn "permission denied, skipping"
        [("path", .str path), ("error", .err (.os e))], st.2), none)
    else
      ((st.1.slog .error "error walking directory"
        [("path", .str path), ("error", .err (.os e))], st.2), some (.err (.os e)))
  | some e =>
    ((st.1.slog .error "error walking directory"
      [("path", .str path), ("error", .err e)], st.2), some (.err e))
  | none =>
    if d.IsDir && strHasPrefix d.Name "." && path != "." then (st, some .SkipDir)
    else if d.IsDir then
      if shouldExcludeDirectory idx path then (st, some .SkipDir)
      else ((st.1, st.2 ++ [path]), none)
    else (st, none)

/-- Go `(*Indexator).CollectDirectories`. -/
def CollectDirectories (idx : Indexator) (w : World) : World × List String × Option Error :=
  match fsWalkDir (collectFn idx) w.fs idx.vaultPath (w, []) with
  | ((w1, directories), err) => (w1, directories, err)

/-- The comparison `Start` sorts with: more separators first. -/
def depthLess (a b : String) : Bool :=
  let depthI := strCount a Separator
  let depthJ := strCount b Separator
  decide (depthI > depthJ)

/-- The loop of `Start` over the sorted directories. -/
def startLoop (idx : Indexator) : List String → World → World × Option Error
  | [], w => (w, none)
  | dir :: rest, w =>
    match indexDirectory idx dir w with
    | (w1, some err) =>
      (w1.slog .error "failed to index directory"
        [("directory", .str dir), ("error", .err err)],
       some (.wrap ("failed to index directory " ++ dir) err))
    | (w1, none) => startLoop idx rest w1

/-- Go `(*Indexator).Start`. The sort is a parameter: `sort.Slice` is not
stable and the repository does not fix its algorithm; on at most 12
directories Go runs `insertionSortLessFunc`. -/
def Start (sortSlice : (String → String → Bool) → List String → List String)
    (idx : Indexator) (w : World) : World × Option Error :=
  match CollectDirectories idx w with
  | (w1, _, some err) =>
    (w1.slog .error "failed to collect directories" [("error", .err err)],
     some (.wrap "failed to collect directories" err))
  | (w1, directories, none) =>
    let directories := sortSlice depthLess directories
    startLoop idx directories w1

/-- The directories in the order `Start` processes them. -/
def processingOrder (sortSlice : (String → String → Bool) → List String → List String)
    (idx : Indexator) (w : World) : List String :=
  sortSlice depthLess (CollectDirectories idx w).2.1

/-- The content of the regular file at the cleaned path name, as the tests
read it with `os.ReadFile`. -/
def osReadFile (fs : Node) (name : String) : Option String :=
  match fs.get (pathElems name) with
  | some (.file c) => some c
  | _ => none

/-- True when the cleaned path name leads to an object of the tree, as the
tests check it with `os.Stat`. -/
def osExists (fs : Node) (name : String) : Bool := (fs.get (pathElems name)).isSome

/-! ## `internal/config/config.go` -/

/-- Go `type Config struct`. -/
structure Config where
  vaultDir : String
  verbose : Bool
  dryRun : Bool
  backup : Bool
  excludeDirs : List String
deriving DecidableEq, Repr

/-- Go `config.NewWithAllOptions`. -/
def NewWithAllOptions (vaultDir : String) (verbose dryRun backup : Bool)
    (excludeDirs : List String) : Config :=
  { vaultDir := vaultDir, verbose := verbose, dryRun := dryRun, backup := backup,
    excludeDirs := excludeDirs }

/-- Go `filepath.IsAbs(path)` on Unix. -/
def IsAbs (path : String) : Bool := strHasPrefix path "/"

/-- Go `(*Config).Validate`; `none` is `nil`, else the message of the error. -/
def Config.Validate (c : Config) (fs : Node) : Option String :=
  if c.vaultDir = "" then some "vault directory is required"
  else
    match osStat fs c.vaultDir with
    | .error e =>
      if osIsNotExist e then some ("vault directory does not exist: " ++ c.vaultDir)
      else some "cannot access vault directory"
    | .ok info =>
      if !info.isDir then some ("vault path is not a directory: " ++ c.vaultDir)
      else if !IsAbs c.vaultDir then
        some ("vault directory must be an absolute path: " ++ c.vaultDir)
      else if c.excludeDirs.any (fun dir => strTrimSpace dir == "") then
        some "exclude directory cannot be empty"
      else none

/-- Go `(*App).initIndexator`: the indexator built from a configuration. -/
def initIndexator (cfg : Config) : Indexator :=
  NewIndexatorWithOptions cfg.vaultDir cfg.dryRun cfg.backup cfg.excludeDirs

/-! ## `internal/cmd/init.go` -/

/-- Go `filepath.Abs(path)` on Unix; `wd` is what `os.Getwd` returns. -/
def Abs (wd path : String) : String :=
  if IsAbs path then Clean path else Join wd path

/-- The configuration `runInit` builds from the flags: the vault directory is
`filepath.Abs` of the flag `--dir`, or of the working directory when the flag
is empty. -/
def runInitConfig (wd vaultDir : String) (verbose dryRun backup : Bool)
    (excludeDirs : List String) : Config :=
  let dir := if vaultDir = "" then wd else vaultDir
  NewWithAllOptions (Abs wd dir) verbose dryRun backup excludeDirs

/-! ## Scenarios -/

/-- The vault of the scenario: directory `a` with the note `a/f.md`, at `/v`. -/
def vaultA : Node := .dir [("v", .dir [("a", .dir [("f.md", .file "# Test content")])])]

/-- The world holding only `vaultA`. -/
def worldA : World := { fs := vaultA, log := [], now := "20240101_000000" }

/-- The vault `/test/vault` with the note `readme.md`. -/
def vaultT : Node :=
  .dir [("test", .dir [("vault", .dir [("readme.md", .file "# Readme")])])]

/-- The world holding only `vaultT`. -/
def worldT : World := { fs := vaultT, log := [], now := "20240101_000000" }

/-- The configuration with the vault path `/test/vault/`, written with a
trailing separator. -/
def configT : Config := NewWithAllOptions "/test/vault/" false false false []

/-- The entries of the vault of the hidden-directory scenario: the hidden
directory `.hidden` with its own `.hidden.md`, the directory `archive` with a
note, the directory `normal` with a note. -/
def vaultHEntries : List (String × Node) :=
  [(".hidden", .dir [(".hidden.md", .file "# Secret")]),
   ("archive", .dir [("old.md", .file "# Old")]),
   ("normal", .dir [("public.md", .file "# Public")])]

/-- The world holding that vault at `/v`. -/
def worldH : World :=
  { fs := .dir [("v", .dir vaultHEntries)], log := [], now := "20240101_000000" }

/-- The world of the existing-index scenario: the vault `/v` with the directory
`testdir` that holds `newfile.md` and its index `testdir.md`. -/
def worldE : World :=
  { fs := .dir [("v", .dir [("testdir", .dir
      [("newfile.md", .file "# New file"),
       ("testdir.md", .file "# Existing index\n[[old.md]]")])])],
    log := [], now := "20240101_000000" }

/-- The world of the integration scenario when `notes` is processed: the vault
`/v` with `notes/file1.md`, `notes/file2.md` and the directory
`notes/subfolder`, which holds `file3.md` and already its index. -/
def worldN : World :=
  { fs := .dir [("v", .dir [("notes", .dir
      [("file1.md", .file "# Test content"),
       ("file2.md", .file "# Test content"),
       ("subfolder", .dir
         [("file3.md", .file "# Test content"),
          ("subfolder.md", .file "[[notes/subfolder/file3.md]]\n")])])])],
    log := [], now := "20240101_000000" }

/-- The world whose vault `/v` holds the directory `a` with nothing but its own
index file `a/a.md`. -/
def worldO : World :=
  { fs := .dir [("v", .dir [("a", .dir [("a.md", .file "old index")])])],
    log := [], now := "20240101_000000" }

/-- The world whose vault `/v` holds the empty directory `e` and the note
`f.md`. -/
def worldEmpty : World :=
  { fs := .dir [("v", .dir [("e", .dir []), ("f.md", .file "# Note")])],
    log := [], now := "20240101_000000" }

/-- The world whose vault `/v` holds one file, `index.md.tmp`: what a run that
was killed between the temporary write and the rename leaves behind. -/
def worldStale : World :=
  { fs := .dir [("v", .dir [("index.md.tmp", .file "stale")])],
    log := [], now := "20240101_000000" }

/-- The world whose vault `/v` holds the directory `notes` with the note
`page.md` and the file `notes.md.tmp`. -/
def worldDraft : World :=
  { fs := .dir [("v", .dir [("notes", .dir
      [("notes.md.tmp", .file "draft"), ("page.md", .file "# Page")])])],
    log := [], now := "20240101_000000" }

/-- The world whose vault `/v` holds the note `a/b/f.md`, two directories
below the root. -/
def worldNested : World :=
  { fs := .dir [("v", .dir [("a", .dir [("b", .dir [("f.md", .file "# Note")])])])],
    log := [], now := "20240101_000000" }

/-! ## Reading the log -/

/-- The string attribute `file` of a log record, if it has one. -/
def fileAttr : List (String × LogValue) → Option String
  | [] => none
  | (k, .str s) :: rest => if k = "file" then some s else fileAttr rest
  | _ :: rest => fileAttr rest

/-- The files named by the info records with the message `msg`, in the order
they were logged. -/
def loggedFiles (msg : String) (log : List LogRecord) : List String :=
  log.filterMap (fun r => if r.level = .info ∧ r.msg = msg then fileAttr r.attrs else none)

/-- The index files a dry run reports it would create. -/
def dryRunReported (log : List LogRecord) : List String :=
  loggedFiles "DRY RUN: Would create index" log

/-- The index files a run reports it created. -/
def createdReported (log : List LogRecord) : List String :=
  loggedFiles "Created index" log

/-! ## Well-formed inputs -/

/-- A name a directory entry can bear: not empty, not `.` or `..`, and without
a separator. -/
def ValidName (n : String) : Prop :=
  n ≠ "" ∧ n ≠ "." ∧ n ≠ ".." ∧ Separator ∉ n.data

instance : DecidablePred ValidName := fun n => by
  unfold ValidName; exact inferInstance

/-- The clean absolute path with these elements; `/` for none. -/
def absPath (elems : List String) : String := "/" ++ joinSep elems

/-- The path of a directory relative to the vault as `fs.WalkDir` names it:
`.` for the root, else the elements joined by `/`. -/
def relPath (elems : List String) : String :=
  if elems = [] then "." else joinSep elems

/-- The name of the index file of the directory with these elements below the
vault: `index.md` for the vault root, else the last element with `.md`. -/
def indexName (elems : List String) : String :=
  (match elems.getLast? with
    | none => "index"
    | some b => b) ++ ".md"

/-- The vault path of the indexator is the clean absolute path with the
elements `vs`. -/
def VaultAt (idx : Indexator) (vs : List String) : Prop :=
  idx.vaultPath = absPath vs ∧ ∀ n ∈ vs, ValidName n

/-- The link line for the path with these elements below the vault root:
`[[` the path with forward slashes `]]`. -/
def linkFor (elems : List String) : String := "[[" ++ relPath elems ++ "]]"

/-- The link an entry `n` of the directory `cs` of the vault `vs` contributes,
in the words of the specification: none for the directory's own index name,
for a subdirectory the link to `n/n.md` if that exists, for a file the link to
the file. -/
def entryLink (fs : Node) (vs cs : List String) (e : DirEntry) : Option String :=
  if e.Name = indexName cs then none
  else if e.IsDir then
    if (fs.get (vs ++ cs ++ [e.Name, e.Name ++ ".md"])).isSome then
      some (linkFor (cs ++ [e.Name, e.Name ++ ".md"]))
    else none
  else some (linkFor (cs ++ [e.Name]))

/-- The directory entry `os.ReadDir` reports for an entry of a listing. -/
def toDirEntry (e : String × Node) : DirEntry := ⟨e.1, e.2.isDir⟩

/-- The links of the directory `cs` of the vault `vs` with the listing `es`,
in the order of the listing. -/
def dirLinks (fs : Node) (vs cs : List String) (es : List (String × Node)) : List String :=
  (es.map toDirEntry).filterMap (entryLink fs vs cs)

/-- The content of an index file: the links joined by newlines, and a newline
at the end. -/
def indexContent (links : List String) : String := strJoin links "\n" ++ "\n"

/-- The lines written one after the other, each followed by a newline. -/
def concatLines : List String → String
  | [] => ""
  | l :: ls => l ++ "\n" ++ concatLines ls

/-- The file system `fs3` is `fs` after the file `x` of the directory `D` was
written with `content` through the temporary file `x.tmp`. -/
def WroteIndex (fs fs3 : Node) (D : List String) (x content : String) : Prop :=
  ∃ fs1 fs2, fs.put (D ++ [x ++ ".tmp"]) (.file content) = some fs1 ∧
    fs1.del (D ++ [x ++ ".tmp"]) = some fs2 ∧
    fs2.put (D ++ [x]) (.file content) = some fs3

/-- A call of `indexDirectory` on the directory `cs` of the vault `vs` that
writes: the directory is read, has links and no index file, the temporary path
is free for a file, the run is not a dry run, and `fs3` is `fs` with the index
file written. -/
def StepWrote (idx : Indexator) (vs cs : List String) (fs fs3 : Node) : Prop :=
  ∃ es, fs.get (vs ++ cs) = some (.dir es) ∧ dirLinks fs vs cs es ≠ [] ∧
    fs.get (vs ++ cs ++ [indexName cs]) = none ∧
    (∀ es2, fs.get (vs ++ cs ++ [indexName cs ++ ".tmp"]) ≠ some (.dir es2)) ∧
    idx.dryRun = false ∧
    WroteIndex fs fs3 (vs ++ cs) (indexName cs) (indexContent (dirLinks fs vs cs es))

/-- What the link `l` of the entry `e` of the directory `q` of the vault `vs`
points at in the file system `cur`: for an entry that is not a directory, the
entry itself, which is not named like the index file of `q` and exists in
`cur` unless it bears the name of the temporary file of that index; for a
subdirectory `n`, the existing path `n/n.md`. -/
def LinkPresent (cur : Node) (vs q : List String) (e : String × Node) (l : String) : Prop :=
  (e.2.isDir = false ∧ e.1 ≠ indexName q ∧ l = linkFor (q ++ [e.1]) ∧
    (e.1 ≠ indexName q ++ ".tmp" → (cur.get (vs ++ q ++ [e.1])).isSome = true)) ∨
  (e.2.isDir = true ∧ l = linkFor (q ++ [e.1, e.1 ++ ".md"]) ∧
    (cur.get (vs ++ q ++ [e.1, e.1 ++ ".md"])).isSome = true)

mutual
/-- The directories the walk of `CollectDirectories` appends for the object
`d` named `name` at the relative path `path`: nothing for a file, a hidden
directory other than the root, or an excluded directory; else the directory
and then what its entries give. -/
def collectNode (idx : Indexator) (path name : String) : Node → List String
  | .file _ => []
  | .dir es =>
    if strHasPrefix name "." && path != "." then []
    else if shouldExcludeDirectory idx path then []
    else path :: collectEntries idx path es
/-- The directories the walk appends for the entries of the directory `path`. -/
def collectEntries (idx : Indexator) (path : String) : List (String × Node) → List String
  | [] => []
  | (n, ch) :: rest => collectNode idx (Join path n) n ch ++ collectEntries idx path rest
end

/-- The name starts with `.`. -/
def hiddenName (n : String) : Prop := n.data.head? = some '.'

/-- The base name of the directory with these elements below the vault root;
`.` for the root. -/
def baseName (p : List String) : String := p.getLast?.getD "."

/-- The directory with these elements matches the exclusion set: some pattern
is a substring of its relative path or equals its base name. -/
def matchesExclusion (excludeDirs : List String) (p : List String) : Prop :=
  ∃ pat ∈ excludeDirs, pat.data <:+: (relPath p).data ∨ baseName p = pat

/-- The directory with these elements below the vault root is neither hidden
(its name does not start with `.`; the root is exempt) nor matched by the
exclusion set. -/
def dirOk (idx : Indexator) (p : List String) : Prop :=
  (∀ n, p.getLast? = some n → ¬ hiddenName n) ∧ ¬ matchesExclusion idx.excludeDirs p

instance (n : String) : Decidable (hiddenName n) := by
  unfold hiddenName; exact inferInstance

instance (excludeDirs : List String) (p : List String) :
    Decidable (matchesExclusion excludeDirs p) := by
  unfold matchesExclusion; exact inferInstance

instance (idx : Indexator) (p : List String) : Decidable (dirOk idx p) := by
  unfold dirOk
  cases p.getLast? with
  | none => exact decidable_of_iff (¬ matchesExclusion idx.excludeDirs p) (by simp)
  | some n =>
    exact decidable_of_iff (¬ hiddenName n ∧ ¬ matchesExclusion idx.excludeDirs p) (by simp)

/-- Every directory above the path with these elements below the vault root,
the root included, is accepted by the walk: the path does not lie inside a
hidden or an excluded directory. -/
def GoodTarget (idx : Indexator) (target : List String) : Prop :=
  ∀ q, q <+: target → q ≠ target → dirOk idx q

mutual
/-- Every entry name in the tree is a valid name. -/
def Node.wf : Node → Bool
  | .file _ => true
  | .dir es => wfEntries es
/-- Every entry name of the listing, and below it, is a valid name. -/
def wfEntries : List (String × Node) → Bool
  | [] => true
  | (n, ch) :: rest => decide (ValidName n) && ch.wf && wfEntries rest
end

mutual
/-- No directory of the tree lists a name twice. -/
def Node.uniqueNames : Node → Bool
  | .file _ => true
  | .dir es => uniqueEntries es
/-- No name occurs twice in the listing, nor in a listing below it. -/
def uniqueEntries : List (String × Node) → Bool
  | [] => true
  | (n, ch) :: rest =>
    (lookupEntry n rest).isNone && ch.uniqueNames && uniqueEntries rest
end

/-! ## Lemmas: strings and paths -/

theorem splitOn_append_sep (sep : Char) (xs ys : List Char) :
    (xs ++ sep :: ys).splitOn sep = xs.splitOn sep ++ ys.splitOn sep := by
  simp only [List.splitOn]
  induction xs with
  | nil => simp
  | cons x xs ih =>
    simp only [List.cons_append, List.splitOnP_cons, ih]
    by_cases h : (x == sep) = true
    · simp [h]
    · simp only [h, Bool.false_eq_true, if_false]
      cases hs : List.splitOnP (fun c => c == sep) xs with
      | nil => exact absurd hs (List.splitOnP_ne_nil _ _)
      | cons a as => simp [List.modifyHead]

theorem splitSep_append_sep (a b : String) :
    splitSep (a ++ "/" ++ b) = splitSep a ++ splitSep b := by
  simp only [splitSep, strSplit, Separator, String.data_append]
  rw [List.append_assoc, List.singleton_append, splitOn_append_sep, List.map_append]

theorem splitSep_empty : splitSep "" = [""] := by decide

theorem splitSep_of_noSep (n : String) (h : Separator ∉ n.data) : splitSep n = [n] := by
  simp only [splitSep, strSplit, List.splitOn]
  rw [List.splitOnP_eq_single]
  · rfl
  · intro c hc hcs
    have : c = Separator := by simpa using hcs
    exact h (this ▸ hc)

theorem cleanStep_valid (r : Bool) (out : List String) (n : String) (h : ValidName n) :
    cleanStep r out n = n :: out := by
  obtain ⟨h1, h2, h3, _⟩ := h
  simp [cleanStep, h1, h2, h3]

theorem foldl_cleanStep_valid (r : Bool) (ns : List String) (h : ∀ n ∈ ns, ValidName n) :
    ∀ out, ns.foldl (cleanStep r) out = ns.reverse ++ out := by
  induction ns with
  | nil => intro out; rfl
  | cons n ns ih =>
    intro out
    rw [List.foldl_cons, cleanStep_valid r out n (h n (List.mem_cons_self _ _)),
      ih (fun m hm => h m (List.mem_cons_of_mem _ hm))]
    simp

theorem joinSep_data (ns : List String) :
    (joinSep ns).data = List.intercalate ['/'] (ns.map String.data) := rfl

theorem splitSep_joinSep (ns : List String) (hne : ns ≠ [])
    (h : ∀ n ∈ ns, Separator ∉ n.data) : splitSep (joinSep ns) = ns := by
  simp only [splitSep, strSplit, joinSep_data, Separator]
  rw [List.splitOn_intercalate]
  · simp [List.map_map, Function.comp_def]
  · intro l hl
    obtain ⟨n, hn, rfl⟩ := List.mem_map.1 hl
    exact h n hn
  · simpa using hne

theorem splitSep_slash_append (b : String) : splitSep ("/" ++ b) = "" :: splitSep b := by
  have h := splitSep_append_sep "" b
  have e : ("" : String) ++ "/" ++ b = "/" ++ b := by
    apply String.ext; simp
  rw [e, splitSep_empty] at h
  simpa using h

theorem splitSep_absPath (vs : List String) (h : ∀ n ∈ vs, ValidName n) :
    splitSep (absPath vs) = "" :: (if vs = [] then [""] else vs) := by
  rw [absPath, splitSep_slash_append]
  by_cases hv : vs = []
  · subst hv; simp [joinSep, strJoin]; decide
  · rw [splitSep_joinSep vs hv (fun n hn => (h n hn).2.2.2)]; simp [hv]

theorem foldl_cleanStep_absPath (r : Bool) (vs : List String) (h : ∀ n ∈ vs, ValidName n)
    (out : List String) :
    (splitSep (absPath vs)).foldl (cleanStep r) out = vs.reverse ++ out := by
  rw [splitSep_absPath vs h]
  by_cases hv : vs = []
  · subst hv; simp [cleanStep]
  · simp only [hv, if_false, List.foldl_cons]
    rw [show cleanStep r out "" = out by simp [cleanStep]]
    exact foldl_cleanStep_valid r vs h out

theorem foldl_cleanStep_relPath (r : Bool) (cs : List String) (h : ∀ n ∈ cs, ValidName n)
    (out : List String) :
    (splitSep (relPath cs)).foldl (cleanStep r) out = cs.reverse ++ out := by
  by_cases hc : cs = []
  · subst hc
    have : splitSep (relPath []) = ["."] := by decide
    rw [this]; simp [cleanStep]
  · rw [relPath, if_neg hc, splitSep_joinSep cs hc (fun n hn => (h n hn).2.2.2)]
    exact foldl_cleanStep_valid r cs h out

theorem pathElems_absPath (vs : List String) (h : ∀ n ∈ vs, ValidName n) :
    pathElems (absPath vs) = vs := by
  simp [pathElems, cleanElems, foldl_cleanStep_absPath true vs h]

theorem strHasPrefix_slash (p : String) :
    strHasPrefix p "/" = true ↔ p.data.head? = some '/' := by
  unfold strHasPrefix
  have : ("/" : String).data = ['/'] := rfl
  rw [this]
  cases h : p.data with
  | nil => simp
  | cons c cs =>
    simp only [List.isPrefixOf, List.head?_cons, Option.some.injEq, Bool.and_true, beq_iff_eq]
    exact eq_comm

theorem absPath_data (vs : List String) : (absPath vs).data = '/' :: (joinSep vs).data := by
  simp [absPath]

theorem absPath_ne_empty (vs : List String) : absPath vs ≠ "" := by
  intro h
  have := congrArg String.data h
  rw [absPath_data] at this
  exact List.cons_ne_nil _ _ this

theorem strHasPrefix_absPath_append (vs : List String) (s : String) :
    strHasPrefix (absPath vs ++ s) "/" = true := by
  rw [strHasPrefix_slash, String.data_append, absPath_data]; rfl

theorem strHasPrefix_absPath (vs : List String) : strHasPrefix (absPath vs) "/" = true := by
  rw [strHasPrefix_slash, absPath_data]; rfl

theorem Clean_rooted (p : String) (h : strHasPrefix p "/" = true) :
    Clean p = absPath (cleanElems true p) := by
  simp only [Clean, h, if_true]
  rw [if_neg]
  · rfl
  · exact absPath_ne_empty _

theorem Clean_absPath (vs : List String) (h : ∀ n ∈ vs, ValidName n) :
    Clean (absPath vs) = absPath vs := by
  rw [Clean_rooted _ (strHasPrefix_absPath vs)]
  simp [cleanElems, foldl_cleanStep_absPath true vs h]

theorem Join_absPath_relPath (vs cs : List String) (hv : ∀ n ∈ vs, ValidName n)
    (hc : ∀ n ∈ cs, ValidName n) : Join (absPath vs) (relPath cs) = absPath (vs ++ cs) := by
  rw [Join, if_pos (absPath_ne_empty vs), String.append_assoc,
    Clean_rooted _ (strHasPrefix_absPath_append vs _), ← String.append_assoc]
  simp [cleanElems, splitSep_append_sep, foldl_cleanStep_absPath true vs hv,
    foldl_cleanStep_relPath true cs hc]

theorem Join_absPath_name (vs : List String) (n : String) (hv : ∀ m ∈ vs, ValidName m)
    (hn : ValidName n) : Join (absPath vs) n = absPath (vs ++ [n]) := by
  rw [Join, if_pos (absPath_ne_empty vs), String.append_assoc,
    Clean_rooted _ (strHasPrefix_absPath_append vs _), ← String.append_assoc]
  simp [cleanElems, splitSep_append_sep, foldl_cleanStep_absPath true vs hv,
    splitSep_of_noSep n hn.2.2.2, cleanStep_valid _ _ n hn]

theorem validName_head (n : String) (hn : ValidName n) :
    ∃ c cs, n.data = c :: cs ∧ c ≠ '/' := by
  obtain ⟨h1, _, _, h4⟩ := hn
  cases h : n.data with
  | nil => exact absurd (String.ext (by simpa using h)) h1
  | cons c cs =>
    refine ⟨c, cs, rfl, ?_⟩
    rintro rfl
    exact h4 (by rw [h]; exact List.mem_cons_self _ _)

theorem joinSep_cons_data (n : String) (ns : List String) :
    ∃ r, (joinSep (n :: ns)).data = n.data ++ r := by
  cases ns with
  | nil => exact ⟨[], by simp [joinSep_data, List.intercalate]⟩
  | cons m ms => exact ⟨_, by simp [joinSep_data, List.intercalate]; rfl⟩

theorem relPath_head (cs : List String) (hc : ∀ n ∈ cs, ValidName n) :
    ∃ c r, (relPath cs).data = c :: r ∧ c ≠ '/' := by
  cases cs with
  | nil => exact ⟨'.', [], rfl, by decide⟩
  | cons n ns =>
    obtain ⟨c, r, hd, hne⟩ := validName_head n (hc n (List.mem_cons_self _ _))
    obtain ⟨r2, h2⟩ := joinSep_cons_data n ns
    exact ⟨c, r ++ r2, by simp [relPath, h2, hd], hne⟩

theorem Join_relPath_name (cs : List String) (n : String) (hc : ∀ m ∈ cs, ValidName m)
    (hn : ValidName n) : Join (relPath cs) n = relPath (cs ++ [n]) := by
  obtain ⟨c, r, hd, hne⟩ := relPath_head cs hc
  have hne1 : relPath cs ≠ "" := by
    intro h; rw [h] at hd; exact absurd hd (by simp)
  have hpre : strHasPrefix (relPath cs ++ "/" ++ n) "/" = false := by
    rw [Bool.eq_false_iff, Ne, strHasPrefix_slash]
    simp [String.data_append, hd, hne]
  have hall : ∀ m ∈ cs ++ [n], ValidName m := by
    intro m hm
    rcases List.mem_append.1 hm with h | h
    · exact hc m h
    · rw [List.mem_singleton.1 h]; exact hn
  obtain ⟨c2, r2, hd2, _⟩ := relPath_head (cs ++ [n]) hall
  have hne2 : relPath (cs ++ [n]) ≠ "" := by
    intro h; rw [h] at hd2; exact absurd hd2 (by simp)
  rw [Join, if_pos hne1]
  simp only [Clean, hpre, Bool.false_eq_true, if_false]
  have hce : cleanElems false (relPath cs ++ "/" ++ n) = cs ++ [n] := by
    simp [cleanElems, splitSep_append_sep, foldl_cleanStep_relPath false cs hc,
      splitSep_of_noSep n hn.2.2.2, cleanStep_valid _ _ n hn]
  rw [hce]
  have hrel : relPath (cs ++ [n]) = joinSep (cs ++ [n]) := by simp [relPath]
  have he : ("" : String) ++ joinSep (cs ++ [n]) = joinSep (cs ++ [n]) := by
    apply String.ext; simp
  rw [he, ← hrel, if_neg hne2]

theorem joinSep_cons_cons (a b : String) (r : List String) :
    (joinSep (a :: b :: r)).data = a.data ++ '/' :: (joinSep (b :: r)).data := by
  simp [joinSep_data, List.intercalate]

theorem joinSep_snoc (qs : List String) (a n : String) :
    (joinSep (a :: qs ++ [n])).data = (joinSep (a :: qs)).data ++ '/' :: n.data := by
  induction qs generalizing a with
  | nil => simp [joinSep_data, List.intercalate]
  | cons q qs ih =>
    rw [List.cons_append, List.cons_append, joinSep_cons_cons, joinSep_cons_cons,
      ← List.cons_append, ih q]
    simp

/-- The characters of an absolute path with a last element: a part that does
not depend on the last element, a separator, the last element. -/
theorem absPath_snoc_data (qs : List String) :
    ∃ pre, ∀ n : String, (absPath (qs ++ [n])).data = pre ++ '/' :: n.data := by
  cases qs with
  | nil => exact ⟨[], fun n => by simp [absPath_data, joinSep_data, List.intercalate]⟩
  | cons a qs =>
    exact ⟨'/' :: (joinSep (a :: qs)).data, fun n => by
      rw [absPath_data, joinSep_snoc]; simp⟩

theorem absPath_snoc_append (qs : List String) (n s : String) :
    absPath (qs ++ [n]) ++ s = absPath (qs ++ [n ++ s]) := by
  obtain ⟨pre, h⟩ := absPath_snoc_data qs
  apply String.ext
  rw [String.data_append, h n, h (n ++ s), String.data_append]
  simp

theorem Base_of_data (p n : String) (pre : List Char) (hn : ValidName n)
    (hp : p.data = pre ++ '/' :: n.data) : Base p = n := by
  have hne : p ≠ "" := by
    intro h; rw [h] at hp; exact absurd hp.symm (by simp)
  obtain ⟨h1, _, _, h4⟩ := hn
  have hnd : n.data ≠ [] := fun h => h1 (String.ext (by simpa using h))
  have hall : ∀ c ∈ n.data.reverse, (c != Separator) = true := by
    intro c hc
    simp only [bne_iff_ne, ne_eq]
    rintro rfl
    exact h4 (List.mem_reverse.1 hc)
  have hrev : p.data.reverse = n.data.reverse ++ '/' :: pre.reverse := by
    rw [hp]; simp
  have hdrop : (n.data.reverse ++ '/' :: pre.reverse).dropWhile (· == Separator)
      = n.data.reverse ++ '/' :: pre.reverse := by
    cases hr : n.data.reverse with
    | nil => exact absurd (List.reverse_eq_nil_iff.1 hr) hnd
    | cons c cs =>
      have hc := hall c (by rw [hr]; exact List.mem_cons_self _ _)
      rw [List.cons_append, List.dropWhile_cons_of_neg]
      simpa using hc
  have htake : (n.data.reverse ++ '/' :: pre.reverse).takeWhile (· != Separator)
      = n.data.reverse := by
    rw [List.takeWhile_append_of_pos hall]
    simp [Separator]
  simp only [Base, if_neg hne, hrev, hdrop, htake, List.reverse_reverse, if_neg hnd]

theorem Base_absPath_snoc (qs : List String) (n : String) (hn : ValidName n) :
    Base (absPath (qs ++ [n])) = n := by
  obtain ⟨pre, h⟩ := absPath_snoc_data qs
  exact Base_of_data _ n pre hn (h n)

theorem absPath_injective (as bs : List String) (ha : ∀ n ∈ as, ValidName n)
    (hb : ∀ n ∈ bs, ValidName n) (h : absPath as = absPath bs) : as = bs := by
  rw [← pathElems_absPath as ha, ← pathElems_absPath bs hb, h]

theorem validName_append (n s : String) (hn : ValidName n) (hs : Separator ∉ s.data)
    (hlen : 2 ≤ s.length) : ValidName (n ++ s) := by
  obtain ⟨h1, _, _, h4⟩ := hn
  have hnl : 1 ≤ n.length := by
    rcases Nat.eq_zero_or_pos n.length with h | h
    · have hd : n.data = [] := List.length_eq_zero.1 h
      exact absurd (String.ext hd) h1
    · exact h
  have hl : 3 ≤ (n ++ s).length := by rw [String.length_append]; omega
  refine ⟨?_, ?_, ?_, ?_⟩
  · intro h; rw [h] at hl; exact absurd hl (by decide)
  · intro h; rw [h] at hl; exact absurd hl (by decide)
  · intro h; rw [h] at hl; exact absurd hl (by decide)
  · rw [String.data_append, List.mem_append]; rintro (h | h)
    · exact h4 h
    · exact hs h

theorem relElems_absPath (vs : List String) (h : ∀ n ∈ vs, ValidName n) :
    relElems (absPath vs) = vs := by
  rw [relElems, splitSep_absPath vs h]
  by_cases hv : vs = []
  · subst hv; decide
  · simp only [hv, if_false]
    rw [List.filter_cons_of_neg (by simp), List.filter_eq_self]
    intro n hn
    simpa using (h n hn).1

theorem dropCommon_append (vs cs : List String) : dropCommon vs (vs ++ cs) = ([], cs) := by
  induction vs with
  | nil => cases cs <;> rfl
  | cons v vs ih => simp [dropCommon, ih]

theorem relPath_of_ne_nil (cs : List String) (h : cs ≠ []) : relPath cs = joinSep cs := by
  simp [relPath, h]

theorem Rel_absPath (vs cs : List String) (hv : ∀ n ∈ vs, ValidName n)
    (hc : ∀ n ∈ cs, ValidName n) (hne : cs ≠ []) :
    Rel (absPath vs) (absPath (vs ++ cs)) = some (relPath cs) := by
  have hall : ∀ m ∈ vs ++ cs, ValidName m := by
    intro m hm
    rcases List.mem_append.1 hm with h | h
    · exact hv m h
    · exact hc m h
  have hne2 : absPath (vs ++ cs) ≠ absPath vs := by
    intro h
    have := absPath_injective _ _ hall hv h
    exact hne (by simpa using this)
  have hdot : absPath vs ≠ "." := by
    intro h
    have := congrArg String.data h
    rw [absPath_data] at this
    exact absurd this (by simp)
  simp only [Rel, Clean_absPath vs hv, Clean_absPath _ hall, if_neg hne2, if_neg hdot,
    strHasPrefix_absPath, relElems_absPath vs hv, relElems_absPath _ hall, dropCommon_append,
    relPath_of_ne_nil cs hne]
  simp

theorem getRelativePath_absPath (idx : Indexator) (vs cs : List String)
    (hi : idx.vaultPath = absPath vs) (hv : ∀ n ∈ vs, ValidName n)
    (hc : ∀ n ∈ cs, ValidName n) (hne : cs ≠ []) :
    getRelativePath idx (absPath (vs ++ cs)) = relPath cs := by
  simp [getRelativePath, hi, Rel_absPath vs cs hv hc hne]

theorem validName_indexName (cs : List String) (hc : ∀ n ∈ cs, ValidName n) :
    ValidName (indexName cs) := by
  unfold indexName
  cases h : cs.getLast? with
  | none => decide
  | some b =>
    exact validName_append b ".md" (hc b (List.mem_of_getLast?_eq_some h)) (by decide) (by decide)

theorem valid_append {as bs : List String} (ha : ∀ n ∈ as, ValidName n)
    (hb : ∀ n ∈ bs, ValidName n) : ∀ n ∈ as ++ bs, ValidName n := by
  intro m hm
  rcases List.mem_append.1 hm with h | h
  · exact ha m h
  · exact hb m h

theorem valid_snoc {as : List String} {b : String} (ha : ∀ n ∈ as, ValidName n)
    (hb : ValidName b) : ∀ n ∈ as ++ [b], ValidName n :=
  valid_append ha (fun n hn => by rw [List.mem_singleton.1 hn]; exact hb)

/-- The directory name `isIndexFile`, `indexDirectory` and `createIndexFile`
derive for a directory of a clean absolute vault path. -/
theorem dirName_absPath (idx : Indexator) (vs cs : List String)
    (hi : idx.vaultPath = absPath vs) (hv : ∀ n ∈ vs, ValidName n)
    (hc : ∀ n ∈ cs, ValidName n) :
    (if absPath (vs ++ cs) = idx.vaultPath then "index" else Base (absPath (vs ++ cs))) ++ ".md"
      = indexName cs ∧
    (Base (absPath (vs ++ cs)) = "." ∨ absPath (vs ++ cs) = idx.vaultPath ↔ cs = []) := by
  rcases List.eq_nil_or_concat cs with rfl | ⟨cs1, b, hcs⟩
  · simp [hi, indexName]
  · rw [List.concat_eq_append] at hcs
    subst hcs
    have hb : ValidName b := hc b (by simp)
    have hne : absPath (vs ++ (cs1 ++ [b])) ≠ absPath vs := by
      intro h
      have := absPath_injective _ _ (valid_append hv hc) hv h
      simp at this
    have hbase : Base (absPath (vs ++ (cs1 ++ [b]))) = b := by
      rw [← List.append_assoc]; exact Base_absPath_snoc _ b hb
    refine ⟨?_, ?_⟩
    · rw [hi, if_neg hne, hbase]; simp [indexName]
    · rw [hi, hbase]; simp [hne, hb.2.1]

theorem isIndexFile_abs (idx : Indexator) (vs cs : List String) (n : String)
    (hi : VaultAt idx vs) (hc : ∀ m ∈ cs, ValidName m) (hn : ValidName n) :
    isIndexFile idx (absPath (vs ++ cs ++ [n])) (absPath (vs ++ cs))
      = decide (n = indexName cs) := by
  unfold isIndexFile
  simp only [Base_absPath_snoc _ n hn, (dirName_absPath idx vs cs hi.1 hi.2 hc).1]
  by_cases h : n = indexName cs <;> simp [h]

theorem indexFilePathOf_abs (idx : Indexator) (vs cs : List String)
    (hi : VaultAt idx vs) (hc : ∀ m ∈ cs, ValidName m) :
    indexFilePathOf idx (absPath (vs ++ cs)) = absPath (vs ++ cs ++ [indexName cs]) := by
  have hd := dirName_absPath idx vs cs hi.1 hi.2 hc
  have hname : (if Base (absPath (vs ++ cs)) = "." ∨ absPath (vs ++ cs) = idx.vaultPath
      then "index" else Base (absPath (vs ++ cs))) ++ ".md" = indexName cs := by
    rw [← hd.1]
    by_cases hcs : cs = []
    · have h1 : absPath (vs ++ cs) = idx.vaultPath := by rw [hcs, hi.1]; simp
      simp [h1]
    · have h1 : ¬ (Base (absPath (vs ++ cs)) = "." ∨ absPath (vs ++ cs) = idx.vaultPath) :=
        fun h => hcs (hd.2.1 h)
      have h2 : ¬ absPath (vs ++ cs) = idx.vaultPath := fun h => h1 (Or.inr h)
      rw [if_neg h1, if_neg h2]
  unfold indexFilePathOf
  simp only [hname]
  exact Join_absPath_name _ _ (valid_append hi.2 hc) (validName_indexName cs hc)

theorem lookupEntry_insertEntry_self (n : String) (v : Node) (es : List (String × Node)) :
    lookupEntry n (insertEntry n v es) = some v := by
  induction es with
  | nil => simp [insertEntry, lookupEntry]
  | cons e es ih =>
    obtain ⟨m, w⟩ := e
    unfold insertEntry
    by_cases h1 : m = n
    · simp [h1, lookupEntry]
    · by_cases h2 : strLess n m = true
      · simp [h1, h2, lookupEntry]
      · simp [h1, h2, lookupEntry, ih]

theorem lookupEntry_insertEntry_ne (n k : String) (v : Node) (es : List (String × Node))
    (h : k ≠ n) : lookupEntry k (insertEntry n v es) = lookupEntry k es := by
  induction es with
  | nil => simp [insertEntry, lookupEntry, Ne.symm h]
  | cons e es ih =>
    obtain ⟨m, w⟩ := e
    unfold insertEntry
    by_cases h1 : m = n
    · subst h1; simp [lookupEntry, Ne.symm h]
    · by_cases h2 : strLess n m = true
      · simp [h1, h2, lookupEntry, Ne.symm h]
      · simp only [h1, h2, if_false, lookupEntry, ih]

theorem lookupEntry_eraseEntry_self (n : String) (es : List (String × Node)) :
    lookupEntry n (eraseEntry n es) = none := by
  induction es with
  | nil => rfl
  | cons e es ih =>
    obtain ⟨m, w⟩ := e
    unfold eraseEntry
    by_cases h1 : m = n
    · simp [h1, ih]
    · simp [h1, lookupEntry, ih]

theorem lookupEntry_eraseEntry_ne (n k : String) (es : List (String × Node)) (h : k ≠ n) :
    lookupEntry k (eraseEntry n es) = lookupEntry k es := by
  induction es with
  | nil => rfl
  | cons e es ih =>
    obtain ⟨m, w⟩ := e
    unfold eraseEntry
    by_cases h1 : m = n
    · subst h1; simp [lookupEntry, Ne.symm h, ih]
    · simp only [h1, if_false, lookupEntry, ih]

theorem Node.get_nil (t : Node) : t.get [] = some t := by
  cases t <;> rfl

theorem Node.get_file_cons (c : String) (x : String) (cs : List String) :
    (Node.file c).get (x :: cs) = none := rfl

theorem Node.get_dir_cons (es : List (String × Node)) (c : String) (cs : List String) :
    (Node.dir es).get (c :: cs) = (lookupEntry c es).bind (fun ch => ch.get cs) := by
  simp only [Node.get]
  cases lookupEntry c es <;> rfl

theorem Node.get_append (t : Node) (p r : List String) :
    t.get (p ++ r) = (t.get p).bind (fun n => n.get r) := by
  induction p generalizing t with
  | nil => simp [Node.get_nil]
  | cons c cs ih =>
    cases t with
    | file x => simp [Node.get_file_cons]
    | dir es =>
      simp only [List.cons_append, Node.get_dir_cons]
      cases lookupEntry c es with
      | none => rfl
      | some ch => simp [ih]

theorem Node.put_dir_cons (es : List (String × Node)) (c : String) (cs : List String)
    (v : Node) :
    (Node.dir es).put (c :: cs) v =
      if cs = [] then some (.dir (insertEntry c v es))
      else (lookupEntry c es).bind (fun ch =>
        (ch.put cs v).map (fun ch2 => .dir (insertEntry c ch2 es))) := by
  simp only [Node.put]
  cases cs with
  | nil => simp
  | cons d ds =>
    simp only [List.isEmpty_cons, Bool.false_eq_true, if_false, if_neg (List.cons_ne_nil d ds)]
    cases lookupEntry c es with
    | none => rfl
    | some ch =>
      simp only [Option.bind_some]
      cases h : ch.put (d :: ds) v <;> simp [h]

theorem Node.del_dir_cons (es : List (String × Node)) (c : String) (cs : List String) :
    (Node.dir es).del (c :: cs) =
      if cs = [] then (lookupEntry c es).map (fun _ => .dir (eraseEntry c es))
      else (lookupEntry c es).bind (fun ch =>
        (ch.del cs).map (fun ch2 => .dir (insertEntry c ch2 es))) := by
  simp only [Node.del]
  cases cs with
  | nil => simp; cases lookupEntry c es <;> rfl
  | cons d ds =>
    simp only [List.isEmpty_cons, Bool.false_eq_true, if_false, if_neg (List.cons_ne_nil d ds)]
    cases lookupEntry c es with
    | none => rfl
    | some ch =>
      simp only [Option.bind_some]
      cases h : ch.del (d :: ds) <;> simp [h]

theorem Node.put_inv {t t2 v : Node} {p : List String} (h : t.put p v = some t2) :
    ∃ es c cs, t = .dir es ∧ p = c :: cs ∧
      ((cs = [] ∧ t2 = .dir (insertEntry c v es)) ∨
       (cs ≠ [] ∧ ∃ ch ch2, lookupEntry c es = some ch ∧ ch.put cs v = some ch2 ∧
          t2 = .dir (insertEntry c ch2 es))) := by
  cases p with
  | nil => cases t <;> simp [Node.put] at h
  | cons c cs =>
    cases t with
    | file x => simp [Node.put] at h
    | dir es =>
      refine ⟨es, c, cs, rfl, rfl, ?_⟩
      rw [Node.put_dir_cons] at h
      by_cases hcs : cs = []
      · left; simp only [hcs, if_true, Option.some.injEq] at h; exact ⟨hcs, h.symm⟩
      · right
        simp only [hcs, if_false] at h
        cases hl : lookupEntry c es with
        | none => simp [hl] at h
        | some ch =>
          simp only [hl, Option.some_bind] at h
          cases hp : ch.put cs v with
          | none => simp [hp] at h
          | some ch2 =>
            simp only [hp, Option.map_some', Option.some.injEq] at h
            exact ⟨hcs, ch, ch2, rfl, hp, h.symm⟩

theorem Node.del_inv {t t2 : Node} {p : List String} (h : t.del p = some t2) :
    ∃ es c cs, t = .dir es ∧ p = c :: cs ∧
      ((cs = [] ∧ (lookupEntry c es).isSome ∧ t2 = .dir (eraseEntry c es)) ∨
       (cs ≠ [] ∧ ∃ ch ch2, lookupEntry c es = some ch ∧ ch.del cs = some ch2 ∧
          t2 = .dir (insertEntry c ch2 es))) := by
  cases p with
  | nil => cases t <;> simp [Node.del] at h
  | cons c cs =>
    cases t with
    | file x => simp [Node.del] at h
    | dir es =>
      refine ⟨es, c, cs, rfl, rfl, ?_⟩
      rw [Node.del_dir_cons] at h
      by_cases hcs : cs = []
      · left
        simp only [hcs, if_true] at h
        cases hl : lookupEntry c es with
        | none => simp [hl] at h
        | some ch =>
          simp only [hl, Option.map_some', Option.some.injEq] at h
          exact ⟨hcs, rfl, h.symm⟩
      · right
        simp only [hcs, if_false] at h
        cases hl : lookupEntry c es with
        | none => simp [hl] at h
        | some ch =>
          simp only [hl, Option.some_bind] at h
          cases hp : ch.del cs with
          | none => simp [hp] at h
          | some ch2 =>
            simp only [hp, Option.map_some', Option.some.injEq] at h
            exact ⟨hcs, ch, ch2, rfl, hp, h.symm⟩

theorem Node.get_put_self {t t2 v : Node} {p : List String} (h : t.put p v = some t2) :
    t2.get p = some v := by
  induction p generalizing t t2 with
  | nil => obtain ⟨_, _, _, _, hp, _⟩ := Node.put_inv h; cases hp
  | cons c cs ih =>
    obtain ⟨es, c1, cs1, rfl, hp, hcase⟩ := Node.put_inv h
    cases hp
    rcases hcase with ⟨rfl, rfl⟩ | ⟨_, ch, ch2, _, hput, rfl⟩
    · simp [Node.get_dir_cons, lookupEntry_insertEntry_self, Node.get_nil]
    · simp [Node.get_dir_cons, lookupEntry_insertEntry_self, ih hput]

theorem Node.get_put_other {t t2 v : Node} {p : List String} (h : t.put p v = some t2)
    (q : List String) (h1 : ¬ p <+: q) (h2 : ¬ q <+: p) : t2.get q = t.get q := by
  induction p generalizing t t2 q with
  | nil => exact absurd List.nil_prefix h1
  | cons c cs ih =>
    obtain ⟨es, c1, cs1, rfl, hp, hcase⟩ := Node.put_inv h
    cases hp
    cases q with
    | nil => exact absurd List.nil_prefix h2
    | cons k ks =>
      by_cases hk : k = c
      · subst hk
        rcases hcase with ⟨rfl, rfl⟩ | ⟨_, ch, ch2, hl, hput, rfl⟩
        · exact absurd (List.prefix_cons_inj k |>.2 List.nil_prefix) h1
        · have h1' : ¬ cs <+: ks := fun hh => h1 ((List.prefix_cons_inj k).2 hh)
          have h2' : ¬ ks <+: cs := fun hh => h2 ((List.prefix_cons_inj k).2 hh)
          simp [Node.get_dir_cons, lookupEntry_insertEntry_self, hl, ih hput ks h1' h2']
      · rcases hcase with ⟨rfl, rfl⟩ | ⟨_, ch, ch2, hl, hput, rfl⟩ <;>
          simp [Node.get_dir_cons, lookupEntry_insertEntry_ne _ _ _ _ hk]

theorem Node.get_put_ancestor {t t2 v : Node} {q r : List String}
    (h : t.put (q ++ r) v = some t2) (hr : r ≠ []) :
    t2.get q = (t.get q).bind (fun n => n.put r v) := by
  induction q generalizing t t2 with
  | nil => simpa [Node.get_nil] using h.symm
  | cons c cs ih =>
    obtain ⟨es, c1, cs1, rfl, hp, hcase⟩ := Node.put_inv h
    cases hp
    rcases hcase with ⟨hnil, _⟩ | ⟨_, ch, ch2, hl, hput, rfl⟩
    · exact absurd (List.append_eq_nil.1 hnil).2 hr
    · simp [Node.get_dir_cons, lookupEntry_insertEntry_self, hl, ih hput]

theorem Node.get_del_self {t t2 : Node} {p : List String} (h : t.del p = some t2) :
    t2.get p = none := by
  induction p generalizing t t2 with
  | nil => obtain ⟨_, _, _, _, hp, _⟩ := Node.del_inv h; cases hp
  | cons c cs ih =>
    obtain ⟨es, c1, cs1, rfl, hp, hcase⟩ := Node.del_inv h
    cases hp
    rcases hcase with ⟨rfl, _, rfl⟩ | ⟨_, ch, ch2, _, hdel, rfl⟩
    · simp [Node.get_dir_cons, lookupEntry_eraseEntry_self]
    · simp [Node.get_dir_cons, lookupEntry_insertEntry_self, ih hdel]

theorem Node.get_del_other {t t2 : Node} {p : List String} (h : t.del p = some t2)
    (q : List String) (h1 : ¬ p <+: q) (h2 : ¬ q <+: p) : t2.get q = t.get q := by
  induction p generalizing t t2 q with
  | nil => exact absurd List.nil_prefix h1
  | cons c cs ih =>
    obtain ⟨es, c1, cs1, rfl, hp, hcase⟩ := Node.del_inv h
    cases hp
    cases q with
    | nil => exact absurd List.nil_prefix h2
    | cons k ks =>
      by_cases hk : k = c
      · subst hk
        rcases hcase with ⟨rfl, _, rfl⟩ | ⟨_, ch, ch2, hl, hdel, rfl⟩
        · exact absurd (List.prefix_cons_inj k |>.2 List.nil_prefix) h1
        · have h1' : ¬ cs <+: ks := fun hh => h1 ((List.prefix_cons_inj k).2 hh)
          have h2' : ¬ ks <+: cs := fun hh => h2 ((List.prefix_cons_inj k).2 hh)
          simp [Node.get_dir_cons, lookupEntry_insertEntry_self, hl, ih hdel ks h1' h2']
      · rcases hcase with ⟨rfl, _, rfl⟩ | ⟨_, ch, ch2, hl, hdel, rfl⟩
        · simp [Node.get_dir_cons, lookupEntry_eraseEntry_ne _ _ _ hk]
        · simp [Node.get_dir_cons, lookupEntry_insertEntry_ne _ _ _ _ hk]

theorem Node.get_del_ancestor {t t2 : Node} {q r : List String}
    (h : t.del (q ++ r) = some t2) (hr : r ≠ []) :
    t2.get q = (t.get q).bind (fun n => n.del r) := by
  induction q generalizing t t2 with
  | nil => simpa [Node.get_nil] using h.symm
  | cons c cs ih =>
    obtain ⟨es, c1, cs1, rfl, hp, hcase⟩ := Node.del_inv h
    cases hp
    rcases hcase with ⟨hnil, _⟩ | ⟨_, ch, ch2, hl, hdel, rfl⟩
    · exact absurd (List.append_eq_nil.1 hnil).2 hr
    · simp [Node.get_dir_cons, lookupEntry_insertEntry_self, hl, ih hdel]

/-- Below a path that holds no directory there is nothing. -/
theorem Node.get_below_nondir {t : Node} {p r : List String}
    (hp : ∀ es, t.get p ≠ some (.dir es)) (hr : r ≠ []) : t.get (p ++ r) = none := by
  rw [Node.get_append]
  cases hg : t.get p with
  | none => rfl
  | some n =>
    cases n with
    | dir es => exact absurd hg (hp es)
    | file x =>
      cases r with
      | nil => exact absurd rfl hr
      | cons a as => rfl

theorem Node.lookupErr_nil_file (c : String) (p : List String) :
    (Node.file c).lookupErr p = .notDir := by
  cases p <;> rfl

/-- Below a regular file the look-up fails with `ENOTDIR`. -/
theorem Node.lookupErr_below_file {t : Node} {p r : List String} {c : String}
    (h : t.get p = some (.file c)) : t.lookupErr (p ++ r) = .notDir := by
  induction p generalizing t with
  | nil =>
    rw [Node.get_nil] at h
    cases h
    exact Node.lookupErr_nil_file c _
  | cons a as ih =>
    cases t with
    | file x => exact Node.lookupErr_nil_file x _
    | dir es =>
      rw [Node.get_dir_cons] at h
      simp only [List.cons_append, Node.lookupErr]
      cases hl : lookupEntry a es with
      | none => rw [hl] at h; cases h
      | some ch =>
        rw [hl] at h
        exact ih h

/-- Below a path that does not exist the look-up fails as at that path. -/
theorem Node.lookupErr_below_none {t : Node} {p r : List String}
    (h : t.get p = none) : t.lookupErr (p ++ r) = t.lookupErr p := by
  induction p generalizing t with
  | nil => rw [Node.get_nil] at h; cases h
  | cons a as ih =>
    cases t with
    | file x => rw [Node.lookupErr_nil_file, Node.lookupErr_nil_file]
    | dir es =>
      rw [Node.get_dir_cons] at h
      simp only [List.cons_append, Node.lookupErr]
      cases hl : lookupEntry a es with
      | none => rfl
      | some ch =>
        rw [hl] at h
        exact ih h

theorem statAt_of_dirAt {fs : Node} {cur r : List String} {e : OsError}
    (h : dirAt fs cur = some e) (hr : r ≠ []) : statAt fs (cur ++ r) = .error e := by
  unfold dirAt at h
  by_cases hc : cur = []
  · rw [if_pos hc] at h; cases h
  · rw [if_neg hc] at h
    unfold statAt
    cases hg : fs.get cur with
    | none =>
      rw [hg] at h
      simp only [Option.some.injEq] at h
      rw [Node.get_append, hg, Option.none_bind, Node.lookupErr_below_none hg, h]
    | some n =>
      rw [hg] at h
      cases n with
      | dir es => cases h
      | file c =>
        simp only [Option.some.injEq] at h
        rw [Node.get_below_nondir (by rw [hg]; intro es h2; cases h2) hr,
          Node.lookupErr_below_file hg, h]

/-- On valid names the walk of the kernel ends where the names lead. -/
theorem kernelWalk_valid (fs : Node) (cs : List String) (hc : ∀ n ∈ cs, ValidName n) :
    ∀ cur, (match kernelWalk fs cs cur with
      | .error e => .error e
      | .ok ps => statAt fs ps) = statAt fs (cur ++ cs) := by
  induction cs with
  | nil => intro cur; simp [kernelWalk]
  | cons c rest ih =>
    intro cur
    have hv := hc c (List.mem_cons_self _ _)
    unfold kernelWalk
    cases hd : dirAt fs cur with
    | some e =>
      simp only
      exact (statAt_of_dirAt hd (List.cons_ne_nil c rest)).symm
    | none =>
      simp only
      rw [if_neg (by rintro (h | h); exact hv.1 h; exact hv.2.1 h), if_neg hv.2.2.1,
        ih (fun n hn => hc n (List.mem_cons_of_mem _ hn))]
      simp

theorem osStat_absPath (fs : Node) (ps : List String) (hp : ∀ m ∈ ps, ValidName m) :
    osStat fs (absPath ps) = statAt fs ps := by
  unfold osStat
  rw [if_neg (absPath_ne_empty ps), splitSep_absPath ps hp]
  have h0 : dirAt fs [] = none := by simp [dirAt]
  by_cases hne : ps = []
  · subst hne
    simp [kernelWalk, h0]
  · rw [if_neg hne]
    have := kernelWalk_valid fs ps hp []
    rw [List.nil_append] at this
    rw [← this]
    conv_lhs => unfold kernelWalk
    simp [h0]

theorem osStat_absPath_some (fs : Node) (ps : List String) (n : Node)
    (hp : ∀ m ∈ ps, ValidName m) (h : fs.get ps = some n) :
    osStat fs (absPath ps) = .ok n := by
  rw [osStat_absPath fs ps hp]
  unfold statAt
  rw [h]

theorem osStat_absPath_none (fs : Node) (ps : List String)
    (hp : ∀ m ∈ ps, ValidName m) (h : fs.get ps = none) :
    osStat fs (absPath ps) = .error (fs.lookupErr ps) := by
  rw [osStat_absPath fs ps hp]
  unfold statAt
  rw [h]

theorem validName_md (n : String) (hn : ValidName n) : ValidName (n ++ ".md") :=
  validName_append n ".md" hn (by decide) (by decide)

theorem linkOfEntry_abs (idx : Indexator) (fs : Node) (vs cs : List String) (e : DirEntry)
    (hi : VaultAt idx vs) (hc : ∀ m ∈ cs, ValidName m) (hn : ValidName e.Name) :
    linkOfEntry idx fs (absPath (vs ++ cs)) e = entryLink fs vs cs e := by
  have hvc := valid_append hi.2 hc
  have hvcn := valid_snoc hvc hn
  have hmd := validName_md e.Name hn
  unfold linkOfEntry entryLink
  simp only [Join_absPath_name _ _ hvc hn, isIndexFile_abs idx vs cs e.Name hi hc hn,
    Join_absPath_name _ _ hvcn hmd, decide_eq_true_eq]
  by_cases h1 : e.Name = indexName cs
  · simp [h1]
  · simp only [h1, if_false]
    by_cases h2 : e.IsDir = true
    · simp only [h2, if_true]
      have e1 : vs ++ cs ++ [e.Name] ++ [e.Name ++ ".md"]
          = vs ++ (cs ++ [e.Name, e.Name ++ ".md"]) := by simp
      have e2 : vs ++ cs ++ [e.Name, e.Name ++ ".md"]
          = vs ++ (cs ++ [e.Name, e.Name ++ ".md"]) := by simp
      rw [e1, e2]
      have hv2 : ∀ m ∈ cs ++ [e.Name, e.Name ++ ".md"], ValidName m :=
        valid_append hc (by
          intro m hm
          simp only [List.mem_cons, List.mem_singleton, List.not_mem_nil, or_false] at hm
          rcases hm with rfl | rfl
          · exact hn
          · exact hmd)
      rw [getRelativePath_absPath idx vs _ hi.1 hi.2 hv2 (by simp)]
      cases hg : fs.get (vs ++ (cs ++ [e.Name, e.Name ++ ".md"])) with
      | none =>
        rw [osStat_absPath_none fs _ (e1 ▸ valid_snoc hvcn hmd) hg]
        simp
      | some nd =>
        rw [osStat_absPath_some fs _ nd (e1 ▸ valid_snoc hvcn hmd) hg]
        simp [linkFor]
    · simp only [h2, Bool.false_eq_true, if_false]
      rw [List.append_assoc,
        getRelativePath_absPath idx vs _ hi.1 hi.2 (valid_snoc hc hn) (by simp)]
      rfl

theorem prefix_cases {p q : List String} (h : p <+: q) (hq : ¬ q <+: p) :
    ∃ r, r ≠ [] ∧ q = p ++ r := by
  obtain ⟨r, rfl⟩ := h
  refine ⟨r, ?_, rfl⟩
  rintro rfl
  exact hq (by simp)

/-- Writing a regular file where no directory is changes nothing at any path
that is not the file or one of its ancestors. -/
theorem Node.put_file_frame {t t2 : Node} {p : List String} {c : String}
    (h : t.put p (.file c) = some t2) (hp : ∀ es, t.get p ≠ some (.dir es))
    (q : List String) (hq : ¬ q <+: p) : t2.get q = t.get q := by
  by_cases hpq : p <+: q
  · obtain ⟨r, hr, rfl⟩ := prefix_cases hpq hq
    rw [Node.get_below_nondir hp hr, Node.get_append, Node.get_put_self h]
    cases r with
    | nil => exact absurd rfl hr
    | cons a as => rfl
  · exact Node.get_put_other h q hpq hq

/-- Removing what is not a directory changes nothing at any path that is not
the removed one or one of its ancestors. -/
theorem Node.del_file_frame {t t2 : Node} {p : List String}
    (h : t.del p = some t2) (hp : ∀ es, t.get p ≠ some (.dir es))
    (q : List String) (hq : ¬ q <+: p) : t2.get q = t.get q := by
  by_cases hpq : p <+: q
  · obtain ⟨r, hr, rfl⟩ := prefix_cases hpq hq
    rw [Node.get_below_nondir hp hr, Node.get_append, Node.get_del_self h]
    rfl
  · exact Node.get_del_other h q hpq hq

theorem Node.put_of_parent {t : Node} {par : List String} {es : List (String × Node)}
    (h : t.get par = some (.dir es)) (c : String) (v : Node) :
    ∃ t2, t.put (par ++ [c]) v = some t2 := by
  induction par generalizing t with
  | nil =>
    rw [Node.get_nil] at h
    cases h
    exact ⟨.dir (insertEntry c v es), by simp [Node.put_dir_cons]⟩
  | cons k ks ih =>
    cases t with
    | file x => simp [Node.get_file_cons] at h
    | dir es0 =>
      rw [Node.get_dir_cons] at h
      cases hl : lookupEntry k es0 with
      | none => simp [hl] at h
      | some ch =>
        simp only [hl, Option.some_bind] at h
        obtain ⟨ch2, hch2⟩ := ih h
        exact ⟨.dir (insertEntry k ch2 es0), by simp [Node.put_dir_cons, hl, hch2]⟩

theorem Node.del_of_get {t n : Node} {p : List String} (h : t.get p = some n) (hp : p ≠ []) :
    ∃ t2, t.del p = some t2 := by
  induction p generalizing t with
  | nil => exact absurd rfl hp
  | cons k ks ih =>
    cases t with
    | file x => simp [Node.get_file_cons] at h
    | dir es0 =>
      rw [Node.get_dir_cons] at h
      cases hl : lookupEntry k es0 with
      | none => simp [hl] at h
      | some ch =>
        simp only [hl, Option.some_bind] at h
        by_cases hks : ks = []
        · exact ⟨.dir (eraseEntry k es0), by simp [Node.del_dir_cons, hl, hks]⟩
        · obtain ⟨ch2, hch2⟩ := ih h hks
          exact ⟨.dir (insertEntry k ch2 es0), by simp [Node.del_dir_cons, hl, hks, hch2]⟩

theorem Node.get_put_parent {t t2 v : Node} {par : List String} {c : String}
    {es : List (String × Node)} (h : t.put (par ++ [c]) v = some t2)
    (hg : t.get par = some (.dir es)) : t2.get par = some (.dir (insertEntry c v es)) := by
  rw [Node.get_put_ancestor h (by simp), hg]
  simp [Node.put_dir_cons]

theorem Node.get_del_parent {t t2 : Node} {par : List String} {c : String}
    {es : List (String × Node)} (h : t.del (par ++ [c]) = some t2)
    (hg : t.get par = some (.dir es)) : t2.get par = some (.dir (eraseEntry c es)) := by
  induction par generalizing t t2 with
  | nil =>
    rw [Node.get_nil] at hg
    cases hg
    obtain ⟨es1, c1, cs1, ht, hp, hcase⟩ := Node.del_inv h
    cases ht
    cases hp
    rcases hcase with ⟨_, _, rfl⟩ | ⟨hne, _⟩
    · exact Node.get_nil _
    · exact absurd rfl hne
  | cons k ks ih =>
    obtain ⟨es1, c1, cs1, rfl, hp, hcase⟩ := Node.del_inv h
    cases hp
    rcases hcase with ⟨hnil, _⟩ | ⟨_, ch, ch2, hl, hdel, rfl⟩
    · simp at hnil
    · rw [Node.get_dir_cons, hl] at hg
      simp only [Option.some_bind] at hg
      simp [Node.get_dir_cons, lookupEntry_insertEntry_self, ih hdel hg]

theorem Node.wf_dir (es : List (String × Node)) : (Node.dir es).wf = wfEntries es := by
  simp [Node.wf]

theorem wfEntries_iff (es : List (String × Node)) :
    wfEntries es = true ↔ ∀ e ∈ es, ValidName e.1 ∧ e.2.wf = true := by
  induction es with
  | nil => simp [wfEntries]
  | cons e es ih =>
    obtain ⟨n, ch⟩ := e
    simp [wfEntries, ih, and_assoc]

theorem lookupEntry_mem {c : String} {ch : Node} {es : List (String × Node)}
    (h : lookupEntry c es = some ch) : (c, ch) ∈ es := by
  induction es with
  | nil => simp [lookupEntry] at h
  | cons e es ih =>
    obtain ⟨n, w⟩ := e
    unfold lookupEntry at h
    by_cases hn : n = c
    · simp only [hn, if_true, Option.some.injEq] at h
      subst hn; subst h; exact List.mem_cons_self _ _
    · simp only [hn, if_false] at h
      exact List.mem_cons_of_mem _ (ih h)

theorem mem_insertEntry {c : String} {v : Node} {es : List (String × Node)}
    {e : String × Node} (h : e ∈ insertEntry c v es) : e = (c, v) ∨ e ∈ es := by
  induction es with
  | nil => simpa [insertEntry] using h
  | cons e0 es ih =>
    obtain ⟨n, w⟩ := e0
    unfold insertEntry at h
    by_cases h1 : n = c
    · rw [if_pos h1] at h
      rcases List.mem_cons.1 h with h3 | h3
      · exact Or.inl h3
      · exact Or.inr (List.mem_cons_of_mem _ h3)
    · rw [if_neg h1] at h
      by_cases h2 : strLess c n = true
      · rw [if_pos h2] at h
        rcases List.mem_cons.1 h with h3 | h3
        · exact Or.inl h3
        · exact Or.inr h3
      · rw [if_neg h2] at h
        rcases List.mem_cons.1 h with h3 | h3
        · exact Or.inr (List.mem_cons.2 (Or.inl h3))
        · rcases ih h3 with h4 | h4
          · exact Or.inl h4
          · exact Or.inr (List.mem_cons_of_mem _ h4)

theorem mem_eraseEntry {c : String} {es : List (String × Node)}
    {e : String × Node} (h : e ∈ eraseEntry c es) : e ∈ es ∧ e.1 ≠ c := by
  induction es with
  | nil => simp [eraseEntry] at h
  | cons e0 es ih =>
    obtain ⟨n, w⟩ := e0
    unfold eraseEntry at h
    by_cases h1 : n = c
    · simp only [h1, if_true] at h
      exact ⟨List.mem_cons_of_mem _ (ih h).1, (ih h).2⟩
    · simp only [h1, if_false, List.mem_cons] at h
      rcases h with h | h
      · subst h; exact ⟨List.mem_cons_self _ _, h1⟩
      · exact ⟨List.mem_cons_of_mem _ (ih h).1, (ih h).2⟩

theorem wfEntries_insertEntry {c : String} {v : Node} {es : List (String × Node)}
    (hes : wfEntries es = true) (hc : ValidName c) (hv : v.wf = true) :
    wfEntries (insertEntry c v es) = true := by
  rw [wfEntries_iff] at hes ⊢
  intro e he
  rcases mem_insertEntry he with rfl | h
  · exact ⟨hc, hv⟩
  · exact hes e h

theorem wfEntries_eraseEntry {c : String} {es : List (String × Node)}
    (hes : wfEntries es = true) : wfEntries (eraseEntry c es) = true := by
  rw [wfEntries_iff] at hes ⊢
  intro e he
  exact hes e (mem_eraseEntry he).1

theorem Node.wf_get {t n : Node} {p : List String} (ht : t.wf = true)
    (h : t.get p = some n) : n.wf = true := by
  induction p generalizing t with
  | nil => rw [Node.get_nil] at h; cases h; exact ht
  | cons k ks ih =>
    cases t with
    | file x => simp [Node.get_file_cons] at h
    | dir es =>
      rw [Node.get_dir_cons] at h
      cases hl : lookupEntry k es with
      | none => simp [hl] at h
      | some ch =>
        simp only [hl, Option.some_bind] at h
        rw [Node.wf_dir, wfEntries_iff] at ht
        exact ih (ht _ (lookupEntry_mem hl)).2 h

theorem Node.wf_listing {t : Node} {p : List String} {es : List (String × Node)}
    (ht : t.wf = true) (h : t.get p = some (.dir es)) : ∀ e ∈ es, ValidName e.1 := by
  have := Node.wf_get ht h
  rw [Node.wf_dir, wfEntries_iff] at this
  exact fun e he => (this e he).1

theorem Node.wf_put {t t2 v : Node} {par : List String} {c : String} (ht : t.wf = true)
    (hv : v.wf = true) (hc : ValidName c) (h : t.put (par ++ [c]) v = some t2) :
    t2.wf = true := by
  induction par generalizing t t2 with
  | nil =>
    obtain ⟨es, c1, cs1, rfl, hp, hcase⟩ := Node.put_inv h
    cases hp
    rcases hcase with ⟨_, rfl⟩ | ⟨hne, _⟩
    · rw [Node.wf_dir] at ht ⊢
      exact wfEntries_insertEntry ht hc hv
    · exact absurd rfl hne
  | cons k ks ih =>
    obtain ⟨es, c1, cs1, rfl, hp, hcase⟩ := Node.put_inv h
    cases hp
    rcases hcase with ⟨hnil, _⟩ | ⟨_, ch, ch2, hl, hput, rfl⟩
    · simp at hnil
    · rw [Node.wf_dir] at ht ⊢
      have hmem := (wfEntries_iff es).1 ht _ (lookupEntry_mem hl)
      exact wfEntries_insertEntry ht hmem.1 (ih hmem.2 hput)

theorem Node.wf_del {t t2 : Node} {p : List String} (ht : t.wf = true)
    (h : t.del p = some t2) : t2.wf = true := by
  induction p generalizing t t2 with
  | nil => obtain ⟨_, _, _, _, hp, _⟩ := Node.del_inv h; cases hp
  | cons k ks ih =>
    obtain ⟨es, c1, cs1, rfl, hp, hcase⟩ := Node.del_inv h
    cases hp
    rw [Node.wf_dir] at ht
    rcases hcase with ⟨_, _, rfl⟩ | ⟨_, ch, ch2, hl, hdel, rfl⟩
    · rw [Node.wf_dir]; exact wfEntries_eraseEntry ht
    · rw [Node.wf_dir]
      have hmem := (wfEntries_iff es).1 ht _ (lookupEntry_mem hl)
      exact wfEntries_insertEntry ht hmem.1 (ih hmem.2 hdel)

theorem World.slog_fs (w : World) (l : LogLevel) (m : String) (a : List (String × LogValue)) :
    (w.slog l m a).fs = w.fs := rfl

theorem validName_tmp (n : String) (hn : ValidName n) : ValidName (n ++ ".tmp") :=
  validName_append n ".tmp" hn (by decide) (by decide)

theorem append_tmp_ne (x : String) : x ++ ".tmp" ≠ x := by
  intro h
  have := congrArg String.length h
  rw [String.length_append] at this
  have h4 : (".tmp" : String).length = 4 := by decide
  omega

theorem snoc_not_prefix_snoc {D : List String} {a b : String} (h : a ≠ b) :
    ¬ (D ++ [a]) <+: (D ++ [b]) := by
  intro hp
  have := List.IsPrefix.eq_of_length hp (by simp)
  exact h (by simpa using this)

/-- The three steps of a write that succeeds: the temporary file is written,
taken away again by the rename, and the target is put in its place. -/
theorem writeFileAtomic_ok (idx : Indexator) (w : World) (D : List String) (x content : String)
    (es : List (String × Node)) (hD : ∀ n ∈ D, ValidName n) (hx : ValidName x)
    (hg : w.fs.get D = some (.dir es)) (hT : w.fs.get (D ++ [x]) = none)
    (htmp : ∀ es2, w.fs.get (D ++ [x ++ ".tmp"]) ≠ some (.dir es2)) :
    ∃ fs1 fs2 fs3, w.fs.put (D ++ [x ++ ".tmp"]) (.file content) = some fs1 ∧
      fs1.del (D ++ [x ++ ".tmp"]) = some fs2 ∧
      fs2.put (D ++ [x]) (.file content) = some fs3 ∧
      (writeFileAtomic idx (absPath (D ++ [x])) content w).1.fs = fs3 ∧
      (writeFileAtomic idx (absPath (D ++ [x])) content w).2 = none := by
  have hvT := valid_snoc hD hx
  have hvtmp := valid_snoc hD (validName_tmp x hx)
  obtain ⟨fs1, h1⟩ := Node.put_of_parent hg (x ++ ".tmp") (.file content)
  have hg1self : fs1.get (D ++ [x ++ ".tmp"]) = some (.file content) := Node.get_put_self h1
  obtain ⟨fs2, h2⟩ := Node.del_of_get hg1self (by simp)
  have hT1 : fs1.get (D ++ [x]) = none := by
    rw [Node.put_file_frame h1 htmp _ (snoc_not_prefix_snoc (Ne.symm (append_tmp_ne x)))]
    exact hT
  have hD1 : fs1.get D = some (.dir (insertEntry (x ++ ".tmp") (.file content) es)) :=
    Node.get_put_parent h1 hg
  have hD2 := Node.get_del_parent h2 hD1
  obtain ⟨fs3, h3⟩ := Node.put_of_parent hD2 x (.file content)
  refine ⟨fs1, fs2, fs3, h1, h2, h3, ?_⟩
  have hne : D ++ [x ++ ".tmp"] ≠ D ++ [x] := by
    intro h; exact append_tmp_ne x (by simpa using h)
  have hw : osWriteFile w.fs (absPath (D ++ [x ++ ".tmp"])) content = .ok fs1 := by
    unfold osWriteFile
    rw [pathElems_absPath _ hvtmp, h1]
    cases hq : w.fs.get (D ++ [x ++ ".tmp"]) with
    | none => rfl
    | some n =>
      cases n with
      | file c => rfl
      | dir es2 => exact absurd hq (htmp es2)
  have hr : osRename fs1 (absPath (D ++ [x ++ ".tmp"])) (absPath (D ++ [x])) = .ok fs3 := by
    unfold osRename
    rw [pathElems_absPath _ hvtmp, pathElems_absPath _ hvT, hg1self]
    simp only [if_neg hne, hT1, h2, h3]
  unfold writeFileAtomic
  rw [absPath_snoc_append]
  simp only [hw, hr]
  exact ⟨rfl, trivial⟩

/-- A write whose temporary path is a directory fails and changes nothing. -/
theorem writeFileAtomic_tmp_dir (idx : Indexator) (w : World) (D : List String)
    (x content : String) (es2 : List (String × Node))
    (hD : ∀ n ∈ D, ValidName n) (hx : ValidName x)
    (htmp : w.fs.get (D ++ [x ++ ".tmp"]) = some (.dir es2)) :
    (writeFileAtomic idx (absPath (D ++ [x])) content w).1.fs = w.fs ∧
    (writeFileAtomic idx (absPath (D ++ [x])) content w).2 ≠ none := by
  have hvtmp := valid_snoc hD (validName_tmp x hx)
  have hw : osWriteFile w.fs (absPath (D ++ [x ++ ".tmp"])) content = .error .isDir := by
    unfold osWriteFile
    rw [pathElems_absPath _ hvtmp, htmp]
  unfold writeFileAtomic
  rw [absPath_snoc_append]
  simp only [hw]
  exact ⟨rfl, by simp⟩

theorem WroteIndex.get_target {fs fs3 : Node} {D : List String} {x content : String}
    (h : WroteIndex fs fs3 D x content) : fs3.get (D ++ [x]) = some (.file content) := by
  obtain ⟨fs1, fs2, _, _, h3⟩ := h
  exact Node.get_put_self h3

theorem WroteIndex.frame {fs fs3 : Node} {D : List String} {x content : String}
    (h : WroteIndex fs fs3 D x content) (hT : fs.get (D ++ [x]) = none)
    (htmp : ∀ es2, fs.get (D ++ [x ++ ".tmp"]) ≠ some (.dir es2))
    (q : List String) (h1 : ¬ q <+: D ++ [x]) (h2 : ¬ q <+: D ++ [x ++ ".tmp"]) :
    fs3.get q = fs.get q := by
  obtain ⟨fs1, fs2, hp1, hd, hp2⟩ := h
  have hself : fs1.get (D ++ [x ++ ".tmp"]) = some (.file content) := Node.get_put_self hp1
  have hnd : ∀ es2, fs1.get (D ++ [x ++ ".tmp"]) ≠ some (.dir es2) := by
    intro es2; rw [hself]; simp
  have hT2 : fs2.get (D ++ [x]) = none := by
    rw [Node.del_file_frame hd hnd _ (snoc_not_prefix_snoc (Ne.symm (append_tmp_ne x))),
      Node.put_file_frame hp1 htmp _ (snoc_not_prefix_snoc (Ne.symm (append_tmp_ne x)))]
    exact hT
  rw [Node.put_file_frame hp2 (by intro es2; rw [hT2]; simp) q h1,
    Node.del_file_frame hd hnd q h2, Node.put_file_frame hp1 htmp q h2]

theorem WroteIndex.get_tmp {fs fs3 : Node} {D : List String} {x content : String}
    (h : WroteIndex fs fs3 D x content) (hT : fs.get (D ++ [x]) = none)
    (htmp : ∀ es2, fs.get (D ++ [x ++ ".tmp"]) ≠ some (.dir es2)) :
    fs3.get (D ++ [x ++ ".tmp"]) = none := by
  obtain ⟨fs1, fs2, hp1, hd, hp2⟩ := h
  have hself : fs1.get (D ++ [x ++ ".tmp"]) = some (.file content) := Node.get_put_self hp1
  have hnd : ∀ es2, fs1.get (D ++ [x ++ ".tmp"]) ≠ some (.dir es2) := by
    intro es2; rw [hself]; simp
  have hT2 : fs2.get (D ++ [x]) = none := by
    rw [Node.del_file_frame hd hnd _ (snoc_not_prefix_snoc (Ne.symm (append_tmp_ne x))),
      Node.put_file_frame hp1 htmp _ (snoc_not_prefix_snoc (Ne.symm (append_tmp_ne x)))]
    exact hT
  rw [Node.put_file_frame hp2 (by intro es2; rw [hT2]; simp) _
    (snoc_not_prefix_snoc (append_tmp_ne x))]
  exact Node.get_del_self hd

theorem WroteIndex.get_dir {fs fs3 : Node} {D : List String} {x content : String}
    {es : List (String × Node)} (h : WroteIndex fs fs3 D x content)
    (hg : fs.get D = some (.dir es)) :
    fs3.get D = some (.dir (insertEntry x (.file content)
      (eraseEntry (x ++ ".tmp") (insertEntry (x ++ ".tmp") (.file content) es)))) := by
  obtain ⟨fs1, fs2, hp1, hd, hp2⟩ := h
  exact Node.get_put_parent hp2 (Node.get_del_parent hd (Node.get_put_parent hp1 hg))

theorem WroteIndex.write_wf {fs fs3 : Node} {D : List String} {x content : String}
    (h : WroteIndex fs fs3 D x content) (hx : ValidName x) (hfs : fs.wf = true) :
    fs3.wf = true := by
  obtain ⟨fs1, fs2, hp1, hd, hp2⟩ := h
  have hfile : (Node.file content).wf = true := by simp [Node.wf]
  exact Node.wf_put (Node.wf_del (Node.wf_put hfs hfile (validName_tmp x hx) hp1) hd)
    hfile hx hp2

theorem backupExistingFile_fs (idx : Indexator) (p : String) (w : World)
    (h : w.fs.get (pathElems p) = none) : (backupExistingFile idx p w).1.fs = w.fs := by
  unfold backupExistingFile
  have hr : osRename w.fs p (p ++ ".backup_" ++ w.now)
      = .error (w.fs.lookupErr (pathElems p)) := by
    unfold osRename; rw [h]
  simp only [hr]
  split <;> rfl

theorem createIndexFile_dryRun (idx : Indexator) (dirPath : String) (links : List String)
    (w : World) (h : idx.dryRun = true) :
    (createIndexFile idx dirPath links w).1.fs = w.fs ∧
    (createIndexFile idx dirPath links w).2 = none := by
  unfold createIndexFile
  simp only [h, if_true]
  exact ⟨rfl, trivial⟩

theorem createIndexFile_eq (idx : Indexator) (dirPath : String) (links : List String)
    (w : World) :
    createIndexFile idx dirPath links w =
      if idx.dryRun = true then
        (w.slog .info "DRY RUN: Would create index"
          [("file", .str (indexFilePathOf idx dirPath)), ("entries", .int links.length)], none)
      else
        writeFileAtomic idx (indexFilePathOf idx dirPath) (indexContent links)
          (backupStage idx (indexFilePathOf idx dirPath) w) := rfl

theorem backupStage_fs (idx : Indexator) (p : String) (w : World)
    (h : w.fs.get (pathElems p) = none) : (backupStage idx p w).fs = w.fs := by
  have hb := backupExistingFile_fs idx p w h
  unfold backupStage
  by_cases hbk : idx.backup = true
  · rw [if_pos hbk]
    rcases hr : backupExistingFile idx p w with ⟨w1, e⟩
    rw [hr] at hb
    cases e with
    | none => exact hb
    | some err => exact hb
  · rw [if_neg hbk]

theorem createIndexFile_write (idx : Indexator) (w : World) (vs cs : List String)
    (links : List String) (es : List (String × Node))
    (hi : VaultAt idx vs) (hc : ∀ n ∈ cs, ValidName n) (hdry : idx.dryRun = false)
    (hg : w.fs.get (vs ++ cs) = some (.dir es))
    (hT : w.fs.get (vs ++ cs ++ [indexName cs]) = none)
    (htmp : ∀ es2, w.fs.get (vs ++ cs ++ [indexName cs ++ ".tmp"]) ≠ some (.dir es2)) :
    WroteIndex w.fs (createIndexFile idx (absPath (vs ++ cs)) links w).1.fs (vs ++ cs)
      (indexName cs) (indexContent links) ∧
    (createIndexFile idx (absPath (vs ++ cs)) links w).2 = none := by
  have hD := valid_append hi.2 hc
  have hx := validName_indexName cs hc
  have hpe : w.fs.get (pathElems (absPath (vs ++ cs ++ [indexName cs]))) = none := by
    rw [pathElems_absPath _ (valid_snoc hD hx)]; exact hT
  rw [createIndexFile_eq, indexFilePathOf_abs idx vs cs hi hc, hdry]
  simp only [Bool.false_eq_true, if_false]
  have hfs := backupStage_fs idx (absPath (vs ++ cs ++ [indexName cs])) w hpe
  obtain ⟨fs1, fs2, fs3, h1, h2, h3, hr1, hr2⟩ :=
    writeFileAtomic_ok idx (backupStage idx (absPath (vs ++ cs ++ [indexName cs])) w)
      (vs ++ cs) (indexName cs) (indexContent links) es hD hx
      (by rw [hfs]; exact hg) (by rw [hfs]; exact hT) (by rw [hfs]; exact htmp)
  rw [hfs] at h1
  exact ⟨⟨fs1, fs2, h1, h2, by rw [hr1]; exact h3⟩, hr2⟩

theorem createIndexFile_tmp_dir (idx : Indexator) (w : World) (vs cs : List String)
    (links : List String) (es2 : List (String × Node))
    (hi : VaultAt idx vs) (hc : ∀ n ∈ cs, ValidName n)
    (hT : w.fs.get (vs ++ cs ++ [indexName cs]) = none)
    (htmp : w.fs.get (vs ++ cs ++ [indexName cs ++ ".tmp"]) = some (.dir es2)) :
    (createIndexFile idx (absPath (vs ++ cs)) links w).1.fs = w.fs := by
  have hD := valid_append hi.2 hc
  have hx := validName_indexName cs hc
  have hpe : w.fs.get (pathElems (absPath (vs ++ cs ++ [indexName cs]))) = none := by
    rw [pathElems_absPath _ (valid_snoc hD hx)]; exact hT
  by_cases hdry : idx.dryRun = true
  · exact (createIndexFile_dryRun idx _ links w hdry).1
  · rw [createIndexFile_eq, indexFilePathOf_abs idx vs cs hi hc, if_neg hdry]
    have hfs := backupStage_fs idx (absPath (vs ++ cs ++ [indexName cs])) w hpe
    rw [(writeFileAtomic_tmp_dir idx _ (vs ++ cs) (indexName cs) _ es2 hD hx
      (by rw [hfs]; exact htmp)).1, hfs]

theorem osReadDir_abs_dir (fs : Node) (D : List String) (es : List (String × Node))
    (hD : ∀ n ∈ D, ValidName n) (hg : fs.get D = some (.dir es)) :
    osReadDir fs (absPath D) = .ok (es.map toDirEntry) := by
  unfold osReadDir
  rw [pathElems_absPath D hD, hg]
  rfl

theorem osReadDir_abs_err (fs : Node) (D : List String)
    (hD : ∀ n ∈ D, ValidName n) (hg : ∀ es, fs.get D ≠ some (.dir es)) :
    ∃ e, osReadDir fs (absPath D) = .error e := by
  unfold osReadDir
  rw [pathElems_absPath D hD]
  cases h : fs.get D with
  | none => exact ⟨_, rfl⟩
  | some n =>
    cases n with
    | file c => exact ⟨_, rfl⟩
    | dir es => exact absurd h (hg es)

theorem dirLinks_eq (idx : Indexator) (fs : Node) (vs cs : List String)
    (es : List (String × Node)) (hi : VaultAt idx vs) (hc : ∀ n ∈ cs, ValidName n)
    (hes : ∀ e ∈ es, ValidName e.1) :
    (es.map toDirEntry).filterMap (linkOfEntry idx fs (absPath (vs ++ cs)))
      = dirLinks fs vs cs es := by
  unfold dirLinks
  apply List.filterMap_congr
  intro e he
  obtain ⟨e0, he0, rfl⟩ := List.mem_map.1 he
  exact linkOfEntry_abs idx fs vs cs _ hi hc (hes e0 he0)

/-- What `indexDirectory` does on a directory of a clean vault that it can read. -/
theorem indexDirectory_dir (idx : Indexator) (w : World) (vs cs : List String)
    (es : List (String × Node)) (hi : VaultAt idx vs) (hc : ∀ n ∈ cs, ValidName n)
    (hwf : w.fs.wf = true) (hg : w.fs.get (vs ++ cs) = some (.dir es)) :
    indexDirectory idx (relPath cs) w =
      if (dirLinks w.fs vs cs es).length = 0 then (w, none)
      else if (w.fs.get (vs ++ cs ++ [indexName cs])).isSome = true then (w, none)
      else createIndexFile idx (absPath (vs ++ cs)) (dirLinks w.fs vs cs es) w := by
  have hD := valid_append hi.2 hc
  have hx := validName_indexName cs hc
  unfold indexDirectory
  simp only [hi.1, Join_absPath_relPath vs cs hi.2 hc, osReadDir_abs_dir w.fs _ es hD hg,
    dirLinks_eq idx w.fs vs cs es hi hc (Node.wf_listing hwf hg),
    indexFilePathOf_abs idx vs cs hi hc]
  by_cases hl : (dirLinks w.fs vs cs es).length = 0
  · simp only [hl, if_true]
  · simp only [hl, if_false]
    cases hT : w.fs.get (vs ++ cs ++ [indexName cs]) with
    | none =>
      rw [osStat_absPath_none w.fs _ (valid_snoc hD hx) hT]
      simp
    | some n =>
      rw [osStat_absPath_some w.fs _ n (valid_snoc hD hx) hT]
      simp

/-- A directory that cannot be read: `indexDirectory` fails and changes nothing. -/
theorem indexDirectory_readErr (idx : Indexator) (w : World) (vs cs : List String)
    (hi : VaultAt idx vs) (hc : ∀ n ∈ cs, ValidName n)
    (hg : ∀ es, w.fs.get (vs ++ cs) ≠ some (.dir es)) :
    (indexDirectory idx (relPath cs) w).1.fs = w.fs ∧
    (indexDirectory idx (relPath cs) w).2 ≠ none := by
  obtain ⟨e, he⟩ := osReadDir_abs_err w.fs _ (valid_append hi.2 hc) hg
  unfold indexDirectory
  simp only [hi.1, Join_absPath_relPath vs cs hi.2 hc, he]
  exact ⟨rfl, by simp⟩

mutual
theorem walkDir_collect (idx : Indexator) (path name : String) (t : Node)
    (w : World) (acc : List String) :
    walkDir (collectFn idx) path name t (w, acc)
      = ((w, acc ++ collectNode idx path name t), none) := by
  cases t with
  | file c =>
    simp [walkDir, collectFn, Node.isDir, collectNode]
  | dir es =>
    by_cases h1 : (strHasPrefix name "." && path != ".") = true
    · simp [walkDir, collectFn, Node.isDir, collectNode, h1]
    · by_cases h2 : shouldExcludeDirectory idx path = true
      · simp [walkDir, collectFn, Node.isDir, collectNode, h1, h2]
      · simp [walkDir, collectFn, Node.isDir, collectNode, h1, h2,
          walkDirEntries_collect idx path es w (acc ++ [path])]
theorem walkDirEntries_collect (idx : Indexator) (path : String) (es : List (String × Node))
    (w : World) (acc : List String) :
    walkDirEntries (collectFn idx) path es (w, acc)
      = ((w, acc ++ collectEntries idx path es), none) := by
  cases es with
  | nil => simp [walkDirEntries, collectEntries]
  | cons e rest =>
    obtain ⟨n, ch⟩ := e
    simp [walkDirEntries, collectEntries, walkDir_collect idx (Join path n) n ch w acc,
      walkDirEntries_collect idx path rest w (acc ++ collectNode idx (Join path n) n ch)]
end

theorem absPath_getLast (vs : List String) (hv : ∀ n ∈ vs, ValidName n) (hne : vs ≠ []) :
    (absPath vs).data.getLast? ≠ some Separator := by
  rcases List.eq_nil_or_concat vs with h | ⟨qs, n, h⟩
  · exact absurd h hne
  · rw [List.concat_eq_append] at h
    subst h
    have hn : ValidName n := hv n (by simp)
    obtain ⟨pre, hpre⟩ := absPath_snoc_data qs
    rw [hpre n]
    obtain ⟨h1, _, _, h4⟩ := hn
    have hnd : n.data ≠ [] := fun h => h1 (String.ext (by simpa using h))
    obtain ⟨c, hc⟩ : ∃ c, n.data.getLast? = some c := by
      cases hl : n.data.getLast? with
      | none => exact absurd (List.getLast?_eq_none_iff.1 hl) hnd
      | some c => exact ⟨c, rfl⟩
    have hlast : (pre ++ '/' :: n.data).getLast? = some c := by
      have e : pre ++ '/' :: n.data = (pre ++ ['/']) ++ n.data := by simp
      rw [e, List.getLast?_append, hc]
      rfl
    rw [hlast]
    intro heq
    have : c = Separator := by simpa using heq
    exact h4 (this ▸ List.mem_of_getLast?_eq_some hc)

theorem dirAt_below {fs : Node} {cur r : List String} {e : OsError}
    (h : dirAt fs cur = some e) (hr : r ≠ []) : dirAt fs (cur ++ r) = some e := by
  unfold dirAt at h ⊢
  by_cases hc : cur = []
  · rw [if_pos hc] at h; cases h
  · rw [if_neg hc] at h
    rw [if_neg (by simp [hc])]
    cases hg : fs.get cur with
    | none =>
      rw [hg] at h
      simp only [Option.some.injEq] at h
      rw [Node.get_append, hg, Option.none_bind]
      simp only [Node.lookupErr_below_none hg, h]
    | some n =>
      rw [hg] at h
      cases n with
      | dir es => cases h
      | file c =>
        simp only [Option.some.injEq] at h
        rw [Node.get_below_nondir (by rw [hg]; intro es h2; cases h2) hr]
        simp only [Node.lookupErr_below_file hg, h]

/-- The walk of the kernel passes valid names one by one; when a piece
follows them, it is taken where they lead. -/
theorem kernelWalk_append_valid (fs : Node) (cs : List String) (hc : ∀ n ∈ cs, ValidName n) :
    ∀ cur rest, rest ≠ [] → kernelWalk fs (cs ++ rest) cur = kernelWalk fs rest (cur ++ cs) := by
  induction cs with
  | nil => intro cur rest _; simp
  | cons c cs ih =>
    intro cur rest hr
    have hv := hc c (List.mem_cons_self _ _)
    rw [List.cons_append]
    conv_lhs => unfold kernelWalk
    cases hd : dirAt fs cur with
    | some e =>
      simp only
      obtain ⟨r, rs, rfl⟩ := List.exists_cons_of_ne_nil hr
      unfold kernelWalk
      rw [dirAt_below hd (List.cons_ne_nil c cs)]
    | none =>
      simp only
      rw [if_neg (by rintro (h | h); exact hv.1 h; exact hv.2.1 h), if_neg hv.2.2.1,
        ih (fun n hn => hc n (List.mem_cons_of_mem _ hn)) _ _ hr]
      simp

/-- What `os.Stat` finds at the name `os.DirFS` opens for the root of the walk,
`<vault>/.`: the vault if it is a directory, else an error. -/
theorem osStat_dirFSJoin (fs : Node) (vs : List String) (hv : ∀ n ∈ vs, ValidName n) :
    osStat fs (dirFSJoin (absPath vs) ".") = (dirAt fs vs).elim (statAt fs vs) Except.error := by
  have h0 : dirAt fs [] = none := by simp [dirAt]
  by_cases hne : vs = []
  · subst hne
    have e1 : dirFSJoin (absPath []) "." = "/." := by decide
    have e2 : splitSep "/." = ["", "."] := by decide
    unfold osStat
    rw [e1, if_neg (by decide), e2]
    simp [kernelWalk, h0]
  · unfold dirFSJoin
    rw [if_neg (absPath_getLast vs hv hne)]
    unfold osStat
    have hne2 : absPath vs ++ "/" ++ "." ≠ "" := by
      intro h
      have := congrArg String.data h
      simp [absPath_data] at this
    have e2 : splitSep "." = ["."] := by decide
    rw [if_neg hne2, splitSep_append_sep, splitSep_absPath vs hv, if_neg hne, e2,
      List.cons_append]
    conv_lhs => unfold kernelWalk
    simp only [h0, true_or, if_true]
    rw [kernelWalk_append_valid fs vs hv [] ["."] (by simp), List.nil_append]
    unfold kernelWalk
    cases hd : dirAt fs vs with
    | some e => rfl
    | none => simp [kernelWalk]

theorem dirAt_dir {fs : Node} {vs : List String} {es : List (String × Node)}
    (hg : fs.get vs = some (.dir es)) : dirAt fs vs = none := by
  unfold dirAt
  by_cases hc : vs = []
  · rw [if_pos hc]
  · rw [if_neg hc, hg]

theorem CollectDirectories_walk (idx : Indexator) (w : World) (vs : List String)
    (t : Node) (hi : VaultAt idx vs) (hg : w.fs.get vs = some t)
    (hd : dirAt w.fs vs = none) :
    CollectDirectories idx w = (w, collectNode idx "." "." t, none) := by
  have hs : osStat w.fs (dirFSJoin (absPath vs) ".") = .ok t := by
    rw [osStat_dirFSJoin w.fs vs hi.2, hd]
    simp only [Option.elim, statAt, hg]
  unfold CollectDirectories fsWalkDir
  simp only [hi.1, if_neg (absPath_ne_empty vs), hs, walkDir_collect]
  simp

theorem CollectDirectories_ok (idx : Indexator) (w : World) (vs : List String)
    (es : List (String × Node)) (hi : VaultAt idx vs) (hg : w.fs.get vs = some (.dir es)) :
    CollectDirectories idx w = (w, collectNode idx "." "." (.dir es), none) :=
  CollectDirectories_walk idx w vs _ hi hg (dirAt_dir hg)

theorem Node.lookupErr_ne_permission (t : Node) (p : List String) :
    t.lookupErr p ≠ .permission := by
  induction p generalizing t with
  | nil => cases t <;> simp [Node.lookupErr]
  | cons c cs ih =>
    cases t with
    | file x => simp [Node.lookupErr]
    | dir es =>
      simp only [Node.lookupErr]
      cases lookupEntry c es with
      | none => simp
      | some ch => exact ih ch

/-- An error of `os.Stat` at the root of the walk that is not a permission
error ends `CollectDirectories` with an error. -/
theorem CollectDirectories_statErr (idx : Indexator) (w : World) (vs : List String)
    (e : OsError) (hi : VaultAt idx vs) (he : e ≠ .permission)
    (hs : osStat w.fs (dirFSJoin (absPath vs) ".") = .error e) :
    (CollectDirectories idx w).2.2 ≠ none ∧ (CollectDirectories idx w).1.fs = w.fs := by
  unfold CollectDirectories fsWalkDir
  simp only [hi.1, if_neg (absPath_ne_empty vs), hs, collectFn, osIsPermission]
  have : (e == OsError.permission) = false := by simpa using he
  simp only [this]
  exact ⟨by simp, rfl⟩

theorem CollectDirectories_missing (idx : Indexator) (w : World) (vs : List String)
    (hi : VaultAt idx vs) (hg : w.fs.get vs = none) :
    (CollectDirectories idx w).2.2 ≠ none ∧ (CollectDirectories idx w).1.fs = w.fs := by
  by_cases hne : vs = []
  · subst hne; rw [Node.get_nil] at hg; cases hg
  · refine CollectDirectories_statErr idx w vs (w.fs.lookupErr vs) hi
      (Node.lookupErr_ne_permission _ _) ?_
    rw [osStat_dirFSJoin w.fs vs hi.2]
    simp only [dirAt, if_neg hne, hg, Option.elim]

/-- A vault path that names a regular file: `os.Stat` of `<vault>/.` fails with
`ENOTDIR` and `CollectDirectories` returns the error. -/
theorem CollectDirectories_notDir (idx : Indexator) (w : World) (vs : List String)
    (c : String) (hi : VaultAt idx vs) (hne : vs ≠ [])
    (hg : w.fs.get vs = some (.file c)) :
    (CollectDirectories idx w).2.2 ≠ none ∧ (CollectDirectories idx w).1.fs = w.fs := by
  refine CollectDirectories_statErr idx w vs .notDir hi (by decide) ?_
  rw [osStat_dirFSJoin w.fs vs hi.2]
  simp only [dirAt, if_neg hne, hg, Option.elim]

theorem cleanElems_relPath (cs : List String) (hc : ∀ n ∈ cs, ValidName n) :
    cleanElems false (relPath cs) = cs := by
  simp [cleanElems, foldl_cleanStep_relPath false cs hc]

theorem relPath_injective (as bs : List String) (ha : ∀ n ∈ as, ValidName n)
    (hb : ∀ n ∈ bs, ValidName n) (h : relPath as = relPath bs) : as = bs := by
  rw [← cleanElems_relPath as ha, ← cleanElems_relPath bs hb, h]

theorem relPath_ne_dot (cs : List String) (hc : ∀ n ∈ cs, ValidName n) (hne : cs ≠ []) :
    relPath cs ≠ "." := by
  intro h
  exact hne (relPath_injective cs [] hc (by simp) h)

theorem Node.uniqueNames_dir (es : List (String × Node)) :
    (Node.dir es).uniqueNames = uniqueEntries es := by
  simp [Node.uniqueNames]

theorem containsChars_iff (sub s : List Char) : containsChars sub s = true ↔ sub <:+: s := by
  induction s with
  | nil => simp [containsChars]
  | cons c cs ih =>
    simp only [containsChars, Bool.or_eq_true, List.isPrefixOf_iff_prefix, ih,
      List.infix_cons_iff]

theorem strHasPrefix_dot (n : String) : strHasPrefix n "." = true ↔ hiddenName n := by
  unfold strHasPrefix hiddenName
  have : (".": String).data = ['.'] := rfl
  rw [this]
  cases h : n.data with
  | nil => simp
  | cons c cs =>
    simp only [List.isPrefixOf, List.head?_cons, Option.some.injEq, Bool.and_true, beq_iff_eq]
    exact eq_comm

theorem Base_noSep (n : String) (hn : ValidName n) : Base n = n := by
  obtain ⟨h1, _, _, h4⟩ := hn
  have hnd : n.data ≠ [] := fun h => h1 (String.ext (by simpa using h))
  have hall : ∀ c ∈ n.data.reverse, (c != Separator) = true := by
    intro c hc
    simp only [bne_iff_ne, ne_eq]
    rintro rfl
    exact h4 (List.mem_reverse.1 hc)
  have hdrop : n.data.reverse.dropWhile (· == Separator) = n.data.reverse := by
    cases hr : n.data.reverse with
    | nil => rfl
    | cons c cs =>
      have hc := hall c (by rw [hr]; exact List.mem_cons_self _ _)
      rw [List.dropWhile_cons_of_neg]
      simpa using hc
  have htake : n.data.reverse.takeWhile (· != Separator) = n.data.reverse := by
    rw [List.takeWhile_eq_self_iff]
    exact hall
  simp only [Base, if_neg h1, hdrop, htake, List.reverse_reverse, if_neg hnd]

theorem Base_relPath (p : List String) (hp : ∀ n ∈ p, ValidName n) :
    Base (relPath p) = baseName p := by
  rcases List.eq_nil_or_concat p with rfl | ⟨qs, n, h⟩
  · decide
  · rw [List.concat_eq_append] at h
    subst h
    have hn : ValidName n := hp n (by simp)
    have hb : baseName (qs ++ [n]) = n := by simp [baseName]
    rw [hb]
    cases qs with
    | nil =>
      have : relPath ([] ++ [n]) = n := by
        simp [relPath, joinSep, strJoin, List.intercalate]
      rw [this]; exact Base_noSep n hn
    | cons a qs =>
      refine Base_of_data _ n (joinSep (a :: qs)).data hn ?_
      rw [relPath_of_ne_nil _ (by simp)]
      exact joinSep_snoc qs a n

theorem shouldExcludeDirectory_iff (idx : Indexator) (p : List String)
    (hp : ∀ n ∈ p, ValidName n) :
    shouldExcludeDirectory idx (relPath p) = true ↔ matchesExclusion idx.excludeDirs p := by
  unfold shouldExcludeDirectory matchesExclusion
  simp only [List.any_eq_true, Bool.or_eq_true, strContains, containsChars_iff, beq_iff_eq,
    Base_relPath p hp]

/-- The test of the walk for a hidden or excluded directory, on the directory
with the elements `p`, is the negation of `dirOk`. -/
theorem collect_guard (idx : Indexator) (p : List String) (name : String)
    (hp : ∀ n ∈ p, ValidName n)
    (hname : (p = [] ∧ name = ".") ∨ p.getLast? = some name) :
    ((strHasPrefix name "." && relPath p != ".") = true ∨
      shouldExcludeDirectory idx (relPath p) = true) ↔ ¬ dirOk idx p := by
  unfold dirOk
  rw [shouldExcludeDirectory_iff idx p hp]
  rcases hname with ⟨rfl, rfl⟩ | hl
  · have : relPath [] = "." := rfl
    simp [this]
  · have hne : p ≠ [] := by rintro rfl; simp at hl
    have hd := relPath_ne_dot p hp hne
    simp only [hl, Option.some.injEq, forall_eq', bne_iff_ne, ne_eq, hd, not_false_eq_true,
      Bool.and_eq_true, decide_True, and_true, not_and, not_not, strHasPrefix_dot]
    constructor
    · rintro (h | h)
      · intro hh; exact absurd h hh
      · intro _; exact h
    · intro h
      by_cases hh : hiddenName name
      · exact Or.inl hh
      · exact Or.inr (h hh)

theorem collectNode_dir (idx : Indexator) (p : List String) (name : String)
    (es : List (String × Node)) (hp : ∀ n ∈ p, ValidName n)
    (hname : (p = [] ∧ name = ".") ∨ p.getLast? = some name) :
    collectNode idx (relPath p) name (.dir es) =
      if dirOk idx p then relPath p :: collectEntries idx (relPath p) es else [] := by
  have hg := collect_guard idx p name hp hname
  unfold collectNode
  by_cases hok : dirOk idx p
  · have hng : ¬ ((strHasPrefix name "." && relPath p != ".") = true ∨
        shouldExcludeDirectory idx (relPath p) = true) := fun h => hg.1 h hok
    rw [not_or] at hng
    simp only [hng.1, hng.2, if_false, hok, if_true, Bool.false_eq_true]
  · rcases hg.2 hok with h | h
    · simp only [h, if_true, hok, if_false]
    · by_cases h1 : (strHasPrefix name "." && relPath p != ".") = true
      · simp only [h1, if_true, hok, if_false]
      · simp only [h1, h, if_true, if_false, hok, Bool.false_eq_true]

theorem lookupEntry_of_mem_unique {n : String} {ch : Node} {es : List (String × Node)}
    (hu : uniqueEntries es = true) (h : (n, ch) ∈ es) : lookupEntry n es = some ch := by
  induction es with
  | nil => simp at h
  | cons e rest ih =>
    obtain ⟨m, c0⟩ := e
    simp only [uniqueEntries, Bool.and_eq_true, Option.isNone_iff_eq_none] at hu
    rcases List.mem_cons.1 h with h1 | h1
    · cases h1; simp [lookupEntry]
    · have hl := ih hu.2 h1
      unfold lookupEntry
      by_cases hm : m = n
      · subst hm; rw [hu.1.1] at hl; cases hl
      · rw [if_neg hm]; exact hl

mutual
theorem mem_collectNode (idx : Indexator) (t : Node) (p : List String) (name : String)
    (hp : ∀ n ∈ p, ValidName n)
    (hname : (p = [] ∧ name = ".") ∨ p.getLast? = some name)
    (hwf : t.wf = true) (hu : t.uniqueNames = true) (d : String) :
    d ∈ collectNode idx (relPath p) name t ↔
      ∃ r, d = relPath (p ++ r) ∧ (∃ es, t.get r = some (.dir es)) ∧
        ∀ r2, r2 <+: r → dirOk idx (p ++ r2) := by
  cases t with
  | file c =>
    simp only [collectNode, List.not_mem_nil, false_iff]
    rintro ⟨r, _, ⟨es, hg⟩, _⟩
    cases r with
    | nil => simp [Node.get_nil] at hg
    | cons a as => simp [Node.get_file_cons] at hg
  | dir es =>
    rw [Node.wf_dir] at hwf
    rw [Node.uniqueNames_dir] at hu
    rw [collectNode_dir idx p name es hp hname]
    have hent := mem_collectEntries idx es p hp hwf hu d
    constructor
    · intro hd
      by_cases hok : dirOk idx p
      · rw [if_pos hok] at hd
        rcases List.mem_cons.1 hd with h | h
        · refine ⟨[], by simpa using h, ⟨es, Node.get_nil _⟩, ?_⟩
          intro r2 hr2
          rw [List.prefix_nil.1 hr2]; simpa using hok
        · obtain ⟨n, ch, r, hl, hdr, ⟨es2, hg⟩, hall⟩ := hent.1 h
          refine ⟨n :: r, hdr, ⟨es2, by rw [Node.get_dir_cons, hl]; exact hg⟩, ?_⟩
          intro r2 hr2
          cases r2 with
          | nil => simpa using hok
          | cons a as =>
            obtain ⟨rfl, has⟩ := List.cons_prefix_cons.1 hr2
            exact hall as has
      · rw [if_neg hok] at hd; simp at hd
    · rintro ⟨r, hdr, ⟨es2, hg⟩, hall⟩
      have hok : dirOk idx p := by simpa using hall [] List.nil_prefix
      rw [if_pos hok]
      cases r with
      | nil => exact List.mem_cons.2 (Or.inl (by simpa using hdr))
      | cons n r =>
        refine List.mem_cons.2 (Or.inr (hent.2 ?_))
        rw [Node.get_dir_cons] at hg
        cases hl : lookupEntry n es with
        | none => simp [hl] at hg
        | some ch =>
          simp only [hl, Option.some_bind] at hg
          exact ⟨n, ch, r, hl, hdr, ⟨es2, hg⟩,
            fun r2 hr2 => hall (n :: r2) (List.cons_prefix_cons.2 ⟨rfl, hr2⟩)⟩
theorem mem_collectEntries (idx : Indexator) (es : List (String × Node)) (p : List String)
    (hp : ∀ n ∈ p, ValidName n) (hwf : wfEntries es = true) (hu : uniqueEntries es = true)
    (d : String) :
    d ∈ collectEntries idx (relPath p) es ↔
      ∃ n ch r, lookupEntry n es = some ch ∧ d = relPath (p ++ n :: r) ∧
        (∃ es2, ch.get r = some (.dir es2)) ∧ ∀ r2, r2 <+: r → dirOk idx (p ++ n :: r2) := by
  cases es with
  | nil => simp [collectEntries, lookupEntry]
  | cons e rest =>
    obtain ⟨m, c0⟩ := e
    simp only [wfEntries, Bool.and_eq_true, decide_eq_true_eq] at hwf
    simp only [uniqueEntries, Bool.and_eq_true, Option.isNone_iff_eq_none] at hu
    obtain ⟨⟨hm, hc0⟩, hrest⟩ := hwf
    obtain ⟨⟨hlm, hu0⟩, hurest⟩ := hu
    have hnode := mem_collectNode idx c0 (p ++ [m]) m (valid_snoc hp hm)
      (Or.inr (by simp)) hc0 hu0 d
    have hents := mem_collectEntries idx rest p hp hrest hurest d
    simp only [collectEntries, List.mem_append, Join_relPath_name p m hp hm]
    constructor
    · rintro (h | h)
      · obtain ⟨r, hdr, hg, hall⟩ := hnode.1 h
        refine ⟨m, c0, r, by simp [lookupEntry], by simpa using hdr, hg, ?_⟩
        intro r2 hr2
        simpa using hall r2 hr2
      · obtain ⟨n, ch, r, hl, hdr, hg, hall⟩ := hents.1 h
        have hne : m ≠ n := by
          rintro rfl; rw [hlm] at hl; cases hl
        exact ⟨n, ch, r, by simp [lookupEntry, hne, hl], hdr, hg, hall⟩
    · rintro ⟨n, ch, r, hl, hdr, hg, hall⟩
      unfold lookupEntry at hl
      by_cases hmn : m = n
      · subst hmn
        simp only [if_true, Option.some.injEq] at hl
        subst hl
        exact Or.inl (hnode.2 ⟨r, by simpa using hdr, hg, fun r2 hr2 => by
          simpa using hall r2 hr2⟩)
      · rw [if_neg hmn] at hl
        exact Or.inr (hents.2 ⟨n, ch, r, hl, hdr, hg, hall⟩)
end

theorem Node.valid_of_get {t n : Node} {r : List String} (ht : t.wf = true)
    (h : t.get r = some n) : ∀ c ∈ r, ValidName c := by
  induction r generalizing t with
  | nil => simp
  | cons k ks ih =>
    cases t with
    | file x => simp [Node.get_file_cons] at h
    | dir es =>
      rw [Node.get_dir_cons] at h
      cases hl : lookupEntry k es with
      | none => simp [hl] at h
      | some ch =>
        simp only [hl, Option.some_bind] at h
        rw [Node.wf_dir, wfEntries_iff] at ht
        have hm := ht _ (lookupEntry_mem hl)
        intro c hc
        rcases List.mem_cons.1 hc with rfl | hc
        · exact hm.1
        · exact ih hm.2 h c hc

mutual
theorem nodup_collectNode (idx : Indexator) (t : Node) (p : List String) (name : String)
    (hp : ∀ n ∈ p, ValidName n)
    (hname : (p = [] ∧ name = ".") ∨ p.getLast? = some name)
    (hwf : t.wf = true) (hu : t.uniqueNames = true) :
    (collectNode idx (relPath p) name t).Nodup := by
  cases t with
  | file c => simp [collectNode]
  | dir es =>
    rw [collectNode_dir idx p name es hp hname]
    rw [Node.wf_dir] at hwf
    rw [Node.uniqueNames_dir] at hu
    by_cases hok : dirOk idx p
    · rw [if_pos hok, List.nodup_cons]
      refine ⟨?_, nodup_collectEntries idx es p hp hwf hu⟩
      intro hmem
      obtain ⟨n, ch, r, hl, hdr, ⟨es2, hg⟩, _⟩ :=
        (mem_collectEntries idx es p hp hwf hu _).1 hmem
      have hmm := (wfEntries_iff es).1 hwf _ (lookupEntry_mem hl)
      have hvr := Node.valid_of_get hmm.2 hg
      have hv : ∀ c ∈ p ++ n :: r, ValidName c :=
        valid_append hp (fun c hc => by
          rcases List.mem_cons.1 hc with rfl | hc
          · exact hmm.1
          · exact hvr c hc)
      have := relPath_injective _ _ hp hv hdr
      simp at this
    · rw [if_neg hok]; exact List.nodup_nil
theorem nodup_collectEntries (idx : Indexator) (es : List (String × Node)) (p : List String)
    (hp : ∀ n ∈ p, ValidName n) (hwf : wfEntries es = true) (hu : uniqueEntries es = true) :
    (collectEntries idx (relPath p) es).Nodup := by
  cases es with
  | nil => simp [collectEntries]
  | cons e rest =>
    obtain ⟨m, c0⟩ := e
    simp only [wfEntries, Bool.and_eq_true, decide_eq_true_eq] at hwf
    simp only [uniqueEntries, Bool.and_eq_true, Option.isNone_iff_eq_none] at hu
    obtain ⟨⟨hm, hc0⟩, hrest⟩ := hwf
    obtain ⟨⟨hlm, hu0⟩, hurest⟩ := hu
    simp only [collectEntries, Join_relPath_name p m hp hm]
    rw [List.nodup_append]
    refine ⟨nodup_collectNode idx c0 (p ++ [m]) m (valid_snoc hp hm) (Or.inr (by simp)) hc0 hu0,
      nodup_collectEntries idx rest p hp hrest hurest, ?_⟩
    intro d hd1 hd2
    obtain ⟨r, hdr, ⟨es1, hg1⟩, _⟩ :=
      (mem_collectNode idx c0 (p ++ [m]) m (valid_snoc hp hm) (Or.inr (by simp)) hc0 hu0 d).1 hd1
    obtain ⟨n, ch, r2, hl, hdr2, ⟨es2, hg2⟩, _⟩ :=
      (mem_collectEntries idx rest p hp hrest hurest d).1 hd2
    have hmm := (wfEntries_iff rest).1 hrest _ (lookupEntry_mem hl)
    have hv1 : ∀ c ∈ p ++ [m] ++ r, ValidName c :=
      valid_append (valid_snoc hp hm) (Node.valid_of_get hc0 hg1)
    have hv2 : ∀ c ∈ p ++ n :: r2, ValidName c :=
      valid_append hp (fun c hc => by
        rcases List.mem_cons.1 hc with rfl | hc
        · exact hmm.1
        · exact Node.valid_of_get hmm.2 hg2 c hc)
    have := relPath_injective _ _ hv1 hv2 (hdr.symm.trans hdr2)
    simp only [List.append_assoc, List.singleton_append, List.append_cancel_left_eq,
      List.cons.injEq] at this
    rw [this.1] at hlm
    rw [hlm] at hl
    cases hl
end

mutual
theorem form_collectNode (idx : Indexator) (t : Node) (p : List String) (name : String)
    (hp : ∀ n ∈ p, ValidName n)
    (hname : (p = [] ∧ name = ".") ∨ p.getLast? = some name)
    (hwf : t.wf = true) (d : String) (hd : d ∈ collectNode idx (relPath p) name t) :
    ∃ r, d = relPath (p ++ r) ∧ (∀ c ∈ r, ValidName c) ∧
      ∀ r2, r2 <+: r → dirOk idx (p ++ r2) := by
  cases t with
  | file c => simp [collectNode] at hd
  | dir es =>
    rw [Node.wf_dir] at hwf
    rw [collectNode_dir idx p name es hp hname] at hd
    by_cases hok : dirOk idx p
    · rw [if_pos hok] at hd
      rcases List.mem_cons.1 hd with h | h
      · refine ⟨[], by simpa using h, by simp, ?_⟩
        intro r2 hr2
        rw [List.prefix_nil.1 hr2]; simpa using hok
      · obtain ⟨n, r, hdr, hv, hall⟩ := form_collectEntries idx es p hp hwf d h
        refine ⟨n :: r, hdr, hv, ?_⟩
        intro r2 hr2
        cases r2 with
        | nil => simpa using hok
        | cons a as =>
          obtain ⟨rfl, has⟩ := List.cons_prefix_cons.1 hr2
          exact hall as has
    · rw [if_neg hok] at hd; simp at hd
theorem form_collectEntries (idx : Indexator) (es : List (String × Node)) (p : List String)
    (hp : ∀ n ∈ p, ValidName n) (hwf : wfEntries es = true)
    (d : String) (hd : d ∈ collectEntries idx (relPath p) es) :
    ∃ n r, d = relPath (p ++ n :: r) ∧ (∀ c ∈ n :: r, ValidName c) ∧
      ∀ r2, r2 <+: r → dirOk idx (p ++ n :: r2) := by
  cases es with
  | nil => simp [collectEntries] at hd
  | cons e rest =>
    obtain ⟨m, c0⟩ := e
    simp only [wfEntries, Bool.and_eq_true, decide_eq_true_eq] at hwf
    obtain ⟨⟨hm, hc0⟩, hrest⟩ := hwf
    simp only [collectEntries, List.mem_append, Join_relPath_name p m hp hm] at hd
    rcases hd with h | h
    · obtain ⟨r, hdr, hv, hall⟩ := form_collectNode idx c0 (p ++ [m]) m (valid_snoc hp hm)
        (Or.inr (by simp)) hc0 d h
      refine ⟨m, r, by simpa using hdr, ?_, fun r2 hr2 => by simpa using hall r2 hr2⟩
      intro c hc
      rcases List.mem_cons.1 hc with rfl | hc
      · exact hm
      · exact hv c hc
    · exact form_collectEntries idx rest p hp hrest d h
end

/-- A property of the file system that every call of `indexDirectory` in the
loop keeps holds when the loop ends, whether it ends in an error or not. -/
theorem startLoop_invariant (idx : Indexator) (Inv : Node → Prop) (dirs : List String)
    (hstep : ∀ d ∈ dirs, ∀ w : World, Inv w.fs → Inv (indexDirectory idx d w).1.fs) :
    ∀ w : World, Inv w.fs → Inv (startLoop idx dirs w).1.fs := by
  induction dirs with
  | nil => intro w hw; exact hw
  | cons d rest ih =>
    intro w hw
    have h1 := hstep d (List.mem_cons_self _ _) w hw
    unfold startLoop
    rcases hr : indexDirectory idx d w with ⟨w1, e⟩
    rw [hr] at h1
    cases e with
    | some err => exact h1
    | none => exact ih (fun d2 hd2 => hstep d2 (List.mem_cons_of_mem _ hd2)) w1 h1

/-- A call of `indexDirectory` on a directory of a clean vault either leaves the
file system as it is or writes the index file of the directory. -/
theorem indexDirectory_cases (idx : Indexator) (w : World) (vs cs : List String)
    (hi : VaultAt idx vs) (hc : ∀ n ∈ cs, ValidName n) (hwf : w.fs.wf = true) :
    (indexDirectory idx (relPath cs) w).1.fs = w.fs ∨
    (StepWrote idx vs cs w.fs (indexDirectory idx (relPath cs) w).1.fs ∧
      (indexDirectory idx (relPath cs) w).2 = none) := by
  by_cases hdir : ∃ es, w.fs.get (vs ++ cs) = some (.dir es)
  · obtain ⟨es, hg⟩ := hdir
    rw [indexDirectory_dir idx w vs cs es hi hc hwf hg]
    by_cases hl : (dirLinks w.fs vs cs es).length = 0
    · left; rw [if_pos hl]
    · rw [if_neg hl]
      cases hT : w.fs.get (vs ++ cs ++ [indexName cs]) with
      | some n => left; simp
      | none =>
        simp only [Option.isSome_none, Bool.false_eq_true, if_false]
        by_cases hdry : idx.dryRun = true
        · left; exact (createIndexFile_dryRun idx _ _ w hdry).1
        · by_cases htmp : ∃ es2, w.fs.get (vs ++ cs ++ [indexName cs ++ ".tmp"])
              = some (.dir es2)
          · obtain ⟨es2, htmp⟩ := htmp
            left; exact createIndexFile_tmp_dir idx w vs cs _ es2 hi hc hT htmp
          · right
            have htmp2 : ∀ es2, w.fs.get (vs ++ cs ++ [indexName cs ++ ".tmp"])
                ≠ some (.dir es2) := fun es2 h => htmp ⟨es2, h⟩
            have hd : idx.dryRun = false := by simpa using hdry
            obtain ⟨hw1, hw2⟩ := createIndexFile_write idx w vs cs
              (dirLinks w.fs vs cs es) es hi hc hd hg hT htmp2
            exact ⟨⟨es, hg, fun h => hl (by rw [h]; rfl), hT, htmp2, hd, hw1⟩, hw2⟩
  · left
    exact (indexDirectory_readErr idx w vs cs hi hc (fun es h => hdir ⟨es, h⟩)).1

theorem StepWrote.step_wf {idx : Indexator} {vs cs : List String} {fs fs3 : Node}
    (h : StepWrote idx vs cs fs fs3) (hc : ∀ n ∈ cs, ValidName n) (hwf : fs.wf = true) :
    fs3.wf = true := by
  obtain ⟨es, _, _, _, _, _, hw⟩ := h
  exact hw.write_wf (validName_indexName cs hc) hwf

/-- A property of the file system that every writing step on a collected
directory keeps holds after `Start`, together with well-formedness. -/
theorem Start_invariant (sortSlice : (String → String → Bool) → List String → List String)
    (hsort : ∀ less l x, x ∈ sortSlice less l → x ∈ l)
    (idx : Indexator) (w : World) (vs : List String) (hi : VaultAt idx vs)
    (Inv : Node → Prop) (hwf : w.fs.wf = true) (h0 : Inv w.fs)
    (hstep : ∀ cs fs fs3, (∀ c ∈ cs, ValidName c) → (∀ r2, r2 <+: cs → dirOk idx r2) →
      fs.wf = true → Inv fs → StepWrote idx vs cs fs fs3 → Inv fs3) :
    (Start sortSlice idx w).1.fs.wf = true ∧ Inv (Start sortSlice idx w).1.fs := by
  unfold Start
  cases hg : w.fs.get vs with
  | none =>
    obtain ⟨he, hfs⟩ := CollectDirectories_missing idx w vs hi hg
    rcases hr : CollectDirectories idx w with ⟨w1, dirs, e⟩
    rw [hr] at he hfs
    cases e with
    | none => exact absurd rfl he
    | some err =>
      simp only [World.slog_fs]
      have : w1.fs = w.fs := hfs
      rw [this]; exact ⟨hwf, h0⟩
  | some t =>
    have hwalk : CollectDirectories idx w = (w, collectNode idx "." "." t, none) ∨
        ((CollectDirectories idx w).2.2 ≠ none ∧ (CollectDirectories idx w).1.fs = w.fs) := by
      cases t with
      | dir es => exact Or.inl (CollectDirectories_ok idx w vs es hi hg)
      | file c =>
        by_cases hne : vs = []
        · exact Or.inl (CollectDirectories_walk idx w vs _ hi hg (by simp [dirAt, hne]))
        · exact Or.inr (CollectDirectories_notDir idx w vs c hi hne hg)
    rcases hwalk with hwalk | ⟨he, hfs⟩
    swap
    · rcases hr : CollectDirectories idx w with ⟨w1, dirs, e⟩
      rw [hr] at he hfs
      cases e with
      | none => exact absurd rfl he
      | some err =>
        simp only [World.slog_fs]
        have : w1.fs = w.fs := hfs
        rw [this]; exact ⟨hwf, h0⟩
    rw [hwalk]
    simp only
    refine startLoop_invariant idx (fun fs => fs.wf = true ∧ Inv fs) _ ?_ w ⟨hwf, h0⟩
    intro d hd w2 ⟨hw2, hi2⟩
    have hd2 := hsort _ _ _ hd
    have ht : t.wf = true := Node.wf_get hwf hg
    obtain ⟨r, hdr, hv, hall⟩ := form_collectNode idx t [] "." (by simp) (Or.inl ⟨rfl, rfl⟩)
      ht d hd2
    simp only [List.nil_append] at hdr hall
    subst hdr
    rcases indexDirectory_cases idx w2 vs r hi hv hw2 with h | ⟨h, _⟩
    · rw [h]; exact ⟨hw2, hi2⟩
    · exact ⟨h.step_wf hv hw2, hstep r _ _ hv hall hw2 hi2 h⟩

/-! ## The claims -/

/-- C1, evaluated where it fails. The claim: in the order in which `Start`
processes the directories, every directory comes before its parent, the
top-level directories before the root `.`. On the vault `/v` that holds the
directory `a` with the note `a/f.md`, `CollectDirectories` returns `.` and `a`,
both without a separator, so the comparison of the sort orders neither before
the other; the sort of two elements leaves them in place, and `Start` processes the root `.` before its child `a`: when the root is indexed
`a/a.md` does not exist yet, so after the run `a/a.md` exists and the root has
no index file. -/
theorem C1_root_processed_before_its_child :
    (CollectDirectories (NewIndexator "/v") worldA).2 = ([".", "a"], none) ∧
    depthLess "a" "." = false ∧ depthLess "." "a" = false ∧
    processingOrder insertionSortLessFunc (NewIndexator "/v") worldA = [".", "a"] ∧
    (Start insertionSortLessFunc (NewIndexator "/v") worldA).2 = none ∧
    osReadFile (Start insertionSortLessFunc (NewIndexator "/v") worldA).1.fs "/v/a/a.md"
      = some "[[a/f.md]]\n" ∧
    osExists (Start insertionSortLessFunc (NewIndexator "/v") worldA).1.fs "/v/index.md"
      = false := by
  decide

/-- C2, evaluated where it fails. The claim: a second run of `Start` creates no
file. On the vault `/v` with the note `a/f.md` the first run creates `a/a.md`
only, because the root is processed before `a` (the defect of C1); the second
run finds `a/a.md` and creates `/v/index.md`. -/
theorem C2_second_run_creates_root_index :
    (Start insertionSortLessFunc (NewIndexator "/v") worldA).2 = none ∧
    osExists (Start insertionSortLessFunc (NewIndexator "/v") worldA).1.fs "/v/index.md"
      = false ∧
    (Start insertionSortLessFunc (NewIndexator "/v")
      (Start insertionSortLessFunc (NewIndexator "/v") worldA).1).2 = none ∧
    osReadFile (Start insertionSortLessFunc (NewIndexator "/v")
      (Start insertionSortLessFunc (NewIndexator "/v") worldA).1).1.fs "/v/index.md"
      = some "[[a/a.md]]\n" := by
  decide

theorem mem_sinkLeft {less : String → String → Bool} {x y : String} {l : List String}
    (h : y ∈ sinkLeft less x l) : y = x ∨ y ∈ l := by
  induction l with
  | nil => simpa [sinkLeft] using h
  | cons a as ih =>
    unfold sinkLeft at h
    by_cases hl : less x a = true
    · rw [if_pos hl] at h
      rcases List.mem_cons.1 h with h1 | h1
      · exact Or.inr (List.mem_cons.2 (Or.inl h1))
      · rcases ih h1 with h2 | h2
        · exact Or.inl h2
        · exact Or.inr (List.mem_cons_of_mem _ h2)
    · rw [if_neg hl] at h
      rcases List.mem_cons.1 h with h1 | h1
      · exact Or.inl h1
      · exact Or.inr h1

/-- The insertion sort of Go returns elements of the slice it was given. -/
theorem mem_insertionSortLessFunc (less : String → String → Bool) (l : List String)
    (x : String) (h : x ∈ insertionSortLessFunc less l) : x ∈ l := by
  unfold insertionSortLessFunc at h
  rw [List.mem_reverse] at h
  have key : ∀ (l acc : List String),
      x ∈ l.foldl (fun sorted y => sinkLeft less y sorted) acc → x ∈ acc ∨ x ∈ l := by
    intro l
    induction l with
    | nil => intro acc h; exact Or.inl h
    | cons a as ih =>
      intro acc h
      rw [List.foldl_cons] at h
      rcases ih _ h with h1 | h1
      · rcases mem_sinkLeft h1 with h2 | h2
        · exact Or.inr (List.mem_cons.2 (Or.inl h2))
        · exact Or.inl h2
      · exact Or.inr (List.mem_cons_of_mem _ h1)
  rcases key l [] h with h1 | h1
  · simp at h1
  · exact h1

theorem CollectDirectories_fs (idx : Indexator) (w : World) :
    (CollectDirectories idx w).1.fs = w.fs := by
  unfold CollectDirectories fsWalkDir
  by_cases hd : idx.vaultPath = ""
  · simp only [hd, if_true, collectFn, osIsPermission]
    rfl
  · simp only [hd, if_false]
    cases hs : osStat w.fs (dirFSJoin idx.vaultPath ".") with
    | error e =>
      simp only [collectFn]
      by_cases hp : osIsPermission e = true
      · simp only [hp, if_true]; rfl
      · simp only [hp, if_false]; rfl
    | ok info =>
      simp only [walkDir_collect]

theorem indexDirectory_dryRun (idx : Indexator) (d : String) (w : World)
    (h : idx.dryRun = true) : (indexDirectory idx d w).1.fs = w.fs := by
  unfold indexDirectory
  simp only
  cases osReadDir w.fs (Join idx.vaultPath d) with
  | error e => rfl
  | ok entries =>
    simp only
    by_cases hl : (List.filterMap (linkOfEntry idx w.fs (Join idx.vaultPath d))
        entries).length = 0
    · rw [if_pos hl]
    · rw [if_neg hl]
      cases osStat w.fs (indexFilePathOf idx (Join idx.vaultPath d)) with
      | ok n => rfl
      | error e => exact (createIndexFile_dryRun idx _ _ w h).1

/-- A dry run leaves the file system as it is, for every input. -/
theorem Start_dryRun_fs (sortSlice : (String → String → Bool) → List String → List String)
    (idx : Indexator) (w : World) (h : idx.dryRun = true) :
    (Start sortSlice idx w).1.fs = w.fs := by
  unfold Start
  have hc := CollectDirectories_fs idx w
  rcases hr : CollectDirectories idx w with ⟨w1, dirs, e⟩
  rw [hr] at hc
  have hc1 : w1.fs = w.fs := hc
  cases e with
  | some err => simp only [World.slog_fs]; exact hc1
  | none =>
    simp only
    rw [← hc1]
    exact startLoop_invariant idx (fun fs => fs = w1.fs) _
      (fun d _ w2 hw2 => by rw [indexDirectory_dryRun idx d w2 h]; exact hw2) w1 rfl

theorem uniqueEntries_lookup {es : List (String × Node)} {c : String} {ch : Node}
    (hu : uniqueEntries es = true) (h : lookupEntry c es = some ch) :
    ch.uniqueNames = true := by
  induction es with
  | nil => simp [lookupEntry] at h
  | cons e rest ih =>
    obtain ⟨m, c0⟩ := e
    simp only [uniqueEntries, Bool.and_eq_true, Option.isNone_iff_eq_none] at hu
    unfold lookupEntry at h
    by_cases hm : m = c
    · rw [if_pos hm] at h; cases h; exact hu.1.2
    · rw [if_neg hm] at h; exact ih hu.2 h

theorem Node.uniqueNames_get {t n : Node} {p : List String} (ht : t.uniqueNames = true)
    (h : t.get p = some n) : n.uniqueNames = true := by
  induction p generalizing t with
  | nil => rw [Node.get_nil] at h; cases h; exact ht
  | cons k ks ih =>
    cases t with
    | file x => simp [Node.get_file_cons] at h
    | dir es =>
      rw [Node.get_dir_cons] at h
      cases hl : lookupEntry k es with
      | none => simp [hl] at h
      | some ch =>
        simp only [hl, Option.some_bind] at h
        rw [Node.uniqueNames_dir] at ht
        exact ih (uniqueEntries_lookup ht hl) h

theorem startLoop_ok (idx : Indexator) (fs : Node) (dirs : List String)
    (hstep : ∀ d ∈ dirs, ∀ w : World, w.fs = fs →
      (indexDirectory idx d w).2 = none ∧ (indexDirectory idx d w).1.fs = fs) :
    ∀ w : World, w.fs = fs → (startLoop idx dirs w).2 = none := by
  induction dirs with
  | nil => intro w _; rfl
  | cons d rest ih =>
    intro w hw
    obtain ⟨h1, h2⟩ := hstep d (List.mem_cons_self _ _) w hw
    unfold startLoop
    rcases hr : indexDirectory idx d w with ⟨w1, e⟩
    rw [hr] at h1 h2
    cases e with
    | some err => cases h1
    | none => exact ih (fun d2 hd2 => hstep d2 (List.mem_cons_of_mem _ hd2)) w1 h2

theorem indexDirectory_dryRun_ok (idx : Indexator) (w : World) (vs cs : List String)
    (es : List (String × Node)) (hi : VaultAt idx vs) (hc : ∀ n ∈ cs, ValidName n)
    (hwf : w.fs.wf = true) (hg : w.fs.get (vs ++ cs) = some (.dir es))
    (hdry : idx.dryRun = true) : (indexDirectory idx (relPath cs) w).2 = none := by
  rw [indexDirectory_dir idx w vs cs es hi hc hwf hg]
  by_cases hl : (dirLinks w.fs vs cs es).length = 0
  · rw [if_pos hl]
  · rw [if_neg hl]
    by_cases hT : (w.fs.get (vs ++ cs ++ [indexName cs])).isSome = true
    · rw [if_pos hT]
    · rw [if_neg hT]
      exact (createIndexFile_dryRun idx _ _ w hdry).2

/-- C4: `Start` with `dryRun = true` leaves the file system as it is (the tree
after the call is the tree before it: no file is created, written, renamed or
removed), for every vault path, exclusion set and backup flag; and a dry run in
which no system call fails (the vault path is clean and names a directory, with
the listing `es`, in a well-formed tree) returns no error. -/
theorem C4_dry_run_changes_nothing
    (sortSlice : (String → String → Bool) → List String → List String)
    (idx : Indexator) (w : World) (hdry : idx.dryRun = true) :
    (Start sortSlice idx w).1.fs = w.fs ∧
    ∀ vs es, VaultAt idx vs → (∀ less l x, x ∈ sortSlice less l → x ∈ l) →
      w.fs.wf = true → w.fs.uniqueNames = true → w.fs.get vs = some (.dir es) →
      (Start sortSlice idx w).2 = none := by
  refine ⟨Start_dryRun_fs sortSlice idx w hdry, ?_⟩
  intro vs es0 hi hsort hwf hu hg
  unfold Start
  rw [CollectDirectories_ok idx w vs es0 hi hg]
  simp only
  refine startLoop_ok idx w.fs _ ?_ w rfl
  intro d hd w2 hw2
  have hd2 := hsort _ _ _ hd
  have ht : (Node.dir es0).wf = true := Node.wf_get hwf hg
  have htu : (Node.dir es0).uniqueNames = true := Node.uniqueNames_get hu hg
  obtain ⟨r, hdr, ⟨es, hgr⟩, _⟩ :=
    (mem_collectNode idx (.dir es0) [] "." (by simp) (Or.inl ⟨rfl, rfl⟩) ht htu d).1 hd2
  simp only [List.nil_append] at hdr
  subst hdr
  have hv : ∀ c ∈ r, ValidName c := Node.valid_of_get ht hgr
  have hg2 : w2.fs.get (vs ++ r) = some (.dir es) := by
    rw [hw2, Node.get_append, hg]; exact hgr
  exact ⟨indexDirectory_dryRun_ok idx w2 vs r es hi hv (by rw [hw2]; exact hwf) hg2 hdry,
    by rw [indexDirectory_dryRun idx _ w2 hdry]; exact hw2⟩

/-- C4 at the vault `/v` with the note `a/f.md`, dry run and backup on, the
exclusion set `x`: the tree is unchanged and `Start` returns no error. -/
theorem C4_dry_run_changes_nothing_witness :
    (Start insertionSortLessFunc (NewIndexatorWithOptions "/v" true true ["x"]) worldA).1.fs
      = worldA.fs ∧
    (Start insertionSortLessFunc (NewIndexatorWithOptions "/v" true true ["x"]) worldA).2
      = none :=
  ⟨(C4_dry_run_changes_nothing insertionSortLessFunc
      (NewIndexatorWithOptions "/v" true true ["x"]) worldA rfl).1,
   (C4_dry_run_changes_nothing insertionSortLessFunc
      (NewIndexatorWithOptions "/v" true true ["x"]) worldA rfl).2 ["v"]
      [("a", .dir [("f.md", .file "# Test content")])]
      ⟨by decide, by decide⟩ mem_insertionSortLessFunc (by decide) (by decide) rfl⟩

/-- Where the vault path must be clean: the path `/test/vault/`, handed to the
indexator as it is written, passes `Validate`, but the root directory is
processed as `/test/vault`, which is not the string the indexator holds, and
the index of the root is looked for and written as `vault.md`. The `init`
command never hands over such a path: it passes the result of `filepath.Abs`. -/
theorem unclean_vault_path_root_index :
    configT.Validate worldT.fs = none ∧
    IsAbs (initIndexator configT).vaultPath = true ∧
    Join (initIndexator configT).vaultPath "." = "/test/vault" ∧
    isIndexFile (initIndexator configT) "/test/vault/index.md" "/test/vault" = false ∧
    isIndexFile (initIndexator configT) "/test/vault/vault.md" "/test/vault" = true ∧
    indexFilePathOf (initIndexator configT) "/test/vault" = "/test/vault/vault.md" ∧
    (Start insertionSortLessFunc (initIndexator configT) worldT).2 = none ∧
    osExists (Start insertionSortLessFunc (initIndexator configT) worldT).1.fs
      "/test/vault/index.md" = false ∧
    osReadFile (Start insertionSortLessFunc (initIndexator configT) worldT).1.fs
      "/test/vault/vault.md" = some "[[readme.md]]\n" := by
  decide

/-- C7: on a vault that is a directory at a clean path, with the listing `es`,
in a tree with valid and unique entry names (so the walk meets no error),
`CollectDirectories` returns no error and a list without duplicates that holds
exactly the relative paths `relPath r` of the directories of the vault (the
path `r` below the vault root leads to a directory) such that every directory
on the way from the root to it, itself and the root included, is accepted by
`dirOk`: its name does not start with `.` (the root is exempt) and no
exclusion pattern is a substring of its relative path or equals its base name.
A hidden or excluded directory and everything beneath it is not in the list. -/
theorem C7_collectDirectories_exact (idx : Indexator) (w : World) (vs : List String)
    (es : List (String × Node)) (hi : VaultAt idx vs) (hg : w.fs.get vs = some (.dir es))
    (hwf : (Node.dir es).wf = true) (hu : (Node.dir es).uniqueNames = true) :
    (CollectDirectories idx w).2.2 = none ∧
    (CollectDirectories idx w).2.1.Nodup ∧
    ∀ d, d ∈ (CollectDirectories idx w).2.1 ↔
      ∃ r, d = relPath r ∧ (∃ es2, (Node.dir es).get r = some (.dir es2)) ∧
        ∀ r2, r2 <+: r → dirOk idx r2 := by
  rw [CollectDirectories_ok idx w vs es hi hg]
  refine ⟨rfl, ?_, ?_⟩
  · exact nodup_collectNode idx (.dir es) [] "." (by simp) (Or.inl ⟨rfl, rfl⟩) hwf hu
  · intro d
    have h := mem_collectNode idx (.dir es) [] "." (by simp) (Or.inl ⟨rfl, rfl⟩) hwf hu d
    simpa using h

/-- C7 at the vault `/v` with a visible, a hidden and an excluded directory
(`archive`, by the pattern `arch`). -/
theorem C7_collectDirectories_exact_witness :
    (CollectDirectories (NewIndexatorWithOptions "/v" false false ["arch"]) worldH).2.2 = none ∧
    (CollectDirectories (NewIndexatorWithOptions "/v" false false ["arch"]) worldH).2.1.Nodup ∧
    ∀ d, d ∈ (CollectDirectories (NewIndexatorWithOptions "/v" false false ["arch"])
        worldH).2.1 ↔
      ∃ r, d = relPath r ∧
        (∃ es2, (Node.dir vaultHEntries).get r = some (.dir es2)) ∧
        ∀ r2, r2 <+: r → dirOk (NewIndexatorWithOptions "/v" false false ["arch"]) r2 :=
  C7_collectDirectories_exact (NewIndexatorWithOptions "/v" false false ["arch"]) worldH ["v"]
    vaultHEntries ⟨by decide, by decide⟩ rfl (by decide) (by decide)

theorem infix_singleton {l : List Char} {a : Char} (h : l <:+: [a]) : l = [] ∨ l = [a] := by
  obtain ⟨s, t, hst⟩ := h
  cases l with
  | nil => exact Or.inl rfl
  | cons b bs =>
    right
    cases s with
    | nil =>
      simp only [List.nil_append, List.cons_append, List.cons.injEq] at hst
      obtain ⟨rfl, h2⟩ := hst
      have := List.append_eq_nil.1 h2
      rw [this.1]
    | cons c cs =>
      simp only [List.cons_append, List.cons.injEq] at hst
      have := hst.2
      simp at this

theorem dirOk_root (idx : Indexator)
    (htrim : ∀ pat ∈ idx.excludeDirs, strTrimSpace pat ≠ "")
    (hdot : ∀ pat ∈ idx.excludeDirs, pat ≠ ".") : dirOk idx [] := by
  refine ⟨by simp, ?_⟩
  rintro ⟨pat, hpat, h | h⟩
  · have hd : (relPath []).data = ['.'] := rfl
    rw [hd] at h
    rcases infix_singleton h with h1 | h1
    · have : pat = "" := String.ext h1
      exact htrim pat hpat (by rw [this]; decide)
    · exact hdot pat hpat (String.ext h1)
  · exact hdot pat hpat (by rw [← h]; rfl)

/-- C8 as stated fails: the exclusion set with the one pattern `.` is not empty
after trimming and passes `Validate`, yet `CollectDirectories` succeeds with the
empty list: the pattern is a substring of the root's path `.`, so the root is
excluded and the walk ends there. -/
theorem C8_pattern_dot_excludes_the_root :
    (NewWithAllOptions "/v" false false false ["."]).Validate worldA.fs = none ∧
    (∀ pat ∈ (NewWithAllOptions "/v" false false false ["."]).excludeDirs,
      strTrimSpace pat ≠ "") ∧
    (CollectDirectories (initIndexator (NewWithAllOptions "/v" false false false ["."]))
      worldA).2 = ([], none) := by
  decide

/-- C8, amended: for every vault directory at a clean path and every exclusion
set whose patterns are non-empty after trimming and none of which is `.`,
`CollectDirectories` returns no error and its list contains the root directory
as the path `.`. -/
theorem C8_root_is_collected (idx : Indexator) (w : World) (vs : List String)
    (es : List (String × Node)) (hi : VaultAt idx vs)
    (hg : w.fs.get vs = some (.dir es))
    (htrim : ∀ pat ∈ idx.excludeDirs, strTrimSpace pat ≠ "")
    (hdot : ∀ pat ∈ idx.excludeDirs, pat ≠ ".") :
    (CollectDirectories idx w).2.2 = none ∧ "." ∈ (CollectDirectories idx w).2.1 := by
  rw [CollectDirectories_ok idx w vs _ hi hg]
  refine ⟨rfl, ?_⟩
  have h := collectNode_dir idx [] "." es (by simp) (Or.inl ⟨rfl, rfl⟩)
  rw [if_pos (dirOk_root idx htrim hdot)] at h
  have hr : relPath [] = "." := rfl
  rw [hr] at h
  simp only
  rw [h]
  exact List.mem_cons_self _ _

/-- C8, amended, at the vault `/v` with the exclusion pattern `arch`. -/
theorem C8_root_is_collected_witness :
    (CollectDirectories (NewIndexatorWithOptions "/v" false false ["arch"]) worldH).2.2 = none ∧
    "." ∈ (CollectDirectories (NewIndexatorWithOptions "/v" false false ["arch"]) worldH).2.1 :=
  C8_root_is_collected (NewIndexatorWithOptions "/v" false false ["arch"]) worldH ["v"]
    vaultHEntries ⟨by decide, by decide⟩ rfl (by decide) (by decide)

theorem osReadFile_absPath (fs : Node) (P : List String) (c : String)
    (hP : ∀ n ∈ P, ValidName n) :
    osReadFile fs (absPath P) = some c ↔ fs.get P = some (.file c) := by
  unfold osReadFile
  rw [pathElems_absPath P hP]
  cases h : fs.get P with
  | none => simp
  | some n =>
    cases n with
    | file x => simp
    | dir es => simp

theorem osExists_absPath (fs : Node) (P : List String) (hP : ∀ n ∈ P, ValidName n) :
    osExists fs (absPath P) = (fs.get P).isSome := by
  unfold osExists
  rw [pathElems_absPath P hP]

/-- Nothing lies below a regular file, and a regular file is no directory. -/
theorem file_not_prefix_of_dir {fs : Node} {P D : List String} {c : String}
    {es : List (String × Node)} (hP : fs.get P = some (.file c))
    (hD : fs.get D = some (.dir es)) : ¬ P <+: D := by
  rintro ⟨r, rfl⟩
  rw [Node.get_append, hP] at hD
  cases r with
  | nil => simp [Node.get_nil] at hD
  | cons a as => simp [Node.get_file_cons] at hD

/-- What does not exist is no ancestor of a directory. -/
theorem none_not_prefix_of_dir {fs : Node} {Q D : List String}
    {es : List (String × Node)} (hQ : fs.get Q = none)
    (hD : fs.get D = some (.dir es)) : ¬ Q <+: D := by
  rintro ⟨r, rfl⟩
  rw [Node.get_append, hQ] at hD
  simp at hD

theorem snoc_inj {a b : List String} {x y : String} (vs : List String)
    (h : vs ++ a ++ [x] = vs ++ b ++ [y]) : a = b ∧ x = y := by
  rw [List.append_assoc, List.append_assoc] at h
  have h2 := List.append_cancel_left h
  have h3 := List.append_inj' h2 rfl
  exact ⟨h3.1, by simpa using h3.2⟩

theorem StepWrote.keeps_file {idx : Indexator} {vs cs : List String} {fs fs3 : Node}
    (h : StepWrote idx vs cs fs fs3) {P : List String} {c : String}
    (hP : fs.get P = some (.file c))
    (hne : P ≠ vs ++ cs ++ [indexName cs ++ ".tmp"]) : fs3.get P = some (.file c) := by
  obtain ⟨es, hg, _, hT, htmp, _, hw⟩ := h
  rw [hw.frame hT htmp P ?_ ?_]
  · exact hP
  · intro hp
    rcases List.prefix_concat_iff.1 hp with h1 | h1
    · rw [h1, hT] at hP; cases hP
    · exact file_not_prefix_of_dir hP hg h1
  · intro hp
    rcases List.prefix_concat_iff.1 hp with h1 | h1
    · exact hne h1
    · exact file_not_prefix_of_dir hP hg h1

theorem StepWrote.keeps_none {idx : Indexator} {vs cs : List String} {fs fs3 : Node}
    (h : StepWrote idx vs cs fs fs3) {Q : List String}
    (hQ : fs.get Q = none) (hne : Q ≠ vs ++ cs ++ [indexName cs]) : fs3.get Q = none := by
  obtain ⟨es, hg, _, hT, htmp, _, hw⟩ := h
  by_cases htq : Q = vs ++ cs ++ [indexName cs ++ ".tmp"]
  · rw [htq]; exact hw.get_tmp hT htmp
  · rw [hw.frame hT htmp Q ?_ ?_]
    · exact hQ
    · intro hp
      rcases List.prefix_concat_iff.1 hp with h1 | h1
      · exact hne h1
      · exact none_not_prefix_of_dir hQ hg h1
    · intro hp
      rcases List.prefix_concat_iff.1 hp with h1 | h1
      · exact htq h1
      · exact none_not_prefix_of_dir hQ hg h1

theorem StepWrote.keeps_listing {idx : Indexator} {vs cs : List String} {fs fs3 : Node}
    (h : StepWrote idx vs cs fs fs3) {Q : List String} {es0 : List (String × Node)}
    (hQ : fs.get Q = some (.dir es0)) (hne : ¬ Q <+: vs ++ cs) :
    fs3.get Q = some (.dir es0) := by
  obtain ⟨es, hg, _, hT, htmp, _, hw⟩ := h
  rw [hw.frame hT htmp Q ?_ ?_]
  · exact hQ
  · intro hp
    rcases List.prefix_concat_iff.1 hp with h1 | h1
    · rw [h1, hT] at hQ; cases hQ
    · exact hne h1
  · intro hp
    rcases List.prefix_concat_iff.1 hp with h1 | h1
    · exact htmp es0 (h1 ▸ hQ)
    · exact hne h1

theorem indexName_tmp_ne (cs : List String) : indexName cs ≠ indexName cs ++ ".tmp" :=
  fun h => append_tmp_ne (indexName cs) h.symm

/-- C3: in a well-formed tree with the vault at a clean path, the index file of
a directory (`index.md` for the root, else the base name with `.md`, inside the
directory) that exists before the run as a regular file holds byte for byte the
same content when `Start` returns, with or without an error, whatever else the
directory holds, for every backup and dry-run flag and every exclusion set: it
is neither rewritten nor renamed away. This holds for every directory of the
vault, the collected ones among them. -/
theorem C3_existing_index_untouched
    (sortSlice : (String → String → Bool) → List String → List String)
    (hsort : ∀ less l x, x ∈ sortSlice less l → x ∈ l)
    (idx : Indexator) (w : World) (vs cs : List String) (content : String)
    (hi : VaultAt idx vs) (hwf : w.fs.wf = true) (hc : ∀ c ∈ cs, ValidName c)
    (hex : osReadFile w.fs (absPath (vs ++ cs ++ [indexName cs])) = some content) :
    osReadFile (Start sortSlice idx w).1.fs (absPath (vs ++ cs ++ [indexName cs]))
      = some content := by
  have hP : ∀ n ∈ vs ++ cs ++ [indexName cs], ValidName n :=
    valid_snoc (valid_append hi.2 hc) (validName_indexName cs hc)
  rw [osReadFile_absPath _ _ _ hP] at hex ⊢
  refine (Start_invariant sortSlice hsort idx w vs hi
    (fun fs => fs.get (vs ++ cs ++ [indexName cs]) = some (.file content)) hwf hex ?_).2
  intro cs2 fs fs3 _ _ _ hinv hstep
  refine hstep.keeps_file hinv ?_
  intro heq
  obtain ⟨h1, h2⟩ := snoc_inj vs heq
  subst h1
  exact indexName_tmp_ne cs h2

/-- C3 at the vault `/v` whose directory `testdir` holds `newfile.md` and the
index `testdir.md`, with backup mode on: the index keeps its content. -/
theorem C3_existing_index_untouched_witness :
    osReadFile worldE.fs "/v/testdir/testdir.md" = some "# Existing index\n[[old.md]]" ∧
    osReadFile (Start insertionSortLessFunc
      (NewIndexatorWithOptions "/v" false true []) worldE).1.fs "/v/testdir/testdir.md"
      = some "# Existing index\n[[old.md]]" :=
  ⟨by decide,
   C3_existing_index_untouched insertionSortLessFunc mem_insertionSortLessFunc
    (NewIndexatorWithOptions "/v" false true []) worldE ["v"] ["testdir"]
    "# Existing index\n[[old.md]]" ⟨by decide, by decide⟩ (by decide) (by decide)
    (by decide)⟩

theorem concatLines_data (l : String) (ls : List String) :
    (concatLines (l :: ls)).data = l.data ++ '\n' :: (concatLines ls).data := by
  simp [concatLines]

theorem indexContent_eq_concatLines (links : List String) (h : links ≠ []) :
    indexContent links = concatLines links := by
  apply String.ext
  induction links with
  | nil => exact absurd rfl h
  | cons l ls ih =>
    cases ls with
    | nil => simp [indexContent, strJoin, concatLines, List.intercalate]
    | cons m ms =>
      have ih2 := ih (by simp)
      rw [concatLines_data, ← ih2]
      simp [indexContent, strJoin, List.intercalate]

/-- C6: `indexDirectory` in normal mode on a directory `cs` of a clean vault
that can be read, has no index file yet and assembles at least one link. The
links are `dirLinks`: in the order of the listing, for a file entry the link to
its path relative to the vault root, for a subdirectory entry `n` the link to
`n/n.md` exactly when that path exists at this moment. If the temporary path is
free for a file, the call returns no error, the index file holds exactly one
line `[[path]]` with a newline per link and nothing else, the temporary file is
gone, and every path other than the index file, the temporary file and the
directories above them holds what it held. If the temporary path is a
directory, the call fails and writes nothing. -/
theorem C6_index_content (idx : Indexator) (w : World) (vs cs : List String)
    (es : List (String × Node)) (hi : VaultAt idx vs) (hwf : w.fs.wf = true)
    (hc : ∀ c ∈ cs, ValidName c) (hdry : idx.dryRun = false)
    (hg : w.fs.get (vs ++ cs) = some (.dir es))
    (hT : osExists w.fs (absPath (vs ++ cs ++ [indexName cs])) = false)
    (hlinks : dirLinks w.fs vs cs es ≠ []) :
    ((∀ es2, w.fs.get (vs ++ cs ++ [indexName cs ++ ".tmp"]) ≠ some (.dir es2)) →
      (indexDirectory idx (relPath cs) w).2 = none ∧
      osReadFile (indexDirectory idx (relPath cs) w).1.fs (absPath (vs ++ cs ++ [indexName cs]))
        = some (concatLines (dirLinks w.fs vs cs es)) ∧
      osExists (indexDirectory idx (relPath cs) w).1.fs
        (absPath (vs ++ cs ++ [indexName cs]) ++ ".tmp") = false ∧
      ∀ q, ¬ q <+: vs ++ cs ++ [indexName cs] → ¬ q <+: vs ++ cs ++ [indexName cs ++ ".tmp"] →
        (indexDirectory idx (relPath cs) w).1.fs.get q = w.fs.get q) ∧
    ((∃ es2, w.fs.get (vs ++ cs ++ [indexName cs ++ ".tmp"]) = some (.dir es2)) →
      (indexDirectory idx (relPath cs) w).2 ≠ none ∧
      (indexDirectory idx (relPath cs) w).1.fs = w.fs) := by
  have hD := valid_append hi.2 hc
  have hx := validName_indexName cs hc
  have hP := valid_snoc hD hx
  have hPtmp := valid_snoc hD (validName_tmp _ hx)
  rw [osExists_absPath _ _ hP] at hT
  have hT2 : w.fs.get (vs ++ cs ++ [indexName cs]) = none := by
    cases h : w.fs.get (vs ++ cs ++ [indexName cs]) with
    | none => rfl
    | some n => rw [h] at hT; simp at hT
  have hlen : ¬ (dirLinks w.fs vs cs es).length = 0 := by
    intro h; exact hlinks (List.length_eq_zero.1 h)
  have hstep : indexDirectory idx (relPath cs) w
      = createIndexFile idx (absPath (vs ++ cs)) (dirLinks w.fs vs cs es) w := by
    rw [indexDirectory_dir idx w vs cs es hi hc hwf hg, if_neg hlen, hT2]
    simp
  rw [hstep]
  constructor
  · intro htmp
    obtain ⟨hw, herr⟩ := createIndexFile_write idx w vs cs (dirLinks w.fs vs cs es) es hi hc
      hdry hg hT2 htmp
    refine ⟨herr, ?_, ?_, ?_⟩
    · rw [osReadFile_absPath _ _ _ hP, hw.get_target, indexContent_eq_concatLines _ hlinks]
    · rw [absPath_snoc_append, osExists_absPath _ _ hPtmp, hw.get_tmp hT2 htmp]
      rfl
    · intro q h1 h2
      exact hw.frame hT2 htmp q h1 h2
  · rintro ⟨es2, htmp⟩
    have hfs := createIndexFile_tmp_dir idx w vs cs (dirLinks w.fs vs cs es) es2 hi hc hT2 htmp
    refine ⟨?_, hfs⟩
    rw [createIndexFile_eq, indexFilePathOf_abs idx vs cs hi hc, hdry]
    simp only [Bool.false_eq_true, if_false]
    have hpe : w.fs.get (pathElems (absPath (vs ++ cs ++ [indexName cs]))) = none := by
      rw [pathElems_absPath _ hP]; exact hT2
    have hbs := backupStage_fs idx (absPath (vs ++ cs ++ [indexName cs])) w hpe
    exact (writeFileAtomic_tmp_dir idx _ (vs ++ cs) (indexName cs) _ es2 hD hx
      (by rw [hbs]; exact htmp)).2

/-- C6 in the integration scenario: `notes` holds two notes and the directory
`subfolder` with its index; the index written for `notes` is the three lines of
the example. -/
theorem C6_index_content_witness :
    concatLines (dirLinks worldN.fs ["v"] ["notes"]
      [("file1.md", .file "# Test content"), ("file2.md", .file "# Test content"),
       ("subfolder", .dir [("file3.md", .file "# Test content"),
          ("subfolder.md", .file "[[notes/subfolder/file3.md]]\n")])])
      = "[[notes/file1.md]]\n[[notes/file2.md]]\n[[notes/subfolder/subfolder.md]]\n" ∧
    (indexDirectory (NewIndexator "/v") (relPath ["notes"]) worldN).2 = none ∧
    osReadFile (indexDirectory (NewIndexator "/v") (relPath ["notes"]) worldN).1.fs
      (absPath (["v"] ++ ["notes"] ++ [indexName ["notes"]]))
      = some (concatLines (dirLinks worldN.fs ["v"] ["notes"]
      [("file1.md", .file "# Test content"), ("file2.md", .file "# Test content"),
       ("subfolder", .dir [("file3.md", .file "# Test content"),
          ("subfolder.md", .file "[[notes/subfolder/file3.md]]\n")])])) :=
  ⟨by decide,
   ((C6_index_content (NewIndexator "/v") worldN ["v"] ["notes"] _ ⟨by decide, by decide⟩
      (by decide) (by decide) rfl rfl (by decide) (by decide)).1 (by
        intro es2 h
        have hn : worldN.fs.get (["v"] ++ ["notes"] ++ [indexName ["notes"] ++ ".tmp"])
            = none := rfl
        rw [hn] at h; cases h)).1,
   ((C6_index_content (NewIndexator "/v") worldN ["v"] ["notes"] _ ⟨by decide, by decide⟩
      (by decide) (by decide) rfl rfl (by decide) (by decide)).1 (by
        intro es2 h
        have hn : worldN.fs.get (["v"] ++ ["notes"] ++ [indexName ["notes"] ++ ".tmp"])
            = none := rfl
        rw [hn] at h; cases h)).2.1⟩

/-- The index files a run writes. `Side` is a property of the file system that
every writing step on a collected directory keeps. Then the index file of `q`,
if it does not exist before the run and is a regular file after it, was written
in a state `fs` of the run with `Side fs`, in which `q` is a directory with a
listing `es`; its content is the content for the links of that listing, and `q`
was accepted by the walk. -/
theorem written_index_links
    (sortSlice : (String → String → Bool) → List String → List String)
    (hsort : ∀ less l x, x ∈ sortSlice less l → x ∈ l)
    (idx : Indexator) (w : World) (vs : List String) (hi : VaultAt idx vs)
    (hwf : w.fs.wf = true)
    (Side : Node → Prop) (hside0 : Side w.fs)
    (hside : ∀ cs fs fs3, (∀ c ∈ cs, ValidName c) → (∀ r2, r2 <+: cs → dirOk idx r2) →
      fs.wf = true → Side fs → StepWrote idx vs cs fs fs3 → Side fs3)
    (q : List String) (c : String)
    (hT0 : w.fs.get (vs ++ q ++ [indexName q]) = none)
    (hfin : (Start sortSlice idx w).1.fs.get (vs ++ q ++ [indexName q]) = some (.file c)) :
    ∃ fs es, fs.wf = true ∧ Side fs ∧ fs.get (vs ++ q) = some (.dir es) ∧
      dirLinks fs vs q es ≠ [] ∧ c = indexContent (dirLinks fs vs q es) ∧
      (∀ n ∈ q, ValidName n) ∧ ∀ r2, r2 <+: q → dirOk idx r2 := by
  have hinv := (Start_invariant sortSlice hsort idx w vs hi
    (fun cur => Side cur ∧ (cur.get (vs ++ q ++ [indexName q]) = none ∨
      ∃ fs es, fs.wf = true ∧ Side fs ∧ fs.get (vs ++ q) = some (.dir es) ∧
        dirLinks fs vs q es ≠ [] ∧
        cur.get (vs ++ q ++ [indexName q])
          = some (.file (indexContent (dirLinks fs vs q es))) ∧
        (∀ n ∈ q, ValidName n) ∧ ∀ r2, r2 <+: q → dirOk idx r2))
    hwf ⟨hside0, Or.inl hT0⟩ ?_).2.2
  · rcases hinv with h | ⟨fs, es, h1, h2, h3, h4, h, hv, hok⟩
    · rw [h] at hfin; cases hfin
    · rw [h] at hfin
      simp only [Option.some.injEq, Node.file.injEq] at hfin
      exact ⟨fs, es, h1, h2, h3, h4, hfin.symm, hv, hok⟩
  · intro cs fs fs3 hv hok hfswf ⟨hs, hq⟩ hstep
    refine ⟨hside cs fs fs3 hv hok hfswf hs hstep, ?_⟩
    by_cases hcq : cs = q
    · subst hcq
      obtain ⟨es, hg, hl, _, _, _, hw⟩ := hstep
      exact Or.inr ⟨fs, es, hfswf, hs, hg, hl, hw.get_target, hv, hok⟩
    · rcases hq with h | ⟨fs0, es0, h1, h2, h3, h4, h, hv2, hok2⟩
      · left
        refine hstep.keeps_none h ?_
        intro heq
        exact hcq (snoc_inj vs heq).1.symm
      · right
        refine ⟨fs0, es0, h1, h2, h3, h4, hstep.keeps_file h ?_, hv2, hok2⟩
        intro heq
        exact hcq (snoc_inj vs heq).1.symm

theorem mem_dirLinks {fs : Node} {vs cs : List String} {es : List (String × Node)}
    {l : String} (h : l ∈ dirLinks fs vs cs es) :
    ∃ e ∈ es, entryLink fs vs cs (toDirEntry e) = some l := by
  unfold dirLinks at h
  obtain ⟨d, hd, hl⟩ := List.mem_filterMap.1 h
  obtain ⟨e, he, rfl⟩ := List.mem_map.1 hd
  exact ⟨e, he, hl⟩

/-- The two kinds of link an entry contributes. -/
theorem entryLink_cases {fs : Node} {vs cs : List String} {e : DirEntry} {l : String}
    (h : entryLink fs vs cs e = some l) :
    (e.IsDir = false ∧ l = linkFor (cs ++ [e.Name])) ∨
    (e.IsDir = true ∧ l = linkFor (cs ++ [e.Name, e.Name ++ ".md"]) ∧
      (fs.get (vs ++ cs ++ [e.Name, e.Name ++ ".md"])).isSome = true) := by
  unfold entryLink at h
  by_cases h1 : e.Name = indexName cs
  · rw [if_pos h1] at h; cases h
  · rw [if_neg h1] at h
    by_cases h2 : e.IsDir = true
    · rw [if_pos h2] at h
      by_cases h3 : (fs.get (vs ++ cs ++ [e.Name, e.Name ++ ".md"])).isSome = true
      · rw [if_pos h3] at h
        exact Or.inr ⟨h2, (Option.some.inj h).symm, h3⟩
      · rw [if_neg h3] at h; cases h
    · rw [if_neg h2] at h
      exact Or.inl ⟨by simpa using h2, (Option.some.inj h).symm⟩

theorem two_snoc (vs cs : List String) (n m : String) :
    vs ++ cs ++ [n, m] = vs ++ (cs ++ [n]) ++ [m] := by simp

/-- A step on a directory accepted by the walk changes nothing about the
existence of `n/n.md` in a directory `n` that the walk does not accept. -/
theorem StepWrote.keeps_hidden_index {idx : Indexator} {vs cs2 : List String}
    {fs fs3 : Node} (h : StepWrote idx vs cs2 fs fs3)
    (hok : ∀ r2, r2 <+: cs2 → dirOk idx r2) (cs : List String) (n : String)
    (hbad : ¬ dirOk idx (cs ++ [n])) :
    (fs3.get (vs ++ cs ++ [n, n ++ ".md"])).isSome
      = (fs.get (vs ++ cs ++ [n, n ++ ".md"])).isSome := by
  have hne : cs ++ [n] ≠ cs2 := fun he => hbad (he ▸ hok cs2 List.prefix_rfl)
  cases hq : fs.get (vs ++ cs ++ [n, n ++ ".md"]) with
  | none =>
    rw [h.keeps_none hq (by
      rw [two_snoc]; intro heq; exact hne (snoc_inj vs heq).1)]
  | some nd =>
    cases nd with
    | file x =>
      rw [h.keeps_file hq (by
        rw [two_snoc]; intro heq; exact hne (snoc_inj vs heq).1)]
    | dir es0 =>
      rw [h.keeps_listing hq (by
        intro hp
        rw [List.append_assoc, List.prefix_append_right_inj] at hp
        have h1 : cs ++ [n] <+: cs ++ [n, n ++ ".md"] := ⟨[n ++ ".md"], by simp⟩
        exact hbad (hok _ (h1.trans hp)))]

/-- C9 as stated fails: in the vault `/v` the hidden directory `.hidden` holds a
file `.hidden.md`; the run (pattern `arch` excluded) writes `/v/index.md` with
the link `[[.hidden/.hidden.md]]`, whose target lies inside the hidden
directory. -/
theorem C9_hidden_directory_with_own_index_is_linked :
    hiddenName ".hidden" ∧
    ¬ dirOk (NewIndexatorWithOptions "/v" false false ["arch"]) [".hidden"] ∧
    osExists worldH.fs "/v/index.md" = false ∧
    (Start insertionSortLessFunc (NewIndexatorWithOptions "/v" false false ["arch"])
      worldH).2 = none ∧
    osReadFile (Start insertionSortLessFunc (NewIndexatorWithOptions "/v" false false ["arch"])
      worldH).1.fs "/v/index.md" = some "[[.hidden/.hidden.md]]\n" := by
  decide

theorem linkFor_injective {a b : List String} (ha : ∀ n ∈ a, ValidName n)
    (hb : ∀ n ∈ b, ValidName n) (h : linkFor a = linkFor b) : a = b := by
  apply relPath_injective a b ha hb
  have hd := congrArg String.data h
  simp only [linkFor, String.data_append] at hd
  have h1 := List.append_cancel_right hd
  have h2 := List.append_cancel_left h1
  exact String.ext h2

/-- A directory that holds nothing, or nothing but its own index file, has no
links. -/
theorem dirLinks_quiet (fs : Node) (vs cs : List String) (es0 : List (String × Node))
    (h : es0 = [] ∨ ∃ c0, es0 = [(indexName cs, .file c0)]) :
    dirLinks fs vs cs es0 = [] := by
  rcases h with rfl | ⟨c0, rfl⟩
  · rfl
  · simp [dirLinks, toDirEntry, entryLink]

/-- Below a directory that holds nothing, or nothing but a regular file, there
is no directory. -/
theorem no_dir_below_quiet (es0 : List (String × Node)) (x : String)
    (h : es0 = [] ∨ ∃ c0, es0 = [(x, .file c0)]) (a : String) (r : List String)
    (es : List (String × Node)) : (Node.dir es0).get (a :: r) ≠ some (.dir es) := by
  rcases h with rfl | ⟨c0, rfl⟩
  · simp [Node.get_dir_cons, lookupEntry]
  · rw [Node.get_dir_cons]
    unfold lookupEntry
    by_cases hx : x = a
    · rw [if_pos hx]
      cases r with
      | nil => simp [Node.get_nil]
      | cons b bs => simp [Node.get_file_cons]
    · rw [if_neg hx]; simp [lookupEntry]

/-- A writing step leaves a directory that holds nothing, or nothing but its own
index file, as it is. -/
theorem StepWrote.keeps_quiet_dir {idx : Indexator} {vs cs2 : List String}
    {fs fs3 : Node} (h : StepWrote idx vs cs2 fs fs3) (cs : List String)
    (es0 : List (String × Node))
    (hq : es0 = [] ∨ ∃ c0, es0 = [(indexName cs, .file c0)])
    (hg0 : fs.get (vs ++ cs) = some (.dir es0)) :
    fs3.get (vs ++ cs) = some (.dir es0) := by
  refine h.keeps_listing hg0 ?_
  intro hp
  obtain ⟨es, hg, hl, _⟩ := h
  rw [List.prefix_append_right_inj] at hp
  obtain ⟨r, rfl⟩ := hp
  cases r with
  | nil =>
    rw [List.append_nil] at hg hl
    rw [hg0] at hg
    simp only [Option.some.injEq, Node.dir.injEq] at hg
    subst hg
    exact hl (dirLinks_quiet fs vs cs es0 hq)
  | cons a r =>
    rw [← List.append_assoc, Node.get_append, hg0] at hg
    exact no_dir_below_quiet es0 (indexName cs) hq a r es hg

/-- C10 as stated fails: in the vault `/v` the directory `a` holds nothing but
its own index file `a/a.md`, so it has no qualifying entry; the run creates no
index for it, but it writes `/v/index.md` for the parent with the link
`[[a/a.md]]` to that directory. -/
theorem C10_directory_with_only_its_index_is_linked :
    dirLinks worldO.fs ["v"] ["a"] [("a.md", .file "old index")] = [] ∧
    osExists worldO.fs "/v/index.md" = false ∧
    (Start insertionSortLessFunc (NewIndexator "/v") worldO).2 = none ∧
    osReadFile (Start insertionSortLessFunc (NewIndexator "/v") worldO).1.fs "/v/a/a.md"
      = some "old index" ∧
    osReadFile (Start insertionSortLessFunc (NewIndexator "/v") worldO).1.fs "/v/index.md"
      = some "[[a/a.md]]\n" := by
  decide

theorem valid_two {cs : List String} {n : String} (hc : ∀ m ∈ cs, ValidName m)
    (hn : ValidName n) : ∀ m ∈ cs ++ [n, n ++ ".md"], ValidName m :=
  valid_append hc (by
    intro m hm
    simp only [List.mem_cons, List.mem_singleton, List.not_mem_nil, or_false] at hm
    rcases hm with rfl | rfl
    · exact hn
    · exact validName_md _ hn)

/-- C9, amended: in a well-formed tree with the vault at a clean path, for
every exclusion set, take an index file that does not exist before the run and
exists after it, the index of the directory `q`. Then `q` and every directory
above it were accepted by the walk (not hidden, not excluded). The file was
written in a state `fs` of the run in which `q` had the listing `es`, and in
which a directory `n` that the walk does not accept holds `n/n.md` exactly if
it did before the run. The file holds one line per link of that listing, and
the target of every link is a path of valid names that either does not lie
inside a hidden or excluded directory, or is `n/n.md` for a hidden or excluded
subdirectory `n` of `q` where that path existed already before the run. -/
theorem C9_links_into_hidden_only_to_existing_index
    (sortSlice : (String → String → Bool) → List String → List String)
    (hsort : ∀ less l x, x ∈ sortSlice less l → x ∈ l)
    (idx : Indexator) (w : World) (vs q : List String) (c : String)
    (hi : VaultAt idx vs) (hwf : w.fs.wf = true) (hq : ∀ n ∈ q, ValidName n)
    (hT0 : osExists w.fs (absPath (vs ++ q ++ [indexName q])) = false)
    (hfin : osReadFile (Start sortSlice idx w).1.fs (absPath (vs ++ q ++ [indexName q]))
      = some c) :
    (∀ r2, r2 <+: q → dirOk idx r2) ∧
    ∃ fs es, fs.get (vs ++ q) = some (.dir es) ∧ (∀ e ∈ es, ValidName e.1) ∧
      (∀ cs n, ¬ dirOk idx (cs ++ [n]) →
        (fs.get (vs ++ cs ++ [n, n ++ ".md"])).isSome
          = (w.fs.get (vs ++ cs ++ [n, n ++ ".md"])).isSome) ∧
      c = concatLines (dirLinks fs vs q es) ∧
      ∀ l ∈ dirLinks fs vs q es, ∃ target, (∀ m ∈ target, ValidName m) ∧ l = linkFor target ∧
        (GoodTarget idx target ∨
         ∃ n, target = q ++ [n, n ++ ".md"] ∧ ¬ dirOk idx (q ++ [n]) ∧
           (w.fs.get (vs ++ target)).isSome = true) := by
  have hP := valid_snoc (valid_append hi.2 hq) (validName_indexName q hq)
  rw [osExists_absPath _ _ hP] at hT0
  have hT0n : w.fs.get (vs ++ q ++ [indexName q]) = none := by
    cases h : w.fs.get (vs ++ q ++ [indexName q]) with
    | none => rfl
    | some n => rw [h] at hT0; simp at hT0
  rw [osReadFile_absPath _ _ _ hP] at hfin
  obtain ⟨fs, es, hfswf, hs, hg, hne, hc, _, hok⟩ :=
    written_index_links sortSlice hsort idx w vs hi hwf
      (fun fs => ∀ cs n, ¬ dirOk idx (cs ++ [n]) →
        (fs.get (vs ++ cs ++ [n, n ++ ".md"])).isSome
          = (w.fs.get (vs ++ cs ++ [n, n ++ ".md"])).isSome)
      (fun _ _ _ => rfl)
      (fun cs fs fs3 _ hok _ hs hstep cs1 n hbad => by
        rw [hstep.keeps_hidden_index hok cs1 n hbad]; exact hs cs1 n hbad)
      q c hT0n hfin
  have hes := Node.wf_listing hfswf hg
  refine ⟨hok, fs, es, hg, hes, hs, by rw [hc, indexContent_eq_concatLines _ hne], ?_⟩
  intro l hl
  obtain ⟨e, he, hel⟩ := mem_dirLinks hl
  have hev : ValidName (toDirEntry e).Name := hes e he
  rcases entryLink_cases hel with ⟨_, h2⟩ | ⟨_, h2, h3⟩
  · refine ⟨_, valid_snoc hq hev, h2, Or.inl ?_⟩
    intro r hr hrne
    rcases List.prefix_concat_iff.1 hr with h4 | h4
    · exact absurd h4 hrne
    · exact hok r h4
  · refine ⟨_, valid_two hq hev, h2, ?_⟩
    by_cases hd : dirOk idx (q ++ [(toDirEntry e).Name])
    · left
      intro r hr hrne
      have e2 : q ++ [(toDirEntry e).Name, (toDirEntry e).Name ++ ".md"]
          = (q ++ [(toDirEntry e).Name]) ++ [(toDirEntry e).Name ++ ".md"] := by simp
      rw [e2] at hr hrne
      rcases List.prefix_concat_iff.1 hr with h4 | h4
      · exact absurd h4 hrne
      · rcases List.prefix_concat_iff.1 h4 with h5 | h5
        · rw [h5]; exact hd
        · exact hok r h5
    · right
      refine ⟨_, rfl, hd, ?_⟩
      rw [← List.append_assoc, ← hs q _ hd]
      exact h3

/-- C9, amended, at the vault `/v` of the hidden-directory scenario, for the
index the run writes for the directory `normal`. -/
theorem C9_links_into_hidden_only_to_existing_index_witness :
    (∀ r2, r2 <+: ["normal"] →
      dirOk (NewIndexatorWithOptions "/v" false false ["arch"]) r2) ∧
    ∃ fs es, fs.get (["v"] ++ ["normal"]) = some (.dir es) ∧ (∀ e ∈ es, ValidName e.1) ∧
      (∀ cs n, ¬ dirOk (NewIndexatorWithOptions "/v" false false ["arch"]) (cs ++ [n]) →
        (fs.get (["v"] ++ cs ++ [n, n ++ ".md"])).isSome
          = (worldH.fs.get (["v"] ++ cs ++ [n, n ++ ".md"])).isSome) ∧
      "[[normal/public.md]]\n" = concatLines (dirLinks fs ["v"] ["normal"] es) ∧
      ∀ l ∈ dirLinks fs ["v"] ["normal"] es,
        ∃ target, (∀ m ∈ target, ValidName m) ∧ l = linkFor target ∧
        (GoodTarget (NewIndexatorWithOptions "/v" false false ["arch"]) target ∨
         ∃ n, target = ["normal"] ++ [n, n ++ ".md"] ∧
           ¬ dirOk (NewIndexatorWithOptions "/v" false false ["arch"]) (["normal"] ++ [n]) ∧
           (worldH.fs.get (["v"] ++ target)).isSome = true) :=
  C9_links_into_hidden_only_to_existing_index insertionSortLessFunc mem_insertionSortLessFunc
    (NewIndexatorWithOptions "/v" false false ["arch"]) worldH ["v"] ["normal"]
    "[[normal/public.md]]\n" ⟨by decide, by decide⟩ (by decide) (by decide) (by decide)
    (by decide)

theorem get_below_empty {fs : Node} {D : List String} (h : fs.get D = some (.dir []))
    (x : String) : fs.get (D ++ [x]) = none := by
  rw [Node.get_append, h]
  simp [Node.get_dir_cons, lookupEntry]

/-- C10, amended: in a well-formed tree with the vault at a clean path, a
directory `cs` of the vault that is empty, or holds nothing but its own index
file, has exactly the same listing after the run: no index file is created
for it and an index it holds stays. For an empty directory `q/n`, take the
index of its parent `q` that does not exist before the run and exists after
it: it was written in a state `fs` of the run in which `q` had the listing `es`
and `q/n` was still empty, it holds one line per link of that listing, the
entry `n` contributes no link, and the link to `q/n/n.md` is not among the
links. -/
theorem C10_empty_directory_no_index_no_link
    (sortSlice : (String → String → Bool) → List String → List String)
    (hsort : ∀ less l x, x ∈ sortSlice less l → x ∈ l)
    (idx : Indexator) (w : World) (vs : List String)
    (hi : VaultAt idx vs) (hwf : w.fs.wf = true) :
    (∀ cs es0, (es0 = [] ∨ ∃ c0, es0 = [(indexName cs, .file c0)]) →
      w.fs.get (vs ++ cs) = some (.dir es0) →
      (Start sortSlice idx w).1.fs.get (vs ++ cs) = some (.dir es0)) ∧
    (∀ q n c, (∀ m ∈ q ++ [n], ValidName m) →
      w.fs.get (vs ++ (q ++ [n])) = some (.dir []) →
      osExists w.fs (absPath (vs ++ q ++ [indexName q])) = false →
      osReadFile (Start sortSlice idx w).1.fs (absPath (vs ++ q ++ [indexName q])) = some c →
      ∃ fs es, fs.get (vs ++ q) = some (.dir es) ∧
        fs.get (vs ++ (q ++ [n])) = some (.dir []) ∧
        c = concatLines (dirLinks fs vs q es) ∧
        (∀ e ∈ es, e.1 = n → e.2.isDir = true → entryLink fs vs q (toDirEntry e) = none) ∧
        linkFor (q ++ [n, n ++ ".md"]) ∉ dirLinks fs vs q es) := by
  constructor
  · intro cs es0 hq hg0
    exact (Start_invariant sortSlice hsort idx w vs hi
      (fun fs => fs.get (vs ++ cs) = some (.dir es0)) hwf hg0
      (fun cs2 fs fs3 _ _ _ hinv hstep => hstep.keeps_quiet_dir cs es0 hq hinv)).2
  · intro q n c hqn hg0 hT0 hfin
    have hq : ∀ m ∈ q, ValidName m := fun m hm => hqn m (List.mem_append_left _ hm)
    have hn : ValidName n := hqn n (by simp)
    have hP := valid_snoc (valid_append hi.2 hq) (validName_indexName q hq)
    rw [osExists_absPath _ _ hP] at hT0
    have hT0n : w.fs.get (vs ++ q ++ [indexName q]) = none := by
      cases h : w.fs.get (vs ++ q ++ [indexName q]) with
      | none => rfl
      | some nd => rw [h] at hT0; simp at hT0
    rw [osReadFile_absPath _ _ _ hP] at hfin
    obtain ⟨fs, es, hfswf, hs, hg, hne, hc, _, _⟩ :=
      written_index_links sortSlice hsort idx w vs hi hwf
        (fun fs => fs.get (vs ++ (q ++ [n])) = some (.dir []))
        hg0
        (fun cs2 fs fs3 _ _ _ hs hstep => hstep.keeps_quiet_dir (q ++ [n]) [] (Or.inl rfl) hs)
        q c hT0n hfin
    have hnone : fs.get (vs ++ q ++ [n, n ++ ".md"]) = none := by
      rw [two_snoc]; exact get_below_empty hs _
    refine ⟨fs, es, hg, hs, by rw [hc, indexContent_eq_concatLines _ hne], ?_, ?_⟩
    · intro e he hen hdir
      unfold entryLink
      have h1 : (toDirEntry e).Name = n := hen
      have h2 : (toDirEntry e).IsDir = true := hdir
      rw [h1, h2, hnone]
      simp
    · intro hmem
      obtain ⟨e, he, hel⟩ := mem_dirLinks hmem
      have hev : ValidName e.1 := Node.wf_listing hfswf hg e he
      rcases entryLink_cases hel with ⟨_, h2⟩ | ⟨_, h2, h3⟩
      · have := linkFor_injective (valid_two hq hn) (valid_snoc hq hev) h2
        have hlen := congrArg List.length this
        simp at hlen
      · have := linkFor_injective (valid_two hq hn) (valid_two hq hev) h2
        have hnm : n = (toDirEntry e).Name := by
          have h4 := List.append_cancel_left this
          simp only [List.cons.injEq] at h4
          exact h4.1
        rw [← hnm, hnone] at h3
        simp at h3

/-- C10, amended, at the vault `/v` with the empty directory `e` and the note
`f.md`: `e` stays empty and the index written for the root does not link it. -/
theorem C10_empty_directory_no_index_no_link_witness :
    (Start insertionSortLessFunc (NewIndexator "/v") worldEmpty).1.fs.get (["v"] ++ ["e"])
      = some (.dir []) ∧
    ∃ fs es, fs.get (["v"] ++ []) = some (.dir es) ∧
      fs.get (["v"] ++ ([] ++ ["e"])) = some (.dir []) ∧
      "[[f.md]]\n" = concatLines (dirLinks fs ["v"] [] es) ∧
      (∀ e ∈ es, e.1 = "e" → e.2.isDir = true → entryLink fs ["v"] [] (toDirEntry e) = none) ∧
      linkFor ([] ++ ["e", "e" ++ ".md"]) ∉ dirLinks fs ["v"] [] es :=
  ⟨(C10_empty_directory_no_index_no_link insertionSortLessFunc mem_insertionSortLessFunc
      (NewIndexator "/v") worldEmpty ["v"] ⟨by decide, by decide⟩ (by decide)).1
      ["e"] [] (Or.inl rfl) rfl,
   (C10_empty_directory_no_index_no_link insertionSortLessFunc mem_insertionSortLessFunc
      (NewIndexator "/v") worldEmpty ["v"] ⟨by decide, by decide⟩ (by decide)).2
      [] "e" "[[f.md]]\n" (by decide) rfl (by decide) (by decide)⟩

theorem lookupEntry_isSome_of_mem {n : String} {ch : Node} {es : List (String × Node)}
    (h : (n, ch) ∈ es) : (lookupEntry n es).isSome = true := by
  induction es with
  | nil => cases h
  | cons e rest ih =>
    obtain ⟨m, v⟩ := e
    unfold lookupEntry
    by_cases hm : m = n
    · rw [if_pos hm]; rfl
    · rw [if_neg hm]
      rcases List.mem_cons.1 h with h1 | h1
      · exact absurd (congrArg Prod.fst h1).symm hm
      · exact ih h1

/-- An entry of the listing of a directory names an object of the tree. -/
theorem Node.get_entry_isSome {fs : Node} {D : List String} {es : List (String × Node)}
    (hg : fs.get D = some (.dir es)) {e : String × Node} (he : e ∈ es) :
    (fs.get (D ++ [e.1])).isSome = true := by
  rw [Node.get_append, hg, Option.some_bind, Node.get_dir_cons]
  have h : (lookupEntry e.1 es).isSome = true :=
    @lookupEntry_isSome_of_mem e.1 e.2 es he
  cases hl : lookupEntry e.1 es with
  | none => rw [hl] at h; cases h
  | some ch => simp [Node.get_nil]

/-- A writing step removes nothing but what lies at the temporary path. -/
theorem StepWrote.keeps_some {idx : Indexator} {vs cs : List String} {fs fs3 : Node}
    (h : StepWrote idx vs cs fs fs3) {P : List String}
    (hP : (fs.get P).isSome = true)
    (hne : P ≠ vs ++ cs ++ [indexName cs ++ ".tmp"]) : (fs3.get P).isSome = true := by
  obtain ⟨es, hg, _, hT, htmp, _, hw⟩ := h
  by_cases hp : P <+: vs ++ cs ++ [indexName cs]
  · obtain ⟨r, hr⟩ := hp
    have ht := hw.get_target
    rw [← hr, Node.get_append] at ht
    cases h3 : fs3.get P with
    | none => rw [h3] at ht; cases ht
    | some n => rfl
  · rw [hw.frame hT htmp P hp ?_]
    · exact hP
    · intro hq
      rcases List.prefix_concat_iff.1 hq with h1 | h1
      · exact hne h1
      · exact hp (h1.trans (List.prefix_append _ _))

theorem entryLink_ne_index {fs : Node} {vs cs : List String} {e : DirEntry} {l : String}
    (h : entryLink fs vs cs e = some l) : e.Name ≠ indexName cs := by
  intro h1
  unfold entryLink at h
  rw [if_pos h1] at h
  cases h

theorem indexName_snoc (q : List String) (n : String) : indexName (q ++ [n]) = n ++ ".md" := by
  unfold indexName
  rw [List.getLast?_append]
  rfl

/-- The path `n/n.md` below a directory is the temporary path of no index
file. -/
theorem child_index_ne_tmp (vs q cs : List String) (n : String) :
    vs ++ q ++ [n, n ++ ".md"] ≠ vs ++ cs ++ [indexName cs ++ ".tmp"] := by
  intro heq
  rw [two_snoc] at heq
  obtain ⟨h1, h2⟩ := snoc_inj vs heq
  subst h1
  rw [indexName_snoc] at h2
  exact append_tmp_ne (n ++ ".md") h2.symm

/-- The links of the index files a run writes. The index file of `q`, if it
does not exist before the run and is a regular file after it, was written in a
state `fs` of the run in which `q` is a directory with the listing `es`; its
content is the content for the links of that listing, its temporary path does
not exist after the run, and what each link points at is present after the
run. -/
theorem written_index_targets
    (sortSlice : (String → String → Bool) → List String → List String)
    (hsort : ∀ less l x, x ∈ sortSlice less l → x ∈ l)
    (idx : Indexator) (w : World) (vs : List String) (hi : VaultAt idx vs)
    (hwf : w.fs.wf = true) (q : List String) (c : String)
    (hT0 : w.fs.get (vs ++ q ++ [indexName q]) = none)
    (hfin : (Start sortSlice idx w).1.fs.get (vs ++ q ++ [indexName q]) = some (.file c)) :
    ∃ fs es, fs.get (vs ++ q) = some (.dir es) ∧ (∀ e ∈ es, ValidName e.1) ∧
      dirLinks fs vs q es ≠ [] ∧ c = indexContent (dirLinks fs vs q es) ∧
      (Start sortSlice idx w).1.fs.get (vs ++ q ++ [indexName q ++ ".tmp"]) = none ∧
      ∀ e ∈ es, ∀ l, entryLink fs vs q (toDirEntry e) = some l →
        LinkPresent (Start sortSlice idx w).1.fs vs q e l := by
  have hinv := (Start_invariant sortSlice hsort idx w vs hi
    (fun cur => cur.get (vs ++ q ++ [indexName q]) = none ∨
      ∃ fs es, fs.get (vs ++ q) = some (.dir es) ∧ (∀ e ∈ es, ValidName e.1) ∧
        dirLinks fs vs q es ≠ [] ∧
        cur.get (vs ++ q ++ [indexName q])
          = some (.file (indexContent (dirLinks fs vs q es))) ∧
        cur.get (vs ++ q ++ [indexName q ++ ".tmp"]) = none ∧
        ∀ e ∈ es, ∀ l, entryLink fs vs q (toDirEntry e) = some l →
          LinkPresent cur vs q e l)
    hwf (Or.inl hT0) ?_).2
  · rcases hinv with h | ⟨fs, es, h1, h2, h3, h, h4, h5⟩
    · rw [h] at hfin; cases hfin
    · rw [h] at hfin
      simp only [Option.some.injEq, Node.file.injEq] at hfin
      exact ⟨fs, es, h1, h2, h3, hfin.symm, h4, h5⟩
  · intro cs fs fs3 hv hok hfswf hq hstep
    by_cases hcq : cs = q
    · subst hcq
      have hstep2 := hstep
      obtain ⟨es, hg, hl, hT, htmp, _, hw⟩ := hstep
      refine Or.inr ⟨fs, es, hg, Node.wf_listing hfswf hg, hl, hw.get_target,
        hw.get_tmp hT htmp, ?_⟩
      intro e he l hel
      have hne := entryLink_ne_index hel
      rcases entryLink_cases hel with ⟨hd, hl2⟩ | ⟨hd, hl2, hex⟩
      · refine Or.inl ⟨hd, hne, hl2, fun htn => hstep2.keeps_some
          (Node.get_entry_isSome hg he) ?_⟩
        intro heq
        exact htn (snoc_inj vs heq).2
      · exact Or.inr ⟨hd, hl2, hstep2.keeps_some hex (child_index_ne_tmp vs cs cs e.1)⟩
    · rcases hq with h | ⟨fs0, es0, hg0, hval, hl0, hc0, ht0, htar⟩
      · left
        refine hstep.keeps_none h ?_
        intro heq
        exact hcq (snoc_inj vs heq).1.symm
      · right
        refine ⟨fs0, es0, hg0, hval, hl0, hstep.keeps_file hc0 ?_, hstep.keeps_none ht0 ?_, ?_⟩
        · intro heq
          exact hcq (snoc_inj vs heq).1.symm
        · intro heq
          exact hcq (snoc_inj vs heq).1.symm
        · intro e he l hel
          rcases htar e he l hel with ⟨hd, hne, hl2, hex⟩ | ⟨hd, hl2, hex⟩
          · refine Or.inl ⟨hd, hne, hl2, fun htn => hstep.keeps_some (hex htn) ?_⟩
            intro heq
            exact hcq (snoc_inj vs heq).1.symm
          · exact Or.inr ⟨hd, hl2, hstep.keeps_some hex (child_index_ne_tmp vs q cs e.1)⟩

/-- C11, as stated, fails: the vault `/v` holds only the file `index.md.tmp`.
The run succeeds and writes `/v/index.md` with the one link
`[[index.md.tmp]]`; the write went through `/v/index.md.tmp`, which was then
renamed, so the path the link names does not exist at the end of the run. -/
theorem C11_stale_temporary_file_is_linked_then_consumed :
    osReadFile worldStale.fs "/v/index.md.tmp" = some "stale" ∧
    osExists worldStale.fs "/v/index.md" = false ∧
    (Start insertionSortLessFunc (NewIndexator "/v") worldStale).2 = none ∧
    osReadFile (Start insertionSortLessFunc (NewIndexator "/v") worldStale).1.fs "/v/index.md"
      = some "[[index.md.tmp]]\n" ∧
    osExists (Start insertionSortLessFunc (NewIndexator "/v") worldStale).1.fs
      "/v/index.md.tmp" = false := by
  decide

/-- C11, amended: in a well-formed tree with the vault at a clean path, take an
index file that does not exist before the run and exists after it, the index
of the directory `q`. Its temporary path does not exist after the run. The
file was written when `q` had a listing `es`; it holds one line per link of
that listing, and every link is of one of two kinds. Either it is the link to
an entry `e` of `q` that is not a directory and is not named like the index
file of `q`, and then the path of `e` exists after the run, unless `e` bears
the name of the temporary file of the index. Or it is the link to `n/n.md`
for a subdirectory `n` of `q`, and that path exists after the run. -/
theorem C11_links_name_existing_paths
    (sortSlice : (String → String → Bool) → List String → List String)
    (hsort : ∀ less l x, x ∈ sortSlice less l → x ∈ l)
    (idx : Indexator) (w : World) (vs q : List String) (c : String)
    (hi : VaultAt idx vs) (hwf : w.fs.wf = true) (hq : ∀ n ∈ q, ValidName n)
    (hT0 : osExists w.fs (absPath (vs ++ q ++ [indexName q])) = false)
    (hfin : osReadFile (Start sortSlice idx w).1.fs (absPath (vs ++ q ++ [indexName q]))
      = some c) :
    osExists (Start sortSlice idx w).1.fs (absPath (vs ++ q ++ [indexName q ++ ".tmp"]))
      = false ∧
    ∃ fs es, fs.get (vs ++ q) = some (.dir es) ∧
      c = concatLines (dirLinks fs vs q es) ∧
      ∀ l ∈ dirLinks fs vs q es,
        (∃ e ∈ es, e.2.isDir = false ∧ e.1 ≠ indexName q ∧ l = linkFor (q ++ [e.1]) ∧
          (e.1 ≠ indexName q ++ ".tmp" →
            osExists (Start sortSlice idx w).1.fs (absPath (vs ++ q ++ [e.1])) = true)) ∨
        (∃ e ∈ es, e.2.isDir = true ∧ l = linkFor (q ++ [e.1, e.1 ++ ".md"]) ∧
          osExists (Start sortSlice idx w).1.fs
            (absPath (vs ++ q ++ [e.1, e.1 ++ ".md"])) = true) := by
  have hvq := valid_append hi.2 hq
  have hP := valid_snoc hvq (validName_indexName q hq)
  rw [osExists_absPath _ _ hP] at hT0
  have hT0n : w.fs.get (vs ++ q ++ [indexName q]) = none := by
    cases h : w.fs.get (vs ++ q ++ [indexName q]) with
    | none => rfl
    | some n => rw [h] at hT0; simp at hT0
  rw [osReadFile_absPath _ _ _ hP] at hfin
  obtain ⟨fs, es, hg, hes, hne, hc, htmp, htar⟩ :=
    written_index_targets sortSlice hsort idx w vs hi hwf q c hT0n hfin
  refine ⟨?_, fs, es, hg, by rw [hc, indexContent_eq_concatLines _ hne], ?_⟩
  · rw [osExists_absPath _ _ (valid_snoc hvq (validName_tmp _ (validName_indexName q hq))),
      htmp]
    rfl
  · intro l hl
    obtain ⟨e, he, hel⟩ := mem_dirLinks hl
    have hev : ValidName e.1 := hes e he
    rcases htar e he l hel with ⟨hd, hn, h2, hex⟩ | ⟨hd, h2, hex⟩
    · refine Or.inl ⟨e, he, hd, hn, h2, fun htn => ?_⟩
      rw [osExists_absPath _ _ (valid_snoc hvq hev)]
      exact hex htn
    · refine Or.inr ⟨e, he, hd, h2, ?_⟩
      rw [osExists_absPath _ _ (by
        rw [List.append_assoc]; exact valid_append hi.2 (valid_two hq hev))]
      exact hex

/-- C11, amended, at the vault `/v` of the integration scenario, for the index
the run writes for the directory `notes`. -/
theorem C11_links_name_existing_paths_witness :
    osExists (Start insertionSortLessFunc (NewIndexator "/v") worldN).1.fs
      (absPath (["v"] ++ ["notes"] ++ [indexName ["notes"] ++ ".tmp"])) = false ∧
    ∃ fs es, fs.get (["v"] ++ ["notes"]) = some (.dir es) ∧
      "[[notes/file1.md]]\n[[notes/file2.md]]\n[[notes/subfolder/subfolder.md]]\n"
        = concatLines (dirLinks fs ["v"] ["notes"] es) ∧
      ∀ l ∈ dirLinks fs ["v"] ["notes"] es,
        (∃ e ∈ es, e.2.isDir = false ∧ e.1 ≠ indexName ["notes"] ∧
          l = linkFor (["notes"] ++ [e.1]) ∧
          (e.1 ≠ indexName ["notes"] ++ ".tmp" →
            osExists (Start insertionSortLessFunc (NewIndexator "/v") worldN).1.fs
              (absPath (["v"] ++ ["notes"] ++ [e.1])) = true)) ∨
        (∃ e ∈ es, e.2.isDir = true ∧ l = linkFor (["notes"] ++ [e.1, e.1 ++ ".md"]) ∧
          osExists (Start insertionSortLessFunc (NewIndexator "/v") worldN).1.fs
            (absPath (["v"] ++ ["notes"] ++ [e.1, e.1 ++ ".md"])) = true) :=
  C11_links_name_existing_paths insertionSortLessFunc mem_insertionSortLessFunc
    (NewIndexator "/v") worldN ["v"] ["notes"]
    "[[notes/file1.md]]\n[[notes/file2.md]]\n[[notes/subfolder/subfolder.md]]\n"
    ⟨by decide, by decide⟩ (by decide) (by decide) (by decide) (by decide)

theorem splitOn_append_noSep (sep : Char) (xs ys : List Char) (h : sep ∉ ys) :
    ∃ init last, xs.splitOn sep = init ++ [last] ∧
      (xs ++ ys).splitOn sep = init ++ [last ++ ys] := by
  simp only [List.splitOn]
  induction xs with
  | nil =>
    refine ⟨[], [], by simp, ?_⟩
    rw [List.nil_append, List.splitOnP_eq_single]
    · rfl
    · intro c hc hcs
      have : c = sep := by simpa using hcs
      exact h (this ▸ hc)
  | cons x xs ih =>
    obtain ⟨init, last, h1, h2⟩ := ih
    simp only [List.cons_append, List.splitOnP_cons, h1, h2]
    by_cases hx : (x == sep) = true
    · exact ⟨[] :: init, last, by simp [hx], by simp [hx]⟩
    · cases init with
      | nil => exact ⟨[], x :: last, by simp [hx, List.modifyHead], by simp [hx, List.modifyHead]⟩
      | cons a as =>
        exact ⟨(x :: a) :: as, last, by simp [hx, List.modifyHead],
          by simp [hx, List.modifyHead]⟩

theorem splitSep_append_tmp (p : String) :
    ∃ init last, splitSep p = init ++ [last] ∧
      splitSep (p ++ ".tmp") = init ++ [last ++ ".tmp"] := by
  obtain ⟨init, last, h1, h2⟩ := splitOn_append_noSep Separator p.data ".tmp".data (by decide)
  refine ⟨init.map String.mk, String.mk last, ?_, ?_⟩
  · simp only [splitSep, strSplit, h1, List.map_append, List.map_cons, List.map_nil]
  · simp only [splitSep, strSplit, String.data_append, h2, List.map_append, List.map_cons,
      List.map_nil]
    rfl

theorem tmp_not_special (e : String) :
    ¬ (e ++ ".tmp" = "" ∨ e ++ ".tmp" = ".") ∧ e ++ ".tmp" ≠ ".." := by
  have hlen : (e ++ ".tmp").length = e.length + 4 := by
    rw [String.length_append]; rfl
  have h0 : ("" : String).length = 0 := rfl
  have h1 : (".").length = 1 := rfl
  have h2 : ("..").length = 2 := rfl
  refine ⟨?_, ?_⟩
  · rintro (h | h)
    · rw [h] at hlen; omega
    · rw [h] at hlen; omega
  · intro h
    rw [h] at hlen; omega

/-- The temporary path of a path never resolves to the path itself. -/
theorem pathElems_tmp_ne (p : String) : pathElems (p ++ ".tmp") ≠ pathElems p := by
  obtain ⟨init, last, h1, h2⟩ := splitSep_append_tmp p
  unfold pathElems cleanElems
  rw [h1, h2, List.foldl_append, List.foldl_append]
  simp only [List.foldl_cons, List.foldl_nil]
  intro h
  have h3 := List.reverse_injective h
  generalize List.foldl (cleanStep true) [] init = acc at h3
  obtain ⟨ht1, ht2⟩ := tmp_not_special last
  have e1 : cleanStep true acc (last ++ ".tmp") = (last ++ ".tmp") :: acc := by
    unfold cleanStep
    rw [if_neg ht1, if_neg ht2]
  rw [e1] at h3
  unfold cleanStep at h3
  by_cases a : last = "" ∨ last = "."
  · rw [if_pos a] at h3
    have := congrArg List.length h3; simp at this
  · rw [if_neg a] at h3
    by_cases b : last = ".."
    · rw [if_pos b] at h3
      cases acc with
      | nil => cases h3
      | cons top below =>
        simp only at h3
        by_cases c : top = ".."
        · rw [if_pos c] at h3
          exact append_tmp_ne _ (List.cons.inj h3).1
        · rw [if_neg c] at h3
          have := congrArg List.length h3
          simp only [List.length_cons] at this
          omega
    · rw [if_neg b] at h3
      exact append_tmp_ne _ (List.cons.inj h3).1

theorem osWriteFile_ok_inv {fs fs1 : Node} {name data : String}
    (h : osWriteFile fs name data = .ok fs1) :
    (∀ es, fs.get (pathElems name) ≠ some (.dir es)) ∧
    fs.put (pathElems name) (.file data) = some fs1 := by
  unfold osWriteFile at h
  split at h
  · cases h
  · rename_i hnd
    refine ⟨fun es hes => hnd es hes, ?_⟩
    split at h
    · rename_i fs2 hp
      cases h
      exact hp
    · cases h

theorem osRename_file_ok_inv {fs fs2 : Node} {oldpath newpath c : String}
    (hsrc : fs.get (pathElems oldpath) = some (.file c))
    (hne : pathElems oldpath ≠ pathElems newpath)
    (h : osRename fs oldpath newpath = .ok fs2) :
    (∀ es, fs.get (pathElems newpath) ≠ some (.dir es)) ∧
    ∃ fsd, fs.del (pathElems oldpath) = some fsd ∧
      fsd.put (pathElems newpath) (.file c) = some fs2 := by
  unfold osRename at h
  rw [hsrc] at h
  simp only [if_neg hne] at h
  split at h
  · cases h
  · rename_i heq _; cases heq
  · rename_i heq _; cases heq
  · rename_i hnd _ _
    refine ⟨fun es hes => hnd c es rfl hes, ?_⟩
    split at h
    · cases h
    · rename_i fsd hd
      split at h
      · rename_i fs3 hp
        cases h
        exact ⟨fsd, hd, hp⟩
      · cases h

theorem osRemove_file {fs : Node} {name c : String}
    (hsrc : fs.get (pathElems name) = some (.file c)) (hne : pathElems name ≠ []) :
    ∃ fsd, fs.del (pathElems name) = some fsd ∧ osRemove fs name = .ok fsd := by
  obtain ⟨fsd, hd⟩ := Node.del_of_get hsrc hne
  refine ⟨fsd, hd, ?_⟩
  unfold osRemove
  rw [hsrc]
  simp only [hd]

/-- A successful `put` below a path finds a directory at that path. -/
theorem Node.put_ancestor_dir {t t2 v : Node} {q r : List String}
    (h : t.put (q ++ r) v = some t2) (hr : r ≠ []) :
    (∃ es, t.get q = some (.dir es)) ∧ ∃ es2, t2.get q = some (.dir es2) := by
  have h1 := Node.get_put_ancestor h hr
  have h2 := Node.get_put_self h
  rw [Node.get_append] at h2
  cases h3 : t2.get q with
  | none => rw [h3] at h2; cases h2
  | some n2 =>
    rw [h3] at h1 h2
    cases h4 : t.get q with
    | none => rw [h4] at h1; cases h1
    | some n =>
      rw [h4] at h1
      simp only [Option.some_bind] at h1 h2
      obtain ⟨es, c, cs, e1, _, _⟩ := Node.put_inv h1.symm
      refine ⟨⟨es, by rw [e1]⟩, ?_⟩
      cases n2 with
      | file c0 =>
        cases r with
        | nil => exact absurd rfl hr
        | cons a as => rw [Node.get_file_cons] at h2; cases h2
      | dir es2 => exact ⟨es2, rfl⟩

/-- A successful `del` below a path leaves a directory at that path. -/
theorem Node.del_ancestor_dir {q r : List String} (hr : r ≠ []) :
    ∀ {t t2 : Node}, t.del (q ++ r) = some t2 → ∃ es2, t2.get q = some (.dir es2) := by
  induction q with
  | nil =>
    intro t t2 h
    obtain ⟨es, c, cs, _, _, h3 | ⟨_, ch, ch2, _, _, h3⟩⟩ := Node.del_inv h
    · exact ⟨_, by rw [h3.2.2, Node.get_nil]⟩
    · exact ⟨_, by rw [h3, Node.get_nil]⟩
  | cons a qs ih =>
    intro t t2 h
    obtain ⟨es, c, cs, e1, e2, h3 | ⟨_, ch, ch2, hl, hd, h3⟩⟩ := Node.del_inv h
    · obtain ⟨_, e3⟩ := List.cons.inj e2
      exact absurd (List.append_eq_nil.1 (e3.trans h3.1)).2 hr
    · obtain ⟨e4, e3⟩ := List.cons.inj e2
      subst e4
      rw [← e3] at hd
      obtain ⟨es2, h5⟩ := ih hd
      refine ⟨es2, ?_⟩
      rw [h3, Node.get_dir_cons, lookupEntry_insertEntry_self, Option.some_bind]
      exact h5

theorem osReadFile_dir {fs : Node} {name : String} {es : List (String × Node)}
    (h : fs.get (pathElems name) = some (.dir es)) : osReadFile fs name = none := by
  unfold osReadFile
  rw [h]

theorem osExists_some {fs : Node} {name : String} {n : Node}
    (h : fs.get (pathElems name) = some n) : osExists fs name = true := by
  unfold osExists
  rw [h]
  rfl

/-- The file system after a failed rename in `writeFileAtomic`: the temporary
file was written and removed again. The temporary path does not exist, what
lies beside it is as before, and the target reads as before. -/
theorem write_then_remove {fs fs1 fsd : Node} {filePath content : String}
    (hnd : ∀ es, fs.get (pathElems (filePath ++ ".tmp")) ≠ some (.dir es))
    (hput : fs.put (pathElems (filePath ++ ".tmp")) (.file content) = some fs1)
    (hdel : fs1.del (pathElems (filePath ++ ".tmp")) = some fsd) :
    osExists fsd (filePath ++ ".tmp") = false ∧
    (∀ q, ¬ q <+: pathElems (filePath ++ ".tmp") → fsd.get q = fs.get q) ∧
    osReadFile fsd filePath = osReadFile fs filePath ∧
    osExists fsd filePath = osExists fs filePath := by
  have hself := Node.get_put_self hput
  have hframe : ∀ q, ¬ q <+: pathElems (filePath ++ ".tmp") → fsd.get q = fs.get q := by
    intro q hq
    rw [Node.del_file_frame hdel (by rw [hself]; intro es h; cases h) q hq,
      Node.put_file_frame hput hnd q hq]
  refine ⟨?_, hframe, ?_⟩
  · unfold osExists
    rw [Node.get_del_self hdel]
    rfl
  · by_cases hp : pathElems filePath <+: pathElems (filePath ++ ".tmp")
    · obtain ⟨r, hr⟩ := hp
      have hrne : r ≠ [] := by
        intro h0
        rw [h0, List.append_nil] at hr
        exact pathElems_tmp_ne filePath hr.symm
      rw [← hr] at hput hdel
      obtain ⟨⟨es, h1⟩, _⟩ := Node.put_ancestor_dir hput hrne
      obtain ⟨es2, h2⟩ := Node.del_ancestor_dir hrne hdel
      rw [osReadFile_dir h1, osReadFile_dir h2, osExists_some h1, osExists_some h2]
      exact ⟨rfl, rfl⟩
    · unfold osReadFile osExists
      rw [hframe _ hp]
      exact ⟨rfl, rfl⟩

/-- The file system after the rename in `writeFileAtomic` succeeded: the target
holds the content and the temporary path does not exist. -/
theorem rename_onto_target {fs1 fs2 : Node} {filePath content : String}
    (hself : fs1.get (pathElems (filePath ++ ".tmp")) = some (.file content))
    (hr : osRename fs1 (filePath ++ ".tmp") filePath = .ok fs2) :
    osReadFile fs2 filePath = some content ∧ osExists fs2 (filePath ++ ".tmp") = false := by
  obtain ⟨hnd, fsd, hd, hp⟩ := osRename_file_ok_inv hself (pathElems_tmp_ne filePath) hr
  refine ⟨?_, ?_⟩
  · unfold osReadFile
    rw [Node.get_put_self hp]
  · have hnone : fs2.get (pathElems (filePath ++ ".tmp")) = none := by
      by_cases ht : pathElems (filePath ++ ".tmp") <+: pathElems filePath
      · obtain ⟨r, hr2⟩ := ht
        have hrne : r ≠ [] := by
          intro h0
          rw [h0, List.append_nil] at hr2
          exact pathElems_tmp_ne filePath hr2
        rw [← hr2] at hp
        rw [Node.get_put_ancestor hp hrne, Node.get_del_self hd]
        rfl
      · have hpt : ¬ pathElems filePath <+: pathElems (filePath ++ ".tmp") := by
          rintro ⟨r, hr2⟩
          have hrne : r ≠ [] := by
            intro h0
            rw [h0, List.append_nil] at hr2
            exact pathElems_tmp_ne filePath hr2.symm
          have := Node.get_below_nondir hnd hrne
          rw [hr2, hself] at this
          cases this
        have hnd2 : ∀ es, fsd.get (pathElems filePath) ≠ some (.dir es) := by
          rw [Node.del_file_frame hd (by rw [hself]; intro es h; cases h) _ hpt]
          exact hnd
        rw [Node.put_file_frame hp hnd2 _ ht, Node.get_del_self hd]
    unfold osExists
    rw [hnone]
    rfl

/-- C12: for every path, content and state, `writeFileAtomic` leaves no partial
result. If it returns no error, reading the target gives exactly the content
and the temporary path `<path>.tmp` does not exist. If writing the temporary
file fails, it returns an error and the whole file system is as before. If the
temporary file was written and the rename fails, it returns an error, the
target reads and exists as before, the temporary path does not exist, and
every path that is neither the temporary path nor a directory above it holds
what it held. -/
theorem C12_writeFileAtomic_leaves_no_partial_result (idx : Indexator)
    (filePath content : String) (w : World) :
    ((writeFileAtomic idx filePath content w).2 = none →
      osReadFile (writeFileAtomic idx filePath content w).1.fs filePath = some content ∧
      osExists (writeFileAtomic idx filePath content w).1.fs (filePath ++ ".tmp") = false) ∧
    (∀ e, osWriteFile w.fs (filePath ++ ".tmp") content = .error e →
      (writeFileAtomic idx filePath content w).2 ≠ none ∧
      (writeFileAtomic idx filePath content w).1.fs = w.fs) ∧
    (∀ fs1 e, osWriteFile w.fs (filePath ++ ".tmp") content = .ok fs1 →
      osRename fs1 (filePath ++ ".tmp") filePath = .error e →
      (writeFileAtomic idx filePath content w).2 ≠ none ∧
      osReadFile (writeFileAtomic idx filePath content w).1.fs filePath
        = osReadFile w.fs filePath ∧
      osExists (writeFileAtomic idx filePath content w).1.fs filePath
        = osExists w.fs filePath ∧
      osExists (writeFileAtomic idx filePath content w).1.fs (filePath ++ ".tmp") = false ∧
      ∀ q, ¬ q <+: pathElems (filePath ++ ".tmp") →
        (writeFileAtomic idx filePath content w).1.fs.get q = w.fs.get q) := by
  refine ⟨?_, ?_, ?_⟩
  · intro hs
    cases hw : osWriteFile w.fs (filePath ++ ".tmp") content with
    | error e =>
      have h2 : (writeFileAtomic idx filePath content w).2 ≠ none := by
        unfold writeFileAtomic
        simp only [hw]
        simp
      exact absurd hs h2
    | ok fs1 =>
      cases hr : osRename fs1 (filePath ++ ".tmp") filePath with
      | error e =>
        have h2 : (writeFileAtomic idx filePath content w).2 ≠ none := by
          unfold writeFileAtomic
          simp only [hw, hr]
          simp
        exact absurd hs h2
      | ok fs2 =>
        have e1 : (writeFileAtomic idx filePath content w).1.fs = fs2 := by
          unfold writeFileAtomic
          simp only [hw, hr]
          rfl
        rw [e1]
        exact rename_onto_target (Node.get_put_self (osWriteFile_ok_inv hw).2) hr
  · intro e hw
    unfold writeFileAtomic
    simp only [hw]
    exact ⟨by simp, rfl⟩
  · intro fs1 e hw hr
    obtain ⟨hnd, hput⟩ := osWriteFile_ok_inv hw
    have hself := Node.get_put_self hput
    have hne : pathElems (filePath ++ ".tmp") ≠ [] := by
      obtain ⟨_, c, cs, _, h2, _⟩ := Node.put_inv hput
      rw [h2]
      exact List.cons_ne_nil c cs
    obtain ⟨fsd, hdel, hrm⟩ := osRemove_file hself hne
    have e1 : (writeFileAtomic idx filePath content w).1.fs = fsd := by
      unfold writeFileAtomic
      simp only [hw, hr, hrm]
      rfl
    have e2 : (writeFileAtomic idx filePath content w).2 ≠ none := by
      unfold writeFileAtomic
      simp only [hw, hr]
      simp
    rw [e1]
    obtain ⟨a, b, c, d⟩ := write_then_remove hnd hput hdel
    exact ⟨e2, c, d, a, b⟩

/-- C12 at the vault `/v` with the directory `a`: the write of `/v/index.md`
succeeds; the write of `/v/missing/x.md` fails at the temporary file, whose
directory does not exist; the write of `/v/a` fails at the rename, because
`/v/a` is a directory, and `/v/a.tmp` is removed again. -/
theorem C12_writeFileAtomic_leaves_no_partial_result_witness :
    (osReadFile (writeFileAtomic (NewIndexator "/v") "/v/index.md" "[[a/a.md]]\n" worldA).1.fs
        "/v/index.md" = some "[[a/a.md]]\n" ∧
      osExists (writeFileAtomic (NewIndexator "/v") "/v/index.md" "[[a/a.md]]\n" worldA).1.fs
        ("/v/index.md" ++ ".tmp") = false) ∧
    ((writeFileAtomic (NewIndexator "/v") "/v/missing/x.md" "x" worldA).2 ≠ none ∧
      (writeFileAtomic (NewIndexator "/v") "/v/missing/x.md" "x" worldA).1.fs = worldA.fs) ∧
    ((writeFileAtomic (NewIndexator "/v") "/v/a" "x" worldA).2 ≠ none ∧
      osReadFile (writeFileAtomic (NewIndexator "/v") "/v/a" "x" worldA).1.fs "/v/a"
        = osReadFile worldA.fs "/v/a" ∧
      osExists (writeFileAtomic (NewIndexator "/v") "/v/a" "x" worldA).1.fs "/v/a"
        = osExists worldA.fs "/v/a" ∧
      osExists (writeFileAtomic (NewIndexator "/v") "/v/a" "x" worldA).1.fs
        ("/v/a" ++ ".tmp") = false ∧
      ∀ q, ¬ q <+: pathElems ("/v/a" ++ ".tmp") →
        (writeFileAtomic (NewIndexator "/v") "/v/a" "x" worldA).1.fs.get q
          = worldA.fs.get q) :=
  ⟨(C12_writeFileAtomic_leaves_no_partial_result (NewIndexator "/v") "/v/index.md"
      "[[a/a.md]]\n" worldA).1 (by decide),
   (C12_writeFileAtomic_leaves_no_partial_result (NewIndexator "/v") "/v/missing/x.md"
      "x" worldA).2.1 .notExist rfl,
   (C12_writeFileAtomic_leaves_no_partial_result (NewIndexator "/v") "/v/a"
      "x" worldA).2.2
      (.dir [("v", .dir [("a", .dir [("f.md", .file "# Test content")]),
        ("a.tmp", .file "x")])])
      .isDir rfl rfl⟩

/-- C13 fails on the code: the vault `/v` holds the note `a/b/f.md`. The dry
run succeeds and reports one index file, `/v/a/b/b.md`. The normal run on the
same vault succeeds and creates two, `/v/a/b/b.md` and then `/v/a/a.md` with
the link to it: `a` is processed after `a/b`, and only in the normal run does
it find `a/b/b.md` on disk. -/
theorem C13_dry_run_misses_index_of_parent :
    (Start insertionSortLessFunc (NewIndexatorWithOptions "/v" true false []) worldNested).2
      = none ∧
    dryRunReported
      (Start insertionSortLessFunc (NewIndexatorWithOptions "/v" true false []) worldNested).1.log
      = ["/v/a/b/b.md"] ∧
    processingOrder insertionSortLessFunc (NewIndexatorWithOptions "/v" false false [])
      worldNested = ["a/b", ".", "a"] ∧
    (Start insertionSortLessFunc (NewIndexatorWithOptions "/v" false false []) worldNested).2
      = none ∧
    createdReported
      (Start insertionSortLessFunc (NewIndexatorWithOptions "/v" false false []) worldNested).1.log
      = ["/v/a/b/b.md", "/v/a/a.md"] ∧
    osExists worldNested.fs "/v/a/a.md" = false ∧
    osReadFile (Start insertionSortLessFunc (NewIndexatorWithOptions "/v" false false [])
      worldNested).1.fs "/v/a/b/b.md" = some "[[a/b/f.md]]\n" ∧
    osReadFile (Start insertionSortLessFunc (NewIndexatorWithOptions "/v" false false [])
      worldNested).1.fs "/v/a/a.md" = some "[[a/b/b.md]]\n" := by
  decide

theorem splitOn_noSep (sep : Char) (xs : List Char) :
    ∀ piece ∈ xs.splitOn sep, sep ∉ piece := by
  simp only [List.splitOn]
  induction xs with
  | nil => simp
  | cons x xs ih =>
    rw [List.splitOnP_cons]
    by_cases hx : (x == sep) = true
    · rw [if_pos hx]
      intro piece hp
      rcases List.mem_cons.1 hp with h | h
      · rw [h]; simp
      · exact ih piece h
    · rw [if_neg hx]
      cases hs : List.splitOnP (fun c => c == sep) xs with
      | nil => exact absurd hs (List.splitOnP_ne_nil _ _)
      | cons a as =>
        rw [hs] at ih
        intro piece hp
        simp only [List.modifyHead, List.mem_cons] at hp
        rcases hp with h | h
        · rw [h]
          intro hm
          rcases List.mem_cons.1 hm with h1 | h1
          · exact hx (by simp [h1])
          · exact ih a (List.mem_cons_self _ _) h1
        · exact ih piece (List.mem_cons_of_mem _ h)

theorem splitSep_noSep (p : String) : ∀ e ∈ splitSep p, Separator ∉ e.data := by
  intro e he
  simp only [splitSep, strSplit, List.mem_map] at he
  obtain ⟨piece, hp, rfl⟩ := he
  exact splitOn_noSep Separator p.data piece hp

/-- The elements a rooted path is cleaned to are valid names. -/
theorem cleanStep_rooted_valid (out : List String) (elem : String)
    (hout : ∀ n ∈ out, ValidName n) (he : Separator ∉ elem.data) :
    ∀ n ∈ cleanStep true out elem, ValidName n := by
  unfold cleanStep
  by_cases a : elem = "" ∨ elem = "."
  · rw [if_pos a]; exact hout
  · rw [if_neg a]
    by_cases b : elem = ".."
    · rw [if_pos b]
      cases out with
      | nil => simp
      | cons top below =>
        simp only
        have htop : top ≠ ".." := (hout top (List.mem_cons_self _ _)).2.2.1
        rw [if_neg htop]
        intro n hn
        exact hout n (List.mem_cons_of_mem _ hn)
    · rw [if_neg b]
      intro n hn
      rcases List.mem_cons.1 hn with h | h
      · rw [h]
        exact ⟨fun h0 => a (Or.inl h0), fun h0 => a (Or.inr h0), b, he⟩
      · exact hout n h

theorem foldl_cleanStep_rooted_valid (elems : List String)
    (he : ∀ e ∈ elems, Separator ∉ e.data) :
    ∀ out, (∀ n ∈ out, ValidName n) →
      ∀ n ∈ elems.foldl (cleanStep true) out, ValidName n := by
  induction elems with
  | nil => intro out hout; exact hout
  | cons e es ih =>
    intro out hout
    rw [List.foldl_cons]
    exact ih (fun x hx => he x (List.mem_cons_of_mem _ hx)) _
      (cleanStep_rooted_valid out e hout (he e (List.mem_cons_self _ _)))

theorem pathElems_valid (p : String) : ∀ n ∈ pathElems p, ValidName n := by
  intro n hn
  unfold pathElems cleanElems at hn
  rw [List.mem_reverse] at hn
  exact foldl_cleanStep_rooted_valid _ (splitSep_noSep p) [] (by simp) n hn

/-- A clean absolute path is the path of its elements, which are valid names. -/
theorem clean_abs_eq (v : String) (hclean : Clean v = v) (habs : IsAbs v = true) :
    v = absPath (pathElems v) := by
  have h := Clean_rooted v habs
  rw [hclean] at h
  exact h

theorem vaultAt_of_clean_abs (idx : Indexator) (hclean : Clean idx.vaultPath = idx.vaultPath)
    (habs : IsAbs idx.vaultPath = true) : VaultAt idx (pathElems idx.vaultPath) :=
  ⟨clean_abs_eq _ hclean habs, pathElems_valid _⟩

/-- The elements a relative path is cleaned to: valid names, the last one
first, on top of a run of `..`. -/
theorem cleanStep_relative_form (out : List String) (elem : String)
    (hout : ∃ k names, out = names ++ List.replicate k ".." ∧ ∀ n ∈ names, ValidName n)
    (he : Separator ∉ elem.data) :
    ∃ k names, cleanStep false out elem = names ++ List.replicate k ".." ∧
      ∀ n ∈ names, ValidName n := by
  obtain ⟨k, names, ho, hn⟩ := hout
  unfold cleanStep
  by_cases a : elem = "" ∨ elem = "."
  · rw [if_pos a]; exact ⟨k, names, ho, hn⟩
  · rw [if_neg a]
    by_cases b : elem = ".."
    · rw [if_pos b]
      cases names with
      | nil =>
        rw [List.nil_append] at ho
        cases k with
        | zero =>
          rw [ho]
          exact ⟨1, [], by simp [b], by simp⟩
        | succ k =>
          rw [ho, List.replicate_succ]
          simp only [if_true]
          exact ⟨k + 2, [], by simp [b, List.replicate_succ], by simp⟩
      | cons top below =>
        rw [ho, List.cons_append]
        simp only
        have htop : top ≠ ".." := (hn top (List.mem_cons_self _ _)).2.2.1
        rw [if_neg htop]
        exact ⟨k, below, rfl, fun n h => hn n (List.mem_cons_of_mem _ h)⟩
    · rw [if_neg b]
      refine ⟨k, elem :: names, by rw [ho, List.cons_append], ?_⟩
      intro n h
      rcases List.mem_cons.1 h with h1 | h1
      · rw [h1]
        exact ⟨fun h0 => a (Or.inl h0), fun h0 => a (Or.inr h0), b, he⟩
      · exact hn n h1

theorem foldl_cleanStep_relative_form (elems : List String)
    (he : ∀ e ∈ elems, Separator ∉ e.data) :
    ∀ out, (∃ k names, out = names ++ List.replicate k ".." ∧ ∀ n ∈ names, ValidName n) →
      ∃ k names, elems.foldl (cleanStep false) out = names ++ List.replicate k ".." ∧
        ∀ n ∈ names, ValidName n := by
  induction elems with
  | nil => intro out hout; exact hout
  | cons e es ih =>
    intro out hout
    rw [List.foldl_cons]
    exact ih (fun x hx => he x (List.mem_cons_of_mem _ hx)) _
      (cleanStep_relative_form out e hout (he e (List.mem_cons_self _ _)))

theorem cleanElems_relative_form (p : String) :
    ∃ k names, cleanElems false p = List.replicate k ".." ++ names ∧
      ∀ n ∈ names, ValidName n := by
  obtain ⟨k, names, h, hn⟩ :=
    foldl_cleanStep_relative_form (splitSep p) (splitSep_noSep p) [] ⟨0, [], rfl, by simp⟩
  refine ⟨k, names.reverse, ?_, fun n h2 => hn n (List.mem_reverse.1 h2)⟩
  unfold cleanElems
  rw [h, List.reverse_append, List.reverse_replicate]

/-- A clean relative path that does not begin with `..` is `.` or valid names
joined by separators. -/
theorem clean_rel_eq (r : String) (hclean : Clean r = r) (hrel : IsAbs r = false)
    (hup : strHasPrefix r ".." = false) :
    ∃ cs, (∀ n ∈ cs, ValidName n) ∧ r = relPath cs := by
  obtain ⟨k, names, h, hn⟩ := cleanElems_relative_form r
  have hrel2 : strHasPrefix r "/" = false := hrel
  unfold Clean at hclean
  simp only [hrel2, Bool.false_eq_true, if_false, h] at hclean
  have he : ("" : String) ++ joinSep (List.replicate k ".." ++ names)
      = joinSep (List.replicate k ".." ++ names) := by
    apply String.ext; simp
  rw [he] at hclean
  by_cases h0 : joinSep (List.replicate k ".." ++ names) = ""
  · rw [if_pos h0] at hclean
    exact ⟨[], by simp, by rw [← hclean]; rfl⟩
  · rw [if_neg h0] at hclean
    cases k with
    | zero =>
      rw [List.replicate_zero, List.nil_append] at hclean h0
      have hne : names ≠ [] := by
        intro h1; rw [h1] at h0; exact h0 rfl
      exact ⟨names, hn, by rw [relPath_of_ne_nil _ hne]; exact hclean.symm⟩
    | succ k =>
      exfalso
      rw [List.replicate_succ, List.cons_append] at hclean
      obtain ⟨rest, hr⟩ := joinSep_cons_data ".." (List.replicate k ".." ++ names)
      have : strHasPrefix r ".." = true := by
        unfold strHasPrefix
        rw [← hclean, hr]
        have : ("..").data = ['.', '.'] := rfl
        rw [this]
        simp [List.isPrefixOf]
      rw [this] at hup
      cases hup

theorem dropCommon_spec (bs : List String) :
    ∀ ts, ∃ common, bs = common ++ (dropCommon bs ts).1 ∧ ts = common ++ (dropCommon bs ts).2 ∧
      ∀ b t, (dropCommon bs ts).1.head? = some b → (dropCommon bs ts).2.head? = some t →
        b ≠ t := by
  induction bs with
  | nil =>
    intro ts
    refine ⟨[], ?_, ?_, ?_⟩ <;> cases ts <;> simp [dropCommon]
  | cons b bs ih =>
    intro ts
    cases ts with
    | nil => exact ⟨[], by simp [dropCommon], by simp [dropCommon], by simp [dropCommon]⟩
    | cons t ts =>
      by_cases h : b = t
      · obtain ⟨common, h1, h2, h3⟩ := ih ts
        refine ⟨b :: common, ?_, ?_, ?_⟩
        · simp only [dropCommon, if_pos h, List.cons_append]
          rw [← h1]
        · simp only [dropCommon, if_pos h, List.cons_append]
          rw [← h2, h]
        · simp only [dropCommon, if_pos h]
          exact h3
      · refine ⟨[], by simp [dropCommon, h], by simp [dropCommon, h], ?_⟩
        simp only [dropCommon, if_neg h, List.head?_cons, Option.some.injEq]
        intro b2 t2 hb ht
        rw [← hb, ← ht]
        exact h

theorem absPath_ne_dot (vs : List String) : absPath vs ≠ "." := by
  intro h
  have := congrArg String.data h
  rw [absPath_data] at this
  exact absurd this (by simp)

theorem Rel_self (vs : List String) (hv : ∀ n ∈ vs, ValidName n) :
    Rel (absPath vs) (absPath vs) = some "." := by
  simp only [Rel, Clean_absPath vs hv, if_true]

/-- `filepath.Rel` from a clean absolute base to an absolute target that is
neither the base nor below it: one `..` for every element of the base that
the target does not share, then the rest of the target. -/
theorem Rel_outside (vs : List String) (a : String) (hv : ∀ n ∈ vs, ValidName n)
    (habs : IsAbs a = true) (hout : ¬ vs <+: pathElems a) :
    ∃ common up rest, vs = common ++ up ∧ pathElems a = common ++ rest ∧ up ≠ [] ∧
      (∀ b t, up.head? = some b → rest.head? = some t → b ≠ t) ∧
      Rel (absPath vs) a = some (joinSep (up.map (fun _ => "..") ++ rest)) := by
  have ht := pathElems_valid a
  obtain ⟨common, h1, h2, h3⟩ := dropCommon_spec vs (pathElems a)
  have hca : Clean a = absPath (pathElems a) := Clean_rooted a habs
  have hne : absPath (pathElems a) ≠ absPath vs := by
    intro h
    have := absPath_injective _ _ ht hv h
    exact hout (this ▸ List.prefix_refl _)
  have hup : (dropCommon vs (pathElems a)).1 ≠ [] := by
    intro h0
    rw [h0, List.append_nil] at h1
    exact hout ⟨(dropCommon vs (pathElems a)).2,
      (congrArg (fun l => l ++ (dropCommon vs (pathElems a)).2) h1).trans h2.symm⟩
  refine ⟨common, _, _, h1, h2, hup, h3, ?_⟩
  simp only [Rel, Clean_absPath vs hv, hca, if_neg hne, if_neg (absPath_ne_dot vs),
    strHasPrefix_absPath, relElems_absPath vs hv, relElems_absPath _ ht]
  have hmem : ∀ b ∈ (dropCommon vs (pathElems a)).1, ValidName b := by
    intro b hb
    exact hv b (by rw [h1]; exact List.mem_append_right _ hb)
  generalize dropCommon vs (pathElems a) = d at hup hmem
  obtain ⟨up, rest⟩ := d
  cases up with
  | nil => exact absurd rfl hup
  | cons b bs =>
    have hb : b ≠ ".." := (hmem b (List.mem_cons_self _ _)).2.2.1
    cases rest with
    | nil => simp
    | cons t ts => simp [hb]

theorem joinSep_dotdot_slash (b : String) (l : List String) :
    strHasPrefix (joinSep (".." :: b :: l)) "../" = true := by
  unfold strHasPrefix
  rw [joinSep_cons_cons]
  have h1 : ("..").data = ['.', '.'] := rfl
  have h2 : ("../").data = ['.', '.', '/'] := rfl
  rw [h1, h2]
  simp [List.isPrefixOf]

theorem joinSep_dotdot_not_abs (l : List String) : IsAbs (joinSep (".." :: l)) = false := by
  obtain ⟨r, hr⟩ := joinSep_cons_data ".." l
  cases h : IsAbs (joinSep (".." :: l)) with
  | false => rfl
  | true =>
    have h2 := (strHasPrefix_slash _).1 h
    rw [hr] at h2
    have h1 : ("..").data = ['.', '.'] := rfl
    rw [h1] at h2
    simp at h2

theorem getRelativePath_join (idx : Indexator) (vs cs : List String) (hi : VaultAt idx vs)
    (hcs : ∀ n ∈ cs, ValidName n) :
    getRelativePath idx (Join idx.vaultPath (relPath cs)) = relPath cs := by
  rw [hi.1, Join_absPath_relPath _ _ hi.2 hcs]
  by_cases hne : cs = []
  · subst hne
    rw [List.append_nil]
    unfold getRelativePath
    rw [hi.1, Rel_self _ hi.2]
    rfl
  · exact getRelativePath_absPath idx _ cs hi.1 hi.2 hcs hne

theorem getRelativePath_outside (idx : Indexator) (vs : List String) (a : String)
    (hi : VaultAt idx vs) (habs : IsAbs a = true) (hout : ¬ vs <+: pathElems a) :
    ∃ common up rest, vs = common ++ up ∧ pathElems a = common ++ rest ∧ up ≠ [] ∧
      (∀ b t, up.head? = some b → rest.head? = some t → b ≠ t) ∧
      getRelativePath idx a = joinSep (up.map (fun _ => "..") ++ rest) := by
  obtain ⟨common, up, rest, h1, h2, h3, h4, h5⟩ := Rel_outside vs a hi.2 habs hout
  refine ⟨common, up, rest, h1, h2, h3, h4, ?_⟩
  unfold getRelativePath
  rw [hi.1, h5]

/-- C14, as stated, fails in its second half: for the vault `/test/vault`, the
absolute path `/test` lies outside the vault; `getRelativePath` returns `..`,
which is a relative path, but not one that begins with `../`. -/
theorem C14_parent_of_vault_gives_dotdot :
    Clean "/test/vault" = "/test/vault" ∧ IsAbs "/test/vault" = true ∧
    IsAbs "/test" = true ∧ Clean "/test" = "/test" ∧
    ¬ pathElems "/test/vault" <+: pathElems "/test" ∧
    getRelativePath (NewIndexator "/test/vault") "/test" = ".." ∧
    strHasPrefix (getRelativePath (NewIndexator "/test/vault") "/test") "../" = false := by
  decide

/-- C14, amended: let the vault path be clean and absolute. For every clean
relative path `r` that does not begin with `..`, `getRelativePath` of
`filepath.Join(vaultPath, r)` is `r`. For every absolute path `a` that is
neither the vault nor below it, `getRelativePath` returns a relative path, not
`a`: with `common` the leading elements the vault path and `a` share, `up` the
other elements of the vault path (there is one at least) and `rest` the other
elements of `a`, it is one `..` for every element of `up`, then `rest`, joined
by `/`. That is the path `..` when `a` is the directory that holds the vault,
and a path that begins with `../` in every other case. -/
theorem C14_getRelativePath_inside_and_outside (idx : Indexator)
    (hclean : Clean idx.vaultPath = idx.vaultPath) (habs : IsAbs idx.vaultPath = true) :
    (∀ r, Clean r = r → IsAbs r = false → strHasPrefix r ".." = false →
      getRelativePath idx (Join idx.vaultPath r) = r) ∧
    (∀ a, IsAbs a = true → ¬ pathElems idx.vaultPath <+: pathElems a →
      ∃ common up rest, pathElems idx.vaultPath = common ++ up ∧
        pathElems a = common ++ rest ∧ up ≠ [] ∧
        (∀ b t, up.head? = some b → rest.head? = some t → b ≠ t) ∧
        getRelativePath idx a = joinSep (up.map (fun _ => "..") ++ rest) ∧
        IsAbs (getRelativePath idx a) = false ∧
        (up.length = 1 ∧ rest = [] → getRelativePath idx a = "..") ∧
        (¬ (up.length = 1 ∧ rest = []) →
          strHasPrefix (getRelativePath idx a) "../" = true)) := by
  have hi := vaultAt_of_clean_abs idx hclean habs
  refine ⟨?_, ?_⟩
  · intro r hr hrel hup
    obtain ⟨cs, hcs, rfl⟩ := clean_rel_eq r hr hrel hup
    exact getRelativePath_join idx _ cs hi hcs
  · intro a ha hout
    obtain ⟨common, up, rest, h1, h2, h3, h4, hg⟩ :=
      getRelativePath_outside idx _ a hi ha hout
    refine ⟨common, up, rest, h1, h2, h3, h4, hg, ?_⟩
    rw [hg]
    cases up with
    | nil => exact absurd rfl h3
    | cons b bs =>
      rw [List.map_cons, List.cons_append]
      refine ⟨joinSep_dotdot_not_abs _, ?_, ?_⟩
      · rintro ⟨hl, hrest⟩
        have hbs : bs = [] := by
          cases bs with
          | nil => rfl
          | cons x xs => simp at hl
        rw [hbs, hrest]
        rfl
      · intro hnot
        cases hm : List.map (fun _ => "..") bs ++ rest with
        | nil =>
          exfalso
          obtain ⟨e1, e2⟩ := List.append_eq_nil.1 hm
          apply hnot
          have hbs : bs = [] := by
            cases bs with
            | nil => rfl
            | cons x xs => simp at e1
          exact ⟨by rw [hbs]; rfl, e2⟩
        | cons x xs => exact joinSep_dotdot_slash x xs

/-- C14, amended, at the vault `/test/vault`: the relative path
`my notes/important file.md` comes back as it is, and the absolute path
`/completely/different/path/file.md` outside the vault gives
`../../completely/different/path/file.md`. -/
theorem C14_getRelativePath_inside_and_outside_witness :
    getRelativePath (NewIndexator "/test/vault")
      (Join "/test/vault" "my notes/important file.md") = "my notes/important file.md" ∧
    getRelativePath (NewIndexator "/test/vault") "/completely/different/path/file.md"
      = "../../completely/different/path/file.md" ∧
    strHasPrefix (getRelativePath (NewIndexator "/test/vault")
      "/completely/different/path/file.md") "../" = true :=
  ⟨(C14_getRelativePath_inside_and_outside (NewIndexator "/test/vault")
      (by decide) (by decide)).1 "my notes/important file.md"
      (by decide) (by decide) (by decide),
   by decide,
   by
    obtain ⟨_, up, rest, _, _, _, _, _, _, _, h⟩ :=
      (C14_getRelativePath_inside_and_outside (NewIndexator "/test/vault")
        (by decide) (by decide)).2 "/completely/different/path/file.md"
        (by decide) (by decide)
    by_cases hc : up.length = 1 ∧ rest = []
    · decide
    · exact h hc⟩

/-- The index path of a directory is the temporary path of no index file. -/
theorem index_ne_tmp (vs cs cs2 : List String) :
    vs ++ cs ++ [indexName cs] ≠ vs ++ cs2 ++ [indexName cs2 ++ ".tmp"] := by
  intro heq
  obtain ⟨h1, h2⟩ := snoc_inj vs heq
  subst h1
  exact indexName_tmp_ne cs h2

/-- What a run keeps and what it adds. After `Start`, whatever the flags and
whether or not it returns an error: a path that existed before and is the
temporary path of no index file still exists; a regular file that existed
before is still there with its content, unless it lay at the temporary path
of an index file that did not exist before and was written in this run, and
then the path does not exist; and a path that did not exist before and does
now is the index path of a directory and holds a regular file. -/
theorem Start_keeps_and_adds
    (sortSlice : (String → String → Bool) → List String → List String)
    (hsort : ∀ less l x, x ∈ sortSlice less l → x ∈ l)
    (idx : Indexator) (w : World) (vs : List String) (hi : VaultAt idx vs)
    (hwf : w.fs.wf = true) :
    (∀ Q, (w.fs.get Q).isSome = true → (∀ cs, Q ≠ vs ++ cs ++ [indexName cs ++ ".tmp"]) →
      ((Start sortSlice idx w).1.fs.get Q).isSome = true) ∧
    (∀ P c, w.fs.get P = some (.file c) →
      (Start sortSlice idx w).1.fs.get P = some (.file c) ∨
      ∃ cs, P = vs ++ cs ++ [indexName cs ++ ".tmp"] ∧
        w.fs.get (vs ++ cs ++ [indexName cs]) = none ∧
        (∃ c2, (Start sortSlice idx w).1.fs.get (vs ++ cs ++ [indexName cs])
          = some (.file c2)) ∧
        (Start sortSlice idx w).1.fs.get P = none) ∧
    (∀ Q, w.fs.get Q = none → (Start sortSlice idx w).1.fs.get Q ≠ none →
      ∃ cs c, Q = vs ++ cs ++ [indexName cs] ∧ (∀ n ∈ cs, ValidName n) ∧
        (Start sortSlice idx w).1.fs.get Q = some (.file c)) := by
  refine (Start_invariant sortSlice hsort idx w vs hi
    (fun cur =>
      (∀ Q, (w.fs.get Q).isSome = true → (∀ cs, Q ≠ vs ++ cs ++ [indexName cs ++ ".tmp"]) →
        (cur.get Q).isSome = true) ∧
      (∀ P c, w.fs.get P = some (.file c) →
        cur.get P = some (.file c) ∨
        ∃ cs, P = vs ++ cs ++ [indexName cs ++ ".tmp"] ∧
          w.fs.get (vs ++ cs ++ [indexName cs]) = none ∧
          (∃ c2, cur.get (vs ++ cs ++ [indexName cs]) = some (.file c2)) ∧
          cur.get P = none) ∧
      (∀ Q, w.fs.get Q = none → cur.get Q ≠ none →
        ∃ cs c, Q = vs ++ cs ++ [indexName cs] ∧ (∀ n ∈ cs, ValidName n) ∧
          cur.get Q = some (.file c)))
    hwf ⟨fun Q h _ => h, fun P c h => Or.inl h, fun Q h1 h2 => absurd h1 h2⟩ ?_).2
  intro cs fs fs3 hv _ _ ⟨h0, h1, h2⟩ hstep
  have hstep2 := hstep
  obtain ⟨es, hg, _, hT, htmp, _, hw⟩ := hstep2
  refine ⟨fun Q hQ hne => hstep.keeps_some (h0 Q hQ hne) (hne cs), ?_, ?_⟩
  · intro P c hP
    rcases h1 P c hP with hc | ⟨cs0, e1, e2, ⟨c2, e3⟩, e4⟩
    · by_cases hPt : P = vs ++ cs ++ [indexName cs ++ ".tmp"]
      · right
        refine ⟨cs, hPt, ?_, ⟨_, hw.get_target⟩, by rw [hPt]; exact hw.get_tmp hT htmp⟩
        cases h3 : w.fs.get (vs ++ cs ++ [indexName cs]) with
        | none => rfl
        | some n =>
          have := h0 (vs ++ cs ++ [indexName cs]) (by rw [h3]; rfl)
            (fun cs2 => index_ne_tmp vs cs cs2)
          rw [hT] at this
          cases this
      · exact Or.inl (hstep.keeps_file hc hPt)
    · right
      refine ⟨cs0, e1, e2, ⟨c2, hstep.keeps_file e3 (index_ne_tmp vs cs0 cs)⟩, ?_⟩
      refine hstep.keeps_none e4 ?_
      rw [e1]
      exact fun h => index_ne_tmp vs cs cs0 h.symm
  · intro Q hQ hQ3
    by_cases hQi : Q = vs ++ cs ++ [indexName cs]
    · exact ⟨cs, _, hQi, hv, by rw [hQi]; exact hw.get_target⟩
    · have hfsQ : fs.get Q ≠ none := fun h => hQ3 (hstep.keeps_none h hQi)
      obtain ⟨cs0, c, e1, e2, e3⟩ := h2 Q hQ hfsQ
      refine ⟨cs0, c, e1, e2, hstep.keeps_file e3 ?_⟩
      rw [e1]
      exact index_ne_tmp vs cs0 cs

theorem osExists_false_iff (fs : Node) (name : String) :
    osExists fs name = false ↔ fs.get (pathElems name) = none := by
  unfold osExists
  cases fs.get (pathElems name) <;> simp

theorem osReadFile_some_iff (fs : Node) (name c : String) :
    osReadFile fs name = some c ↔ fs.get (pathElems name) = some (.file c) := by
  unfold osReadFile
  cases h : fs.get (pathElems name) with
  | none => simp
  | some n =>
    cases n with
    | file c0 => simp
    | dir es => simp

/-- C15, as stated, fails: in the vault `/v` the directory `notes` holds the
note `page.md` and the file `notes.md.tmp`. The normal run, backup off,
succeeds and writes `/v/notes/notes.md` through `/v/notes/notes.md.tmp`: the
file that lay there before the run does not exist after it. -/
theorem C15_file_at_temporary_path_is_lost :
    osReadFile worldDraft.fs "/v/notes/notes.md.tmp" = some "draft" ∧
    (Start insertionSortLessFunc (NewIndexatorWithOptions "/v" false false [])
      worldDraft).2 = none ∧
    osExists (Start insertionSortLessFunc (NewIndexatorWithOptions "/v" false false [])
      worldDraft).1.fs "/v/notes/notes.md.tmp" = false ∧
    osReadFile (Start insertionSortLessFunc (NewIndexatorWithOptions "/v" false false [])
      worldDraft).1.fs "/v/notes/notes.md"
      = some "[[notes/notes.md.tmp]]\n[[notes/page.md]]\n" := by
  decide

/-- C15, amended: in a well-formed tree with the vault at a clean path, take a
normal run (no dry run, backup off) that returns no error. A regular file that
existed before the run is read with the same content at the same path after
it, with one exception, a file at the temporary path `<index>.tmp` of a
directory whose index file did not exist before the run and exists after it;
such a file does not exist after the run. And the run only adds index files:
a path that did not exist before the run and exists after it is the index
path of a directory of the vault and holds a regular file. -/
theorem C15_run_keeps_files_and_adds_index_files
    (sortSlice : (String → String → Bool) → List String → List String)
    (hsort : ∀ less l x, x ∈ sortSlice less l → x ∈ l)
    (idx : Indexator) (w : World) (vs : List String) (hi : VaultAt idx vs)
    (hwf : w.fs.wf = true) (hdry : idx.dryRun = false) (hbackup : idx.backup = false)
    (hsucc : (Start sortSlice idx w).2 = none) :
    (∀ name c, osReadFile w.fs name = some c →
      osReadFile (Start sortSlice idx w).1.fs name = some c ∨
      ∃ cs, pathElems name = vs ++ cs ++ [indexName cs ++ ".tmp"] ∧
        osExists w.fs (absPath (vs ++ cs ++ [indexName cs])) = false ∧
        osExists (Start sortSlice idx w).1.fs (absPath (vs ++ cs ++ [indexName cs])) = true ∧
        osExists (Start sortSlice idx w).1.fs name = false) ∧
    (∀ name, osExists w.fs name = false → osExists (Start sortSlice idx w).1.fs name = true →
      ∃ cs c, pathElems name = vs ++ cs ++ [indexName cs] ∧
        osReadFile (Start sortSlice idx w).1.fs name = some c) := by
  have _ := hdry
  have _ := hbackup
  have _ := hsucc
  obtain ⟨_, h1, h2⟩ := Start_keeps_and_adds sortSlice hsort idx w vs hi hwf
  refine ⟨?_, ?_⟩
  · intro name c hc
    rw [osReadFile_some_iff] at hc ⊢
    rcases h1 _ c hc with h | ⟨cs, e1, e2, ⟨c2, e3⟩, e4⟩
    · exact Or.inl h
    · right
      have hcs : ∀ n ∈ cs, ValidName n := by
        intro n hn
        have := pathElems_valid name n
        rw [e1] at this
        exact this (by simp [hn])
      have hP := valid_snoc (valid_append hi.2 hcs) (validName_indexName cs hcs)
      refine ⟨cs, e1, ?_, ?_, ?_⟩
      · rw [osExists_absPath _ _ hP, e2]; rfl
      · rw [osExists_absPath _ _ hP, e3]; rfl
      · rw [osExists_false_iff]; exact e4
  · intro name h0 h3
    rw [osExists_false_iff] at h0
    have h4 : (Start sortSlice idx w).1.fs.get (pathElems name) ≠ none := by
      intro h
      rw [(osExists_false_iff _ _).2 h] at h3
      cases h3
    obtain ⟨cs, c, e1, _, e3⟩ := h2 _ h0 h4
    exact ⟨cs, c, e1, (osReadFile_some_iff _ _ _).2 e3⟩

/-- C15, amended, at the vault `/v` with the note `a/f.md`, for the normal run
with backup off, which returns no error: the note keeps its content, and the
one path the run adds, `/v/a/a.md`, is an index path. -/
theorem C15_run_keeps_files_and_adds_index_files_witness :
    (osReadFile (Start insertionSortLessFunc (NewIndexator "/v") worldA).1.fs "/v/a/f.md"
        = some "# Test content" ∨
      ∃ cs, pathElems "/v/a/f.md" = ["v"] ++ cs ++ [indexName cs ++ ".tmp"] ∧
        osExists worldA.fs (absPath (["v"] ++ cs ++ [indexName cs])) = false ∧
        osExists (Start insertionSortLessFunc (NewIndexator "/v") worldA).1.fs
          (absPath (["v"] ++ cs ++ [indexName cs])) = true ∧
        osExists (Start insertionSortLessFunc (NewIndexator "/v") worldA).1.fs "/v/a/f.md"
          = false) ∧
    ∃ cs c, pathElems "/v/a/a.md" = ["v"] ++ cs ++ [indexName cs] ∧
      osReadFile (Start insertionSortLessFunc (NewIndexator "/v") worldA).1.fs "/v/a/a.md"
        = some c :=
  ⟨(C15_run_keeps_files_and_adds_index_files insertionSortLessFunc mem_insertionSortLessFunc
      (NewIndexator "/v") worldA ["v"] ⟨by decide, by decide⟩ (by decide) rfl rfl
      (by decide)).1 "/v/a/f.md" "# Test content" (by decide),
   (C15_run_keeps_files_and_adds_index_files insertionSortLessFunc mem_insertionSortLessFunc
      (NewIndexator "/v") worldA ["v"] ⟨by decide, by decide⟩ (by decide) rfl rfl
      (by decide)).2 "/v/a/a.md" (by decide) (by decide)⟩

theorem strHasPrefix_slash_append (a s : String) (h : strHasPrefix a "/" = true) :
    strHasPrefix (a ++ s) "/" = true := by
  rw [strHasPrefix_slash] at h ⊢
  rw [String.data_append]
  cases hd : a.data with
  | nil => rw [hd] at h; cases h
  | cons c cs => rw [hd] at h; simpa using h

theorem Clean_idem_rooted (p : String) (h : strHasPrefix p "/" = true) :
    Clean (Clean p) = Clean p ∧ IsAbs (Clean p) = true := by
  rw [Clean_rooted p h]
  exact ⟨Clean_absPath _ (pathElems_valid p), strHasPrefix_absPath _⟩

/-- What `filepath.Abs` returns is clean and absolute. -/
theorem Abs_clean_abs (wd path : String) (hwd : IsAbs wd = true) :
    Clean (Abs wd path) = Abs wd path ∧ IsAbs (Abs wd path) = true := by
  unfold Abs
  by_cases hp : IsAbs path = true
  · rw [if_pos hp]
    exact Clean_idem_rooted path hp
  · rw [if_neg hp]
    have hne : wd ≠ "" := by
      intro h; rw [h] at hwd; exact absurd hwd (by decide)
    unfold Join
    rw [if_pos hne]
    refine Clean_idem_rooted _ ?_
    rw [String.append_assoc]
    exact strHasPrefix_slash_append wd _ hwd

/-- The vault path `runInit` hands to the configuration is clean and
absolute, whatever the flag `--dir` holds. -/
theorem runInitConfig_clean_abs (wd vaultDir : String) (verbose dryRun backup : Bool)
    (excludeDirs : List String) (hwd : IsAbs wd = true) :
    Clean (initIndexator (runInitConfig wd vaultDir verbose dryRun backup excludeDirs)).vaultPath
      = (initIndexator (runInitConfig wd vaultDir verbose dryRun backup excludeDirs)).vaultPath ∧
    IsAbs (initIndexator (runInitConfig wd vaultDir verbose dryRun backup excludeDirs)).vaultPath
      = true :=
  Abs_clean_abs wd _ hwd

/-- The index file of the directory `cs` of the vault `vs`, in `isIndexFile`,
`indexDirectory` and `createIndexFile`. -/
theorem index_file_of_directory (idx : Indexator) (w : World) (vs cs : List String)
    (es : List (String × Node)) (hi : VaultAt idx vs) (hwf : w.fs.wf = true)
    (hc : ∀ c ∈ cs, ValidName c) (hg : w.fs.get (vs ++ cs) = some (.dir es)) :
    Join idx.vaultPath (relPath cs) = absPath (vs ++ cs) ∧
    (∀ n, ValidName n →
      (isIndexFile idx (Join (Join idx.vaultPath (relPath cs)) n)
        (Join idx.vaultPath (relPath cs)) = true ↔ n = indexName cs)) ∧
    (osExists w.fs (absPath (vs ++ cs ++ [indexName cs])) = true →
      indexDirectory idx (relPath cs) w = (w, none)) ∧
    (osExists w.fs (absPath (vs ++ cs ++ [indexName cs])) = false → idx.dryRun = false →
      (∀ es2, w.fs.get (vs ++ cs ++ [indexName cs ++ ".tmp"]) ≠ some (.dir es2)) →
      (dirLinks w.fs vs cs es ≠ [] →
        (indexDirectory idx (relPath cs) w).2 = none ∧
        osReadFile (indexDirectory idx (relPath cs) w).1.fs
          (absPath (vs ++ cs ++ [indexName cs]))
          = some (indexContent (dirLinks w.fs vs cs es)) ∧
        ∀ q, ¬ q <+: vs ++ cs ++ [indexName cs] →
          ¬ q <+: vs ++ cs ++ [indexName cs ++ ".tmp"] →
          (indexDirectory idx (relPath cs) w).1.fs.get q = w.fs.get q) ∧
      ∀ links,
        (createIndexFile idx (Join idx.vaultPath (relPath cs)) links w).2 = none ∧
        osReadFile (createIndexFile idx (Join idx.vaultPath (relPath cs)) links w).1.fs
          (absPath (vs ++ cs ++ [indexName cs])) = some (indexContent links) ∧
        ∀ q, ¬ q <+: vs ++ cs ++ [indexName cs] →
          ¬ q <+: vs ++ cs ++ [indexName cs ++ ".tmp"] →
          (createIndexFile idx (Join idx.vaultPath (relPath cs)) links w).1.fs.get q
            = w.fs.get q) := by
  have hD := valid_append hi.2 hc
  have hx := validName_indexName cs hc
  have hP := valid_snoc hD hx
  have hj : Join idx.vaultPath (relPath cs) = absPath (vs ++ cs) := by
    rw [hi.1]; exact Join_absPath_relPath vs cs hi.2 hc
  rw [hj, osExists_absPath _ _ hP]
  refine ⟨rfl, ?_, ?_, ?_⟩
  · intro n hn
    rw [Join_absPath_name _ n hD hn, isIndexFile_abs idx vs cs n hi hc hn]
    simp
  · intro hex
    rw [indexDirectory_dir idx w vs cs es hi hc hwf hg]
    by_cases hl : (dirLinks w.fs vs cs es).length = 0
    · rw [if_pos hl]
    · rw [if_neg hl, if_pos hex]
  · intro hT hdry htmp
    have hT2 : w.fs.get (vs ++ cs ++ [indexName cs]) = none := by
      cases h : w.fs.get (vs ++ cs ++ [indexName cs]) with
      | none => rfl
      | some n => rw [h] at hT; simp at hT
    have hwrite : ∀ links,
        (createIndexFile idx (absPath (vs ++ cs)) links w).2 = none ∧
        osReadFile (createIndexFile idx (absPath (vs ++ cs)) links w).1.fs
          (absPath (vs ++ cs ++ [indexName cs])) = some (indexContent links) ∧
        ∀ q, ¬ q <+: vs ++ cs ++ [indexName cs] →
          ¬ q <+: vs ++ cs ++ [indexName cs ++ ".tmp"] →
          (createIndexFile idx (absPath (vs ++ cs)) links w).1.fs.get q = w.fs.get q := by
      intro links
      obtain ⟨hw, herr⟩ := createIndexFile_write idx w vs cs links es hi hc hdry hg hT2 htmp
      refine ⟨herr, ?_, fun q h1 h2 => hw.frame hT2 htmp q h1 h2⟩
      rw [osReadFile_absPath _ _ _ hP, hw.get_target]
    refine ⟨?_, hwrite⟩
    intro hlinks
    have hlen : ¬ (dirLinks w.fs vs cs es).length = 0 := by
      intro h; exact hlinks (List.length_eq_zero.1 h)
    have hstep : indexDirectory idx (relPath cs) w
        = createIndexFile idx (absPath (vs ++ cs)) (dirLinks w.fs vs cs es) w := by
      rw [indexDirectory_dir idx w vs cs es hi hc hwf hg, if_neg hlen, hT2]
      simp
    rw [hstep]
    exact hwrite _

/-- C5: let the vault path be clean and absolute, as `runInit` hands it to the
configuration (the result of `filepath.Abs`), in a well-formed tree. The index
file of a directory is named by `indexName`: `index.md` for the vault root,
`b.md` for every other directory, `b` its base name. For every directory `cs`
of the vault, the root (`cs` empty) among them, with `X` that name: the
directory is processed under its clean path; `isIndexFile` treats exactly the
entry `X` of the directory as its own index; `indexDirectory` checks the path
`X` inside the directory for existence and changes nothing if it exists; and
if it does not exist (outside a dry run, the temporary path being free), then
`indexDirectory`, when the directory has links, and `createIndexFile`, for any
links, write the file `X` inside the directory with the links as content and
nothing else besides the temporary path. -/
theorem C5_index_file_names (idx : Indexator) (w : World)
    (hclean : Clean idx.vaultPath = idx.vaultPath) (habs : IsAbs idx.vaultPath = true)
    (hwf : w.fs.wf = true) :
    indexName [] = "index.md" ∧ (∀ q b, indexName (q ++ [b]) = b ++ ".md") ∧
    ∀ cs es, (∀ c ∈ cs, ValidName c) →
      w.fs.get (pathElems idx.vaultPath ++ cs) = some (.dir es) →
      Join idx.vaultPath (relPath cs) = absPath (pathElems idx.vaultPath ++ cs) ∧
      (∀ n, ValidName n →
        (isIndexFile idx (Join (Join idx.vaultPath (relPath cs)) n)
          (Join idx.vaultPath (relPath cs)) = true ↔ n = indexName cs)) ∧
      (osExists w.fs (absPath (pathElems idx.vaultPath ++ cs ++ [indexName cs])) = true →
        indexDirectory idx (relPath cs) w = (w, none)) ∧
      (osExists w.fs (absPath (pathElems idx.vaultPath ++ cs ++ [indexName cs])) = false →
        idx.dryRun = false →
        (∀ es2, w.fs.get (pathElems idx.vaultPath ++ cs ++ [indexName cs ++ ".tmp"])
          ≠ some (.dir es2)) →
        (dirLinks w.fs (pathElems idx.vaultPath) cs es ≠ [] →
          (indexDirectory idx (relPath cs) w).2 = none ∧
          osReadFile (indexDirectory idx (relPath cs) w).1.fs
            (absPath (pathElems idx.vaultPath ++ cs ++ [indexName cs]))
            = some (indexContent (dirLinks w.fs (pathElems idx.vaultPath) cs es)) ∧
          ∀ q, ¬ q <+: pathElems idx.vaultPath ++ cs ++ [indexName cs] →
            ¬ q <+: pathElems idx.vaultPath ++ cs ++ [indexName cs ++ ".tmp"] →
            (indexDirectory idx (relPath cs) w).1.fs.get q = w.fs.get q) ∧
        ∀ links,
          (createIndexFile idx (Join idx.vaultPath (relPath cs)) links w).2 = none ∧
          osReadFile (createIndexFile idx (Join idx.vaultPath (relPath cs)) links w).1.fs
            (absPath (pathElems idx.vaultPath ++ cs ++ [indexName cs]))
            = some (indexContent links) ∧
          ∀ q, ¬ q <+: pathElems idx.vaultPath ++ cs ++ [indexName cs] →
            ¬ q <+: pathElems idx.vaultPath ++ cs ++ [indexName cs ++ ".tmp"] →
            (createIndexFile idx (Join idx.vaultPath (relPath cs)) links w).1.fs.get q
              = w.fs.get q) :=
  ⟨rfl, indexName_snoc, fun cs es hc hg =>
    index_file_of_directory idx w (pathElems idx.vaultPath) cs es
      (vaultAt_of_clean_abs idx hclean habs) hwf hc hg⟩

/-- C5 for the vault `/test/vault` with the note `readme.md`, where the flag
`--dir` was written `/test/vault/`: the configuration is accepted, the root is
processed as `/test/vault`, `indexDirectory` writes `/test/vault/index.md`, and
so does `createIndexFile` with the link of the test. And for the directory
`notes` of the vault `/v`, the index is `/v/notes/notes.md`. -/
theorem C5_index_file_names_witness :
    (runInitConfig "/home/user" "/test/vault/" false false false []).Validate worldT.fs = none ∧
    Join (initIndexator (runInitConfig "/home/user" "/test/vault/" false false false
      [])).vaultPath (relPath []) = "/test/vault" ∧
    osReadFile (indexDirectory (initIndexator (runInitConfig "/home/user" "/test/vault/"
      false false false [])) (relPath []) worldT).1.fs "/test/vault/index.md"
      = some "[[readme.md]]\n" ∧
    osReadFile (createIndexFile (initIndexator (runInitConfig "/home/user" "/test/vault/"
      false false false [])) "/test/vault" ["[[rootfile.md]]"] worldT).1.fs
      "/test/vault/index.md" = some "[[rootfile.md]]\n" ∧
    osReadFile (indexDirectory (NewIndexator "/v") (relPath ["notes"]) worldN).1.fs
      "/v/notes/notes.md"
      = some "[[notes/file1.md]]\n[[notes/file2.md]]\n[[notes/subfolder/subfolder.md]]\n" :=
  ⟨by decide,
   ((C5_index_file_names (initIndexator (runInitConfig "/home/user" "/test/vault/"
      false false false [])) worldT (by decide) (by decide) (by decide)).2.2 []
      [("readme.md", .file "# Readme")] (by decide) rfl).1,
   (((C5_index_file_names (initIndexator (runInitConfig "/home/user" "/test/vault/"
      false false false [])) worldT (by decide) (by decide) (by decide)).2.2 []
      [("readme.md", .file "# Readme")] (by decide) rfl).2.2.2 (by decide) rfl (by
        intro es2 h
        have hn : worldT.fs.get (pathElems "/test/vault" ++ [] ++ [indexName [] ++ ".tmp"])
            = none := rfl
        exact absurd (hn.symm.trans h) (by simp))).1 (by decide) |>.2.1,
   (((C5_index_file_names (initIndexator (runInitConfig "/home/user" "/test/vault/"
      false false false [])) worldT (by decide) (by decide) (by decide)).2.2 []
      [("readme.md", .file "# Readme")] (by decide) rfl).2.2.2 (by decide) rfl (by
        intro es2 h
        have hn : worldT.fs.get (pathElems "/test/vault" ++ [] ++ [indexName [] ++ ".tmp"])
            = none := rfl
        exact absurd (hn.symm.trans h) (by simp))).2 ["[[rootfile.md]]"] |>.2.1,
   (((C5_index_file_names (NewIndexator "/v") worldN (by decide) (by decide)
      (by decide)).2.2 ["notes"] _ (by decide) rfl).2.2.2 (by decide) rfl (by
        intro es2 h
        have hn : worldN.fs.get (pathElems "/v" ++ ["notes"] ++ [indexName ["notes"] ++ ".tmp"])
            = none := rfl
        exact absurd (hn.symm.trans h) (by simp))).1 (by decide) |>.2.1⟩

/-- A vault path that names no directory: `Start` returns the error of
`CollectDirectories` and changes nothing. -/
theorem Start_vault_not_directory
    (sortSlice : (String → String → Bool) → List String → List String)
    (idx : Indexator) (w : World) (vs : List String) (hi : VaultAt idx vs) (hne : vs ≠ [])
    (hg : ∀ es, w.fs.get vs ≠ some (.dir es)) :
    (Start sortSlice idx w).2 ≠ none ∧ (Start sortSlice idx w).1.fs = w.fs := by
  have hc : (CollectDirectories idx w).2.2 ≠ none ∧ (CollectDirectories idx w).1.fs = w.fs := by
    cases h : w.fs.get vs with
    | none => exact CollectDirectories_missing idx w vs hi h
    | some t =>
      cases t with
      | dir es => exact absurd h (hg es)
      | file c => exact CollectDirectories_notDir idx w vs c hi hne h
  unfold Start
  rcases hr : CollectDirectories idx w with ⟨w1, dirs, e⟩
  rw [hr] at hc
  cases e with
  | none => exact absurd rfl hc.1
  | some err => exact ⟨by simp, hc.2⟩

/-- The vault path `/v/a/f.md` names a regular file: `os.Stat` of `/v/a/f.md/.`
fails with `ENOTDIR`, and so do `CollectDirectories` and `Start`, also in a dry
run. The vault path `/v/nope/..` runs through a directory that does not exist:
`ENOENT`. -/
theorem vault_path_naming_a_file :
    osStat worldA.fs "/v/a/f.md/." = .error .notDir ∧
    (CollectDirectories (NewIndexator "/v/a/f.md") worldA).2 = ([], some (.os .notDir)) ∧
    (Start insertionSortLessFunc (NewIndexatorWithOptions "/v/a/f.md" true false []) worldA).2
      = some (.wrap "failed to collect directories" (.os .notDir)) ∧
    (CollectDirectories (NewIndexator "/v/nope/..") worldA).2
      = ([], some (.os .notExist)) :=
  ⟨rfl, by decide, by decide, by decide⟩

end ObsidianIndex
